import Mathlib

/-!
# Spreadsheet core: dependency graph, cycle check, cache invalidation

A shallow embedding of `src/spreadsheet/cell.cpp` and `src/spreadsheet/sheet.cpp`.

* A `Cell*` is represented by the `Position` of the slot that owns the cell: the sheet
  creates at most one cell per slot, and a slot whose cell was destroyed holds `nullptr`
  for ever (writing to it dereferences a null `unique_ptr`).
* A pointer whose slot is absent or holds `nullptr` is dangling; dereferencing it, or a null
  `unique_ptr`, is `Outcome.undefined`.
* A dangling pointer keeps the name of the slot whose cell was destroyed and is equal to no
  cell that is alive. The allocator may give a cell made later the address of a destroyed one;
  the stored pointer then compares equal to the new cell. The properties stated below read
  membership of a dangling name in an edge set only in states where no cell was made after
  the `ClearCell`.
* `std::unordered_set<Cell*>` is a duplicate-free `List Position`; only membership is used in
  the statements.
* Exceptions keep the state in which they were thrown, so that "nothing changed" is a
  statement about that state.
* Recursion and loops of the source run on fuel taken from the size of the sheet;
  `Outcome.timeout` is the answer of an exhausted run and is shown not to occur where a
  property says that the code returns.
-/

namespace Spreadsheet

/-! ## Types of `common.h` and `formula.h` -/

/-- Position of `common.h`: a pair of `int` coordinates. -/
structure Position where
  row : Int
  col : Int
deriving DecidableEq, Repr

/-- The three exceptions of the sheet interface. -/
inductive Exc where
  | InvalidPositionException
  | FormulaException
  | CircularDependencyException
deriving DecidableEq, Repr

/-- The variant `CellInterface::Value`: `std::string`, `double` or `FormulaError`. -/
inductive Value (Num FErr : Type) where
  | str (s : String)
  | num (d : Num)
  | err (e : FErr)
deriving DecidableEq, Repr

/-- The variant `FormulaInterface::Value`: `double` or `FormulaError`. -/
inductive FValue (Num FErr : Type) where
  | num (d : Num)
  | err (e : FErr)
deriving DecidableEq, Repr

/-- What the evaluator sees when it looks a position up in the sheet. -/
inductive CellLookup (Num FErr : Type) where
  | outOfRange
  | noCell
  | value (v : Value Num FErr)
deriving DecidableEq, Repr

/-- Modelled from the spec: the external formula capability and the position range of
`common.h` / `formula.h`, which are not part of the sources. `Num` stands for `double`,
`FErr` for `FormulaError`, `Handle` for a parsed `FormulaInterface`; `ParseFormula` answers
`none` for a parse failure; `Evaluate` computes the formula from the values of the cells it
reads. -/
structure Formulas where
  Num : Type
  FErr : Type
  Handle : Type
  IsValid : Position → Bool
  ParseFormula : String → Option Handle
  GetExpression : Handle → String
  GetReferencedCells : Handle → List Position
  Evaluate : Handle → (Position → CellLookup Num FErr) → FValue Num FErr

/-- Modelled from the spec: the formula marker `=` (`FORMULA_SIGN` of `common.h`). -/
def FORMULA_SIGN : Char := Char.ofNat 61

/-- Modelled from the spec: the escape marker, an apostrophe (`ESCAPE_SIGN` of `common.h`). -/
def ESCAPE_SIGN : Char := Char.ofNat 39

/-! ## Cells and the sheet -/

variable {E : Formulas}

/-- The three subclasses of `Cell::Impl` with their data members. -/
inductive Impl (E : Formulas) where
  | EmptyImpl
  | TextImpl (text_ : String) (value_ : String)
  | FormulaImpl (formula_ptr_ : E.Handle) (text_ : String)
      (cache_ : Option (FValue E.Num E.FErr))

/-- The class `Cell`: its implementation object and the two adjacency sets. The member
`Cell::cache_` is never read or written by the sources and is left out. -/
structure Cell (E : Formulas) where
  impl_ : Impl E
  dep_cells_ : List Position
  ref_cells_ : List Position

/-- The class `Sheet`: `cells_` as the list of its keys and the `unique_ptr` stored under each
key (`none` is `nullptr`). -/
structure Sheet (E : Formulas) where
  keys : List Position
  slot : Position → Option (Cell E)

/-- Result of running a piece of the source from a state. -/
inductive Outcome (σ α : Type) where
  | ok (a : α) (s : σ)
  | threw (e : Exc) (s : σ)
  | undefined
  | timeout

/-- Sequencing of two pieces of code. -/
def Outcome.bind {σ α β : Type} (x : Outcome σ α) (f : α → σ → Outcome σ β) : Outcome σ β :=
  match x with
  | .ok a s => f a s
  | .threw e s => .threw e s
  | .undefined => .undefined
  | .timeout => .timeout

/-- A range-based `for` over `xs` whose body may throw. -/
def forEach {σ α : Type} (body : α → σ → Outcome σ Unit) : List α → σ → Outcome σ Unit
  | [], s => .ok () s
  | x :: xs, s => (body x s).bind (fun _ s1 => forEach body xs s1)

/-- The sheet of `CreateSheet()`. -/
def Sheet.empty : Sheet E := ⟨[], fun _ => none⟩

/-- The cell a `Cell*` for position `p` points to, if it is alive. -/
def Sheet.live (sh : Sheet E) (p : Position) : Option (Cell E) :=
  if p ∈ sh.keys then sh.slot p else none

/-- Overwrite the cell object stored under `p`. -/
def Sheet.put (sh : Sheet E) (p : Position) (c : Option (Cell E)) : Sheet E :=
  ⟨sh.keys, Function.update sh.slot p c⟩

/-- The statement `cells_[pos] = std::make_unique<Cell>(*this)` for a new key. -/
def Sheet.create (sh : Sheet E) (p : Position) : Sheet E :=
  ⟨sh.keys ++ [p], Function.update sh.slot p (some ⟨.EmptyImpl, [], []⟩)⟩

/-- The statement `if (!cells_.count(pos)) cells_[pos] = std::make_unique<Cell>(*this)`. -/
def Sheet.ensure (sh : Sheet E) (p : Position) : Sheet E :=
  if p ∈ sh.keys then sh else sh.create p

/-! ## `Cell::Impl` -/

/-- The virtual `GetReferencedCells` of the implementation classes. -/
def Impl.GetReferencedCells : Impl E → List Position
  | .FormulaImpl h _ _ => E.GetReferencedCells h
  | _ => []

/-- The virtual `HasCache`: `true` by default, `cache_.has_value()` for a formula. -/
def Impl.HasCache : Impl E → Bool
  | .FormulaImpl _ _ cache => cache.isSome
  | _ => true

/-- The virtual `InvalidateCache`: nothing by default, `cache_.reset()` for a formula. -/
def Impl.InvalidateCache : Impl E → Impl E
  | .FormulaImpl h t _ => .FormulaImpl h t none
  | i => i

/-- The virtual `GetText`. -/
def Impl.GetText : Impl E → String
  | .EmptyImpl => ""
  | .TextImpl t _ => t
  | .FormulaImpl _ t _ => t

/-- Constructor of `TextImpl`: the text is kept, the value drops one leading escape sign. -/
def mkTextImpl (text : String) : Impl E :=
  .TextImpl text (if text.data.head? = some ESCAPE_SIGN then String.mk (text.data.drop 1) else text)

/-- Constructor of `FormulaImpl`: parses `text.substr(1)`; `none` is the parser's exception. -/
def mkFormulaImpl (text : String) : Option (Impl E) :=
  match E.ParseFormula (String.mk (text.data.drop 1)) with
  | none => none
  | some h => some (.FormulaImpl h (String.mk (FORMULA_SIGN :: (E.GetExpression h).data)) none)

/-- The first lines of `Cell::Set`: the choice of the implementation class. -/
def buildImpl (text : String) : Option (Impl E) :=
  if text.data.isEmpty then some .EmptyImpl
  else if text.data.length > 1 ∧ text.data.head? = some FORMULA_SIGN then mkFormulaImpl text
  else some (mkTextImpl text)

/-! ## `Sheet::GetPtr` and the cycle check -/

/-- The const `Sheet::GetPtr`: the pointer stored under `pos` (`none` is `nullptr`). -/
def GetPtr (sh : Sheet E) (pos : Position) : Outcome (Sheet E) (Option Position) :=
  if !E.IsValid pos then .threw .InvalidPositionException sh
  else if pos ∈ sh.keys then
    match sh.slot pos with
    | some _ => .ok (some pos) sh
    | none => .ok none sh
  else .ok none sh

/-- The first loop of `HasCircularDependency`: the set of `GetPtr(pos)` over the references. -/
def collectRefCells (sh : Sheet E) : List Position → List (Option Position) →
    Outcome Unit (List (Option Position))
  | [], acc => .ok acc ()
  | pos :: rest, acc =>
    match GetPtr sh pos with
    | .ok ptr _ => collectRefCells sh rest (List.insert ptr acc)
    | .threw e _ => .threw e ()
    | .undefined => .undefined
    | .timeout => .timeout

/-- The inner `for` of the worklist loop: push every dependent that is not yet visited. -/
def pushUnvisited (visited : List Position) (deps : List Position) (to_visit : List Position) :
    List Position :=
  deps.foldl (fun st cell => if cell ∈ visited then st else cell :: st) to_visit

/-- The `while` loop of `HasCircularDependency`; `to_visit` has its top at the head. -/
def searchLoop (sh : Sheet E) (ref_cells : List (Option Position)) :
    Nat → List Position → List Position → Outcome Unit Bool
  | 0, _, _ => .timeout
  | _ + 1, _, [] => .ok false ()
  | fuel + 1, visited, current :: to_visit =>
    if some current ∈ ref_cells then .threw .CircularDependencyException ()
    else
      match sh.live current with
      | none => .undefined
      | some c =>
        searchLoop sh ref_cells fuel (current :: visited)
          (pushUnvisited (current :: visited) c.dep_cells_ to_visit)

/-- The `dep_cells_` of the cell at `p`, empty for a dangling pointer. -/
def Sheet.deps (sh : Sheet E) (p : Position) : List Position :=
  match sh.live p with
  | some c => c.dep_cells_
  | none => []

/-- Fuel of the worklist loop: one pop for the source, one for every stored dependent edge. -/
def searchFuel (sh : Sheet E) : Nat :=
  (sh.keys.map (fun p => (sh.deps p).length)).sum + 2

/-- The method `Cell::HasCircularDependency` of the cell at `this`. -/
def HasCircularDependency (sh : Sheet E) (this : Position) (impl : Impl E) :
    Outcome Unit Bool :=
  if impl.GetReferencedCells.isEmpty then .ok false ()
  else
    match collectRefCells sh impl.GetReferencedCells [] with
    | .ok ref_cells _ => searchLoop sh ref_cells (searchFuel sh) [] [this]
    | .threw e _ => .threw e ()
    | .undefined => .undefined
    | .timeout => .timeout

/-! ## `Cell::InvalidateAllCache` -/

/-- The recursive `Cell::InvalidateAllCache` of the cell at `this`; the fuel bounds the depth
of the recursion. -/
def InvalidateAllCache : Nat → Position → Sheet E → Outcome (Sheet E) Unit
  | 0, _, _ => .timeout
  | fuel + 1, this, sh =>
    match sh.live this with
    | none => .undefined
    | some c =>
      if c.impl_.HasCache then
        forEach (InvalidateAllCache fuel) c.dep_cells_
          (sh.put this (some { c with impl_ := c.impl_.InvalidateCache }))
      else .ok () sh

/-! ## `Cell::Set`, `Sheet::SetCell`, `Sheet::ClearCell` -/

/-- Body of the first `for` of `Cell::Set`: `outgoing->dep_cells_.erase(this)`. -/
def eraseDep (this : Position) (outgoing : Position) (sh : Sheet E) : Outcome (Sheet E) Unit :=
  match sh.live outgoing with
  | none => .undefined
  | some c =>
    .ok () (sh.put outgoing (some { c with dep_cells_ := c.dep_cells_.filter (fun x => x ≠ this) }))

/-- The last two statements of the body of the `for` of `Cell::RefCellsProcessing`:
`ref_cells_.insert(outgoing); outgoing->dep_cells_.insert(this)`. -/
def attach (this : Position) (outgoing : Position) (sh : Sheet E) : Outcome (Sheet E) Unit :=
  match sh.live this with
  | none => .undefined
  | some c =>
    let sh1 := sh.put this (some { c with ref_cells_ := List.insert outgoing c.ref_cells_ })
    match sh1.live outgoing with
    | none => .undefined
    | some oc =>
      .ok () (sh1.put outgoing (some { oc with dep_cells_ := List.insert this oc.dep_cells_ }))

/-- Body of the `for` of `Cell::RefCellsProcessing`; `setEmpty pos` is the call
`sheet_.SetCell(pos, "")`. -/
def linkRef (setEmpty : Position → Sheet E → Outcome (Sheet E) Unit) (this : Position)
    (pos : Position) (sh : Sheet E) : Outcome (Sheet E) Unit :=
  (GetPtr sh pos).bind fun outgoing sh1 =>
    (match outgoing with
      | some _ => Outcome.ok () sh1
      | none => setEmpty pos sh1).bind fun _ sh2 =>
    (GetPtr sh2 pos).bind fun outgoing2 sh3 =>
      match outgoing2 with
      | some o => attach this o sh3
      | none => .undefined

/-- The method `Cell::RefCellsProcessing`. -/
def RefCellsProcessing (setEmpty : Position → Sheet E → Outcome (Sheet E) Unit)
    (this : Position) (vec : List Position) (sh : Sheet E) : Outcome (Sheet E) Unit :=
  forEach (linkRef setEmpty this) vec sh

/-- Lines 104 to 110 of `Cell::Set`: the new implementation object is moved in, the old
outgoing edges are detached, `ref_cells_` is cleared, the new edges are attached. -/
def Cell.install (setEmpty : Position → Sheet E → Outcome (Sheet E) Unit) (this : Position)
    (impl : Impl E) (sh : Sheet E) : Outcome (Sheet E) Unit :=
  match sh.live this with
  | none => .undefined
  | some c =>
    (forEach (eraseDep this) c.ref_cells_ (sh.put this (some { c with impl_ := impl }))).bind
      fun _ sh2 =>
        match sh2.live this with
        | none => .undefined
        | some c2 =>
          RefCellsProcessing setEmpty this impl.GetReferencedCells
            (sh2.put this (some { c2 with ref_cells_ := [] }))

/-- The method `Cell::Set` of the cell at `this`, which is alive: build the implementation
object, run the cycle check, install, invalidate. -/
def Cell.Set (setEmpty : Position → Sheet E → Outcome (Sheet E) Unit) (this : Position)
    (text : String) (sh : Sheet E) : Outcome (Sheet E) Unit :=
  match buildImpl text with
  | none => .threw .FormulaException sh
  | some (impl : Impl E) =>
    match HasCircularDependency sh this impl with
    | .threw e _ => .threw e sh
    | .undefined => .undefined
    | .timeout => .timeout
    | .ok _ _ =>
      (Cell.install setEmpty this impl sh).bind fun _ sh4 =>
        InvalidateAllCache (sh4.keys.length + 1) this sh4

/-- The method `Sheet::SetCell`; `depth` counts how deep `RefCellsProcessing` may call back
into `SetCell`. -/
def SetCellAux : Nat → Position → String → Sheet E → Outcome (Sheet E) Unit
  | 0, _, _, _ => .timeout
  | depth + 1, pos, text, sh =>
    if !E.IsValid pos then .threw .InvalidPositionException sh
    else
      match (sh.ensure pos).slot pos with
      | none => .undefined
      | some _ => Cell.Set (fun p s => SetCellAux depth p "" s) pos text (sh.ensure pos)

/-- The method `Sheet::SetCell`: the call made by `RefCellsProcessing` has empty text and so
calls back no further. -/
def SetCell (pos : Position) (text : String) (sh : Sheet E) : Outcome (Sheet E) Unit :=
  SetCellAux 2 pos text sh

/-- The method `Sheet::GetCell`, which is `GetPtr`. -/
def GetCell (sh : Sheet E) (pos : Position) : Outcome (Sheet E) (Option Position) :=
  GetPtr sh pos

/-- The method `Sheet::ClearCell`: a present slot is reset to `nullptr`. -/
def ClearCell (pos : Position) (sh : Sheet E) : Outcome (Sheet E) Unit :=
  if !E.IsValid pos then .threw .InvalidPositionException sh
  else if pos ∈ sh.keys then .ok () (sh.put pos none)
  else .ok () sh

/-! ## `Cell::GetValue` -/

/-- The table of looked-up cells as the lookup function handed to the evaluator. -/
def tableLookup (tbl : List (Position × CellLookup E.Num E.FErr)) (p : Position) :
    CellLookup E.Num E.FErr :=
  match tbl.lookup p with
  | some v => v
  | none => .noCell

/-- Modelled from the spec: the cell lookups of `FormulaInterface::Evaluate(sheet)`, whose code
is not part of the sources. The evaluator reads the positions of `GetReferencedCells` in
order: a position out of range is an error value, `sheet.GetCell(pos)` answering `nullptr`
is "no cell", any other cell is asked for `GetValue()`. The second component of the result
logs the cells whose formula was evaluated on the way. -/
def lookupCells
    (getValue : Position → Sheet E → Outcome (Sheet E) (Value E.Num E.FErr × List Position)) :
    List Position → Sheet E →
      Outcome (Sheet E) (List (Position × CellLookup E.Num E.FErr) × List Position)
  | [], sh => .ok ([], []) sh
  | p :: ps, sh =>
    if !E.IsValid p then
      (lookupCells getValue ps sh).bind fun r s => .ok ((p, .outOfRange) :: r.1, r.2) s
    else
      match sh.live p with
      | none => (lookupCells getValue ps sh).bind fun r s => .ok ((p, .noCell) :: r.1, r.2) s
      | some _ =>
        (getValue p sh).bind fun v s1 =>
          (lookupCells getValue ps s1).bind fun r s2 =>
            .ok ((p, .value v.1) :: r.1, v.2 ++ r.2) s2

/-- Modelled from the spec: one call `formula_ptr_->Evaluate(sheet_)` made by the cell at
`this`; the call is logged. -/
def EvaluateOn
    (getValue : Position → Sheet E → Outcome (Sheet E) (Value E.Num E.FErr × List Position))
    (this : Position) (h : E.Handle) (sh : Sheet E) :
    Outcome (Sheet E) (FValue E.Num E.FErr × List Position) :=
  (lookupCells getValue (E.GetReferencedCells h) sh).bind fun r s =>
    .ok (E.Evaluate h (tableLookup r.1), this :: r.2) s

/-- The assignment `cache_ = value` inside the `FormulaImpl` of the cell at `this`. -/
def setCache (sh : Sheet E) (this : Position) (v : FValue E.Num E.FErr) : Sheet E :=
  match sh.live this with
  | some ⟨.FormulaImpl h t _, d, r⟩ => sh.put this (some ⟨.FormulaImpl h t (some v), d, r⟩)
  | _ => sh

/-- The conversion at the end of `FormulaImpl::GetValue`. -/
def FValue.toValue {Num FErr : Type} : FValue Num FErr → Value Num FErr
  | .num d => .num d
  | .err e => .err e

/-- The method `Cell::GetValue` of the cell at `this`, through the `GetValue` of its
implementation object. The result carries the log of `Evaluate` calls. -/
def Cell.GetValue : Nat → Position → Sheet E →
    Outcome (Sheet E) (Value E.Num E.FErr × List Position)
  | 0, _, _ => .timeout
  | fuel + 1, this, sh =>
    match sh.live this with
    | none => .undefined
    | some c =>
      match c.impl_ with
      | .EmptyImpl => .ok (.str "", []) sh
      | .TextImpl _ v => .ok (.str v, []) sh
      | .FormulaImpl h _ cache =>
        (match cache with
          | some _ => Outcome.ok [] sh
          | none =>
            (EvaluateOn (Cell.GetValue fuel) this h sh).bind fun r s =>
              .ok r.2 (setCache s this r.1)).bind fun log1 s1 =>
        (EvaluateOn (Cell.GetValue fuel) this h s1).bind fun r s2 =>
          .ok (r.1.toValue, log1 ++ r.2) s2

/-- The call `sheet.GetCell(pos)->GetValue()`. -/
def GetValue (pos : Position) (sh : Sheet E) :
    Outcome (Sheet E) (Value E.Num E.FErr × List Position) :=
  (GetCell sh pos).bind fun ptr s =>
    match ptr with
    | none => .undefined
    | some p => Cell.GetValue (s.keys.length + 1) p s

/-! ## `Sheet::GetPrintableSize` -/

/-- Size of `common.h`. -/
structure Size where
  rows : Int
  cols : Int
deriving DecidableEq, Repr

/-- The method `Sheet::GetPrintableSize`: the bounding box of the slots that are not null. -/
def GetPrintableSize (sh : Sheet E) : Size :=
  sh.keys.foldl
    (fun result p =>
      match sh.slot p with
      | some _ => ⟨max result.rows (p.row + 1), max result.cols (p.col + 1)⟩
      | none => result)
    ⟨0, 0⟩

/-! ## A small formula capability for concrete runs -/

/-- Expressions of the demonstration formulas: literals, cell references, sums. -/
inductive DemoExpr where
  | lit (n : Int)
  | cell (p : Position)
  | add (a b : DemoExpr)
deriving DecidableEq, Repr

/-- Cells read by a demonstration expression. -/
def DemoExpr.cells : DemoExpr → List Position
  | .lit _ => []
  | .cell p => [p]
  | .add a b => a.cells ++ b.cells

/-- Decimal reading of a text cell, `none` when it is not a number. -/
def demoNumber (cs : List Char) : Option Int :=
  if cs.all Char.isDigit then some (cs.foldl (fun acc c => 10 * acc + ((c.toNat : Int) - 48)) 0)
  else none

/-- Value of a demonstration expression; an error value absorbs the sum. -/
def DemoExpr.eval (look : Position → CellLookup Int Unit) : DemoExpr → FValue Int Unit
  | .lit n => .num n
  | .cell p =>
    match look p with
    | .outOfRange => .err ()
    | .noCell => .num 0
    | .value (.num d) => .num d
    | .value (.err e) => .err e
    | .value (.str s) =>
      match demoNumber s.data with
      | some n => .num n
      | none => .err ()
  | .add a b =>
    match a.eval look, b.eval look with
    | .num x, .num y => .num (x + y)
    | .err e, _ => .err e
    | _, .err e => .err e

/-- Canonical text of a demonstration expression. -/
def DemoExpr.text : DemoExpr → String
  | .lit n => toString n
  | .cell p => "R" ++ toString p.row ++ "C" ++ toString p.col
  | .add a b => a.text ++ "+" ++ b.text

def A1 : Position := ⟨0, 0⟩
def A2 : Position := ⟨1, 0⟩
def A3 : Position := ⟨2, 0⟩
def B1 : Position := ⟨0, 1⟩

/-- A formula capability with a handful of parsable texts, over the integers. -/
def demo : Formulas where
  Num := Int
  FErr := Unit
  Handle := DemoExpr
  IsValid p := decide (0 ≤ p.row ∧ p.row < 16384 ∧ 0 ≤ p.col ∧ p.col < 16384)
  ParseFormula s :=
    [("1", DemoExpr.lit 1), ("A1", .cell A1), ("A2", .cell A2), ("A3", .cell A3),
      ("B1", .cell B1), ("A1+A2", .add (.cell A1) (.cell A2))].lookup s
  GetExpression h := h.text
  GetReferencedCells h := h.cells.dedup
  Evaluate h look := h.eval look

/-! ## Views of a sheet -/

/-- The `ref_cells_` of the cell at `p`, empty for a dangling pointer. -/
def Sheet.refs (sh : Sheet E) (p : Position) : List Position :=
  match sh.live p with
  | some c => c.ref_cells_
  | none => []

/-- The implementation object of the cell at `p`. -/
def Sheet.impl (sh : Sheet E) (p : Position) : Option (Impl E) :=
  (sh.live p).map (fun c => c.impl_)


/-! ## Runs of the public interface -/

/-- One call of the public interface: `SetCell`, `ClearCell`, or `GetCell(pos)->GetValue()`. -/
inductive Op where
  | set (pos : Position) (text : String)
  | clear (pos : Position)
  | value (pos : Position)
deriving DecidableEq, Repr

/-- The state a call leaves behind, whether it returned or threw. -/
def Outcome.state? {σ α : Type} : Outcome σ α → Option σ
  | .ok _ s => some s
  | .threw _ s => some s
  | .undefined => none
  | .timeout => none

/-- The state after one call, `none` when the call has no defined result. -/
def Op.apply : Op → Sheet E → Option (Sheet E)
  | .set pos text, sh => (SetCell pos text sh).state?
  | .clear pos, sh => (ClearCell pos sh).state?
  | .value pos, sh => (GetValue pos sh).state?

/-- The state after a sequence of calls. -/
def run : List Op → Sheet E → Option (Sheet E)
  | [], sh => some sh
  | op :: ops, sh => (op.apply sh).bind (run ops)

/-- The call is a `SetCell`. -/
def Op.isSet : Op → Bool
  | .set _ _ => true
  | _ => false

/-- The call is a `SetCell` or a `ClearCell`. -/
def Op.isEdit : Op → Bool
  | .value _ => false
  | _ => true

/-- The call is a `SetCell` or a `GetValue`. -/
def Op.isSetOrValue : Op → Bool
  | .clear _ => false
  | _ => true

/-! ## The reference graph -/

/-- The edge "the cell at `a` has the cell at `b` in its `ref_cells_`". -/
def RefEdge (sh : Sheet E) (a b : Position) : Prop := b ∈ sh.refs a

/-- The edge "the cell at `a` has the cell at `b` in its `dep_cells_`". -/
def DepEdge (sh : Sheet E) (a b : Position) : Prop := b ∈ sh.deps a

/-- The cell at `a` depends on the cell at `b` through one or more reference edges. -/
def DependsOn (sh : Sheet E) (a b : Position) : Prop := Relation.TransGen (RefEdge sh) a b

/-- No cell depends on itself: the reference graph has no cycle and no self-loop. -/
def Acyclic (sh : Sheet E) : Prop := ∀ p, ¬ DependsOn sh p p

/-- Two sheets with the same keys, the same edges and the same implementation objects up to
the content of the formula caches. -/
def SameUpToCache (s s' : Sheet E) : Prop :=
  s'.keys = s.keys ∧ (∀ q, s'.refs q = s.refs q) ∧ (∀ q, s'.deps q = s.deps q) ∧
    (∀ q, (s'.impl q).map Impl.InvalidateCache = (s.impl q).map Impl.InvalidateCache)

/-- The cell at `b` is reached from the cell at `a` along `dep_cells_` edges. -/
def Reach (sh : Sheet E) (a b : Position) : Prop := Relation.ReflTransGen (DepEdge sh) a b

/-- Number of stored dependent edges leaving the keys that are not yet visited. -/
def searchWeight (sh : Sheet E) (visited : List Position) : Nat :=
  ((sh.keys.filter (fun p => decide (p ∉ visited))).map (fun p => (sh.deps p).length)).sum

/-- The invariant of the worklist loop of `HasCircularDependency`. -/
structure LoopInv (sh : Sheet E) (this : Position) (ref_cells : List (Option Position))
    (visited to_visit : List Position) : Prop where
  reach : ∀ x ∈ to_visit, Reach sh this x
  clean : ∀ v ∈ visited, some v ∉ ref_cells
  closed : ∀ v ∈ visited, ∀ d ∈ sh.deps v, d ∈ visited ∨ d ∈ to_visit
  above : ∀ pre v post, to_visit = pre ++ v :: post → v ∈ visited →
    ∀ d ∈ sh.deps v, d ∉ visited → d ∈ pre
  source : this ∈ visited ∨ this ∈ to_visit

/-- What every sheet built by `SetCell` and `ClearCell` satisfies, with a dangling pointer
named by its cleared slot: every stored edge points to a key of the sheet, and among the names
of cells that are alive the two adjacency sets are transposes. -/
structure Linked (sh : Sheet E) : Prop where
  closed : ∀ p q, q ∈ sh.refs p ∨ q ∈ sh.deps p → q ∈ sh.keys
  sym : ∀ p q, (sh.live p).isSome → (sh.live q).isSome → (q ∈ sh.refs p ↔ p ∈ sh.deps q)

/-- The sheet after a sequence of calls on the empty sheet of the demonstration formulas. -/
def demoSheet (ops : List Op) : Sheet demo :=
  (run ops Sheet.empty).getD Sheet.empty

/-- The log of `Evaluate` calls of a `GetValue`, empty when the call has no result. -/
def evaluateLog {σ V : Type} : Outcome σ (V × List Position) → List Position
  | .ok r _ => r.2
  | _ => []

/-- The value returned by a `GetValue`. -/
def returnedValue {σ V : Type} : Outcome σ (V × List Position) → Option V
  | .ok r _ => some r.1
  | _ => none

/-- What every sheet built by `SetCell` and `GetValue` satisfies: the edges are linked, no slot
holds `nullptr`, the reference graph has no cycle, the `ref_cells_` of a cell are the cells
its implementation object reports, and every key is a valid position. -/
structure Good (sh : Sheet E) : Prop where
  linked : Linked sh
  noNull : ∀ p ∈ sh.keys, (sh.live p).isSome
  acyclic : Acyclic sh
  content : ∀ p i, sh.impl p = some i → ∀ q, q ∈ sh.refs p ↔ q ∈ i.GetReferencedCells
  valid : ∀ p ∈ sh.keys, E.IsValid p = true

/-- A run of `SetCell` calls with two rejected cycles. -/
def cycleRun : List Op :=
  [.set A1 "=A2", .set A2 "=A1", .set A3 "=A1+A2", .set A2 "=A3", .set A3 "=A3"]

/-! ## The value of a cell as the spec words it -/

/-- Spec side of `lookupCells`: the table of the cells a formula reads, each with its current
value, computed from the contents of the sheet; no cache is read or written. -/
def readCells (value : Position → Option (Value E.Num E.FErr)) (sh : Sheet E) :
    List Position → Option (List (Position × CellLookup E.Num E.FErr))
  | [] => some []
  | p :: ps =>
    if !E.IsValid p then (readCells value sh ps).map (fun t => (p, .outOfRange) :: t)
    else
      match sh.impl p with
      | none => (readCells value sh ps).map (fun t => (p, .noCell) :: t)
      | some _ =>
        match value p, readCells value sh ps with
        | some v, some t => some ((p, .value v) :: t)
        | _, _ => none

/-- Spec side of `Cell::GetValue`: "the result of evaluating the content against the current
sheet". An empty cell is the empty text, a text cell its stored value, a formula cell the
evaluation of its formula over the current values of the cells it reads; the cache of no cell
takes part. -/
def currentValue : Nat → Sheet E → Position → Option (Value E.Num E.FErr)
  | 0, _, _ => none
  | fuel + 1, sh, p =>
    match sh.impl p with
    | none => none
    | some .EmptyImpl => some (.str "")
    | some (.TextImpl _ v) => some (.str v)
    | some (.FormulaImpl h _ _) =>
      (readCells (currentValue fuel sh) sh (E.GetReferencedCells h)).map
        (fun t => (E.Evaluate h (tableLookup t)).toValue)

/-- The run of the spec's end-to-end example up to the first read. -/
def sumRun : List Op := [.set A1 "1", .set A2 "2", .set A3 "=A1+A2"]

/-- The run of the spec's end-to-end example: a read, then an edit of `A1`. -/
def editRun : List Op := [.set A1 "1", .set A2 "2", .set A3 "=A1+A2", .value A3, .set A1 "10"]

/-! ## Runs used by the properties of the cleared slot and of the printable size -/

/-- A cell is written and then cleared. -/
def clearedRun : List Op := [.set A1 "x", .clear A1]

/-- A formula cell whose target is cleared afterwards. -/
def clearedTargetRun : List Op := [.set B1 "=A1", .clear A1]

/-! ## The loops of the source with a record of what they touch -/

/-- A range-based `for` whose body reports a list; the reports are concatenated. -/
def forEachLog {σ α β : Type} (body : α → σ → Outcome σ (List β)) :
    List α → σ → Outcome σ (List β)
  | [], s => .ok [] s
  | x :: xs, s =>
    (body x s).bind fun log1 s1 =>
      (forEachLog body xs s1).bind fun log2 s2 => .ok (log1 ++ log2) s2

/-- The method `Cell::InvalidateAllCache` as in `InvalidateAllCache`, reporting in order the
cells on which `impl_->InvalidateCache()` was called. -/
def InvalidateAllCacheLog : Nat → Position → Sheet E → Outcome (Sheet E) (List Position)
  | 0, _, _ => .timeout
  | fuel + 1, this, sh =>
    match sh.live this with
    | none => .undefined
    | some c =>
      if c.impl_.HasCache then
        (forEachLog (InvalidateAllCacheLog fuel) c.dep_cells_
          (sh.put this (some { c with impl_ := c.impl_.InvalidateCache }))).bind
          fun log s => .ok (this :: log) s
      else .ok [] sh

/-- The result of a piece of code without its returned value. -/
def Outcome.forget {σ α : Type} : Outcome σ α → Outcome σ Unit
  | .ok _ s => .ok () s
  | .threw e s => .threw e s
  | .undefined => .undefined
  | .timeout => .timeout

/-- The `while` loop of `HasCircularDependency` as in `searchLoop`, reporting the cells it
popped, the last one first, next to its result. -/
def searchPopped (sh : Sheet E) (ref_cells : List (Option Position)) :
    Nat → List Position → List Position → List Position × Outcome Unit Bool
  | 0, visited, _ => (visited, .timeout)
  | _ + 1, visited, [] => (visited, .ok false ())
  | fuel + 1, visited, current :: to_visit =>
    if some current ∈ ref_cells then (current :: visited, .threw .CircularDependencyException ())
    else
      match sh.live current with
      | none => (current :: visited, .undefined)
      | some c =>
        searchPopped sh ref_cells fuel (current :: visited)
          (pushUnvisited (current :: visited) c.dep_cells_ to_visit)

/-- The cell at `p` is a formula cell. -/
def Sheet.isFormula (sh : Sheet E) (p : Position) : Prop :=
  ∃ f t c, sh.impl p = some (.FormulaImpl f t c)

/-- The cell at `p` is a formula cell whose cache is empty. -/
def Sheet.emptyCache (sh : Sheet E) (p : Position) : Prop :=
  ∃ f t, sh.impl p = some (.FormulaImpl f t none)

/-- What a run of `InvalidateAllCache` from `s` to `s'` with the report `log` satisfies. -/
structure Invalidated (s : Sheet E) (log : List Position) (s' : Sheet E) : Prop where
  skipped : ∀ p, s.emptyCache p → p ∉ log ∧ s'.emptyCache p
  cleared : ∀ p ∈ log, s.isFormula p → s'.emptyCache p
  once : ∀ p, s.isFormula p → log.count p ≤ 1
  kept : ∀ p, s'.isFormula p ↔ s.isFormula p

/-- A diamond: `A1` and `A2` read `B1`, `A3` reads both; every cache is filled by a read. -/
def diamondRun : List Op :=
  [.set A1 "=B1", .set A2 "=B1", .set A3 "=A1+A2", .value A3]

/-- The report of a logged loop, empty when it has no result. -/
def reportOf {σ β : Type} : Outcome σ (List β) → List β
  | .ok log _ => log
  | _ => []

/-- Two sheets that store the same cells and the same dependents, possibly in another order:
the `dep_cells_` sets are iterated in an order the source does not fix. -/
def SameGraph (sh sh' : Sheet E) : Prop :=
  (∀ p, (sh'.live p).isSome = (sh.live p).isSome) ∧ (∀ p x, x ∈ sh'.deps p ↔ x ∈ sh.deps p)

/-- A sheet in which `A1` has the dependent `A2`. -/
def dependentRun : List Op := [.set A2 "=A1"]

/-! ## `Sheet::PrintTexts` and `Sheet::PrintValues` -/

/-- The position `{row, col}` of a loop of the print methods. -/
def cellAt (row col : Nat) : Position := ⟨(row : Int), (col : Int)⟩

/-- The inner `for` of `Sheet::PrintTexts` over the columns `cols` of one row, appending to
`output`. -/
def printTextsCols (sh : Sheet E) (row : Nat) : List Nat → String → String
  | [], output => output
  | col :: cols, output =>
    let output := if col > 0 then output ++ "\t" else output
    match sh.live (cellAt row col) with
    | some c =>
      if c.impl_.GetText ≠ "" then printTextsCols sh row cols (output ++ c.impl_.GetText)
      else printTextsCols sh row cols output
    | none => printTextsCols sh row cols output

/-- The outer `for` of `Sheet::PrintTexts` over the rows `rows`, for `cols` columns. -/
def printTextsRows (sh : Sheet E) (cols : Nat) : List Nat → String → String
  | [], output => output
  | row :: rows, output =>
    printTextsRows sh cols rows (printTextsCols sh row (List.range cols) output ++ "\n")

/-- The method `Sheet::PrintTexts`: what it writes to a stream that was empty. -/
def PrintTexts (sh : Sheet E) : String :=
  printTextsRows sh (GetPrintableSize sh).cols.toNat
    (List.range (GetPrintableSize sh).rows.toNat) ""

/-- The visitor of `Sheet::PrintValues`: `output << value` for the alternative held; the
stream operators of `double` and `FormulaError` are parameters. -/
def showValue (showNum : E.Num → String) (showErr : E.FErr → String) :
    Value E.Num E.FErr → String
  | .str s => s
  | .num d => showNum d
  | .err e => showErr e

/-- The inner `for` of `Sheet::PrintValues`; `GetValue()` may fill caches, so the sheet is
threaded through. -/
def printValuesCols (showNum : E.Num → String) (showErr : E.FErr → String) (row : Nat) :
    List Nat → Sheet E → String → Outcome (Sheet E) String
  | [], sh, output => .ok output sh
  | col :: cols, sh, output =>
    let output := if col > 0 then output ++ "\t" else output
    match sh.live (cellAt row col) with
    | some c =>
      if c.impl_.GetText ≠ "" then
        (Cell.GetValue (sh.keys.length + 1) (cellAt row col) sh).bind fun r s =>
          printValuesCols showNum showErr row cols s (output ++ showValue showNum showErr r.1)
      else printValuesCols showNum showErr row cols sh output
    | none => printValuesCols showNum showErr row cols sh output

/-- The outer `for` of `Sheet::PrintValues`. -/
def printValuesRows (showNum : E.Num → String) (showErr : E.FErr → String) (cols : Nat) :
    List Nat → Sheet E → String → Outcome (Sheet E) String
  | [], sh, output => .ok output sh
  | row :: rows, sh, output =>
    (printValuesCols showNum showErr row (List.range cols) sh output).bind fun out s =>
      printValuesRows showNum showErr cols rows s (out ++ "\n")

/-- The method `Sheet::PrintValues`: what it writes to a stream that was empty. -/
def PrintValues (showNum : E.Num → String) (showErr : E.FErr → String) (sh : Sheet E) :
    Outcome (Sheet E) String :=
  printValuesRows showNum showErr (GetPrintableSize sh).cols.toNat
    (List.range (GetPrintableSize sh).rows.toNat) sh ""

/-! ## The print layout as the spec words it -/

/-- Fields with a tab between neighbours. -/
def tabSeparated : List String → String
  | [] => ""
  | [f] => f
  | f :: g :: fs => f ++ "\t" ++ tabSeparated (g :: fs)

/-- Lines of tab-separated fields, each line ended by a newline. -/
def renderLines : List (List String) → String
  | [] => ""
  | line :: lines => tabSeparated line ++ "\n" ++ renderLines lines

/-- The text field of a slot: `GetText()` of the cell that is there, the empty string for an
absent or cleared slot (a cell with empty text gives the empty string either way). -/
def textField (sh : Sheet E) (row col : Nat) : String :=
  match sh.live (cellAt row col) with
  | some c => c.impl_.GetText
  | none => ""

/-- The value field of a slot: the current value of a cell with non-empty text as the stream
shows it, the empty string otherwise. -/
def valueField (showNum : E.Num → String) (showErr : E.FErr → String) (sh : Sheet E)
    (row col : Nat) : String :=
  match sh.live (cellAt row col) with
  | some c =>
    if c.impl_.GetText ≠ "" then
      match currentValue (sh.keys.length + 1) sh (cellAt row col) with
      | some v => showValue showNum showErr v
      | none => ""
    else ""
  | none => ""

/-- The table of `rows` lines of `cols` fields. -/
def fieldTable (field : Nat → Nat → String) (rows cols : Nat) : List (List String) :=
  (List.range rows).map fun r => (List.range cols).map fun c => field r c

/-- The two nested loops of the print methods with the field of every slot given: a tab before
every column but the first, a newline after every row. -/
def printCols (field : Nat → String) : List Nat → String → String
  | [], output => output
  | col :: cols, output =>
    printCols field cols ((if col > 0 then output ++ "\t" else output) ++ field col)

/-- The row loop over `printCols`. -/
def printRows (field : Nat → Nat → String) (cols : Nat) : List Nat → String → String
  | [], output => output
  | row :: rows, output =>
    printRows field cols rows (printCols (field row) (List.range cols) output ++ "\n")

/-! ## Sheets built with `ClearCell`, and demonstration inputs for the print methods -/

/-- What every sheet built by `SetCell`, `ClearCell` and `GetValue` satisfies: the edges are
linked, the reference graph has no cycle, and the `ref_cells_` of a cell are the cells its
implementation object reports. -/
structure Sound (sh : Sheet E) : Prop where
  linked : Linked sh
  acyclic : Acyclic sh
  content : ∀ p i, sh.impl p = some i → ∀ q, q ∈ sh.refs p ↔ q ∈ i.GetReferencedCells

/-- A stand-in for the stream operator of `double` on the demonstration numbers. -/
def demoShowNum (n : Int) : String := toString n

/-- A stand-in for the stream operator of `FormulaError`. -/
def demoShowErr (_ : Unit) : String := "#ERR!"

/-- A run that leaves a gap: `B1` reads the cleared `A1`, `A2` holds an empty text. -/
def printRun : List Op :=
  [.set A1 "1", .set B1 "=A1", .set A3 "'x", .set A2 "", .clear A1]

/-- What a print call wrote to the stream, `none` when it did not return. -/
def written {σ : Type} : Outcome σ String → Option String
  | .ok out _ => some out
  | _ => none
/-! ## The primitive updates -/

theorem Sheet.live_put (sh : Sheet E) (p q : Position) (c : Option (Cell E)) :
    (sh.put p c).live q = if q = p then (if p ∈ sh.keys then c else none) else sh.live q := by
  unfold Sheet.live Sheet.put
  by_cases h : q = p
  · subst h; simp
  · simp [h, Function.update_noteq h]

theorem Sheet.keys_put (sh : Sheet E) (p : Position) (c : Option (Cell E)) :
    (sh.put p c).keys = sh.keys := rfl

theorem Sheet.live_create (sh : Sheet E) (p q : Position) (hp : p ∉ sh.keys) :
    (sh.create p).live q = if q = p then some ⟨.EmptyImpl, [], []⟩ else sh.live q := by
  unfold Sheet.live Sheet.create
  by_cases h : q = p
  · subst h; simp
  · simp [h, Function.update_noteq h]

theorem Sheet.keys_create (sh : Sheet E) (p : Position) :
    (sh.create p).keys = sh.keys ++ [p] := rfl

theorem Sheet.live_isSome_mem {sh : Sheet E} {p : Position} {c : Cell E}
    (h : sh.live p = some c) : p ∈ sh.keys := by
  unfold Sheet.live at h
  by_contra hp
  simp [hp] at h

theorem Sheet.live_eq_slot {sh : Sheet E} {p : Position} (h : p ∈ sh.keys) :
    sh.live p = sh.slot p := by
  simp [Sheet.live, h]

theorem Sheet.put_self {sh : Sheet E} {p : Position} {c : Cell E} (h : sh.live p = some c) :
    sh.put p (some c) = sh := by
  have hk := Sheet.live_isSome_mem h
  rw [Sheet.live_eq_slot hk] at h
  cases sh with
  | mk keys slot =>
    simp only [Sheet.put]
    congr
    exact h ▸ Function.update_eq_self p slot

theorem Sheet.put_create_self (sh : Sheet E) (p : Position) :
    (sh.create p).put p (some ⟨.EmptyImpl, [], []⟩) = sh.create p := by
  simp [Sheet.put, Sheet.create]

/-! ## The nested call `SetCell(pos, "")` of `RefCellsProcessing` -/

theorem buildImpl_empty : buildImpl (E := E) "" = some .EmptyImpl := by
  simp [buildImpl]

theorem HasCircularDependency_nil (sh : Sheet E) (this : Position) (impl : Impl E)
    (h : impl.GetReferencedCells = []) : HasCircularDependency sh this impl = .ok false () := by
  simp [HasCircularDependency, h]

theorem SetCellAux_empty_new (d : Nat) (sh : Sheet E) (pos : Position)
    (hv : E.IsValid pos = true) (hk : pos ∉ sh.keys) :
    SetCellAux (d + 1) pos "" sh = .ok () (sh.create pos) := by
  have hl : (sh.create pos).live pos = some ⟨.EmptyImpl, [], []⟩ := by
    rw [Sheet.live_create sh pos pos hk]; simp
  have hs : (sh.create pos).slot pos = some ⟨.EmptyImpl, [], []⟩ := by
    simp [Sheet.create]
  simp only [SetCellAux, Sheet.ensure, hv, hk, Bool.not_true, Bool.false_eq_true, if_false, hs,
    Cell.Set, buildImpl_empty]
  rw [HasCircularDependency_nil _ _ (Impl.EmptyImpl) rfl]
  simp only [Cell.install, hl, forEach, Outcome.bind, Sheet.put_create_self, RefCellsProcessing,
    Impl.GetReferencedCells, InvalidateAllCache, Impl.HasCache, if_true, Impl.InvalidateCache]

theorem SetCellAux_empty_null (d : Nat) (sh : Sheet E) (pos : Position)
    (hv : E.IsValid pos = true) (hk : pos ∈ sh.keys) (hs : sh.slot pos = none) :
    SetCellAux (d + 1) pos "" sh = .undefined := by
  simp [SetCellAux, Sheet.ensure, hv, hk, hs]

/-! ## `Cell::RefCellsProcessing` -/

theorem Sheet.impl_isSome (sh : Sheet E) (p : Position) :
    (sh.impl p).isSome = (sh.live p).isSome := by
  simp [Sheet.impl]

theorem GetPtr_live {sh : Sheet E} {pos : Position} {c : Cell E}
    (hv : E.IsValid pos = true) (h : sh.live pos = some c) :
    GetPtr sh pos = .ok (some pos) sh := by
  have hk := Sheet.live_isSome_mem h
  rw [Sheet.live_eq_slot hk] at h
  simp [GetPtr, hv, hk, h]

theorem GetPtr_dead {sh : Sheet E} {pos : Position}
    (hv : E.IsValid pos = true) (h : sh.live pos = none) :
    GetPtr sh pos = .ok none sh := by
  by_cases hk : pos ∈ sh.keys
  · rw [Sheet.live_eq_slot hk] at h
    simp [GetPtr, hv, hk, h]
  · simp [GetPtr, hv, hk]

theorem GetPtr_invalid {sh : Sheet E} {pos : Position} (hv : E.IsValid pos = false) :
    GetPtr sh pos = .threw .InvalidPositionException sh := by
  simp [GetPtr, hv]

/-- What a successful `attach` does, seen through the views. -/
theorem attach_ok {this o : Position} {s s' : Sheet E} (h : attach this o s = .ok () s') :
    (s.live this).isSome ∧ (s.live o).isSome ∧ s'.keys = s.keys ∧
    (∀ q, s'.impl q = s.impl q) ∧
    (∀ q, s'.refs q = if q = this then List.insert o (s.refs this) else s.refs q) ∧
    (∀ q, s'.deps q = if q = o then List.insert this (s.deps o) else s.deps q) := by
  unfold attach at h
  cases hc : s.live this with
  | none => simp [hc] at h
  | some c =>
    have hk := Sheet.live_isSome_mem hc
    simp only [hc] at h
    split at h
    · simp at h
    · rename_i oc hoc
      simp only [Outcome.ok.injEq, true_and] at h
      subst h
      rw [Sheet.live_put] at hoc
      simp only [hk, if_true] at hoc
      refine ⟨by simp, ?_, rfl, ?_, ?_, ?_⟩
      · by_cases ho : o = this
        · subst ho; simp [hc]
        · simp only [ho, if_false] at hoc; simp [hoc]
      · intro q
        simp only [Sheet.impl, Sheet.live_put, Sheet.keys_put, hk, if_true]
        by_cases ho : o = this
        · subst ho
          simp only [if_true] at hoc
          cases hoc
          by_cases hq : q = o
          · subst hq; simp [hc, hk]
          · simp [hq]
        · simp only [ho, if_false] at hoc
          have hko := Sheet.live_isSome_mem hoc
          by_cases hq : q = o
          · subst hq; simp [hko, hoc]
          · by_cases hq2 : q = this
            · subst hq2; simp [hq, hc]
            · simp [hq, hq2]
      · intro q
        simp only [Sheet.refs, Sheet.live_put, Sheet.keys_put, hk, if_true]
        by_cases ho : o = this
        · subst ho
          simp only [if_true] at hoc
          cases hoc
          by_cases hq : q = o
          · subst hq; simp [hc, hk]
          · simp [hq]
        · simp only [ho, if_false] at hoc
          have hko := Sheet.live_isSome_mem hoc
          by_cases hq : q = o
          · subst hq; simp [hko, hoc, ho]
          · by_cases hq2 : q = this
            · subst hq2; simp [hq, hc]
            · simp [hq, hq2]
      · intro q
        simp only [Sheet.deps, Sheet.live_put, Sheet.keys_put, hk, if_true]
        by_cases ho : o = this
        · subst ho
          simp only [if_true] at hoc
          cases hoc
          by_cases hq : q = o
          · subst hq; simp [hc, hk]
          · simp [hq]
        · simp only [ho, if_false] at hoc
          have hko := Sheet.live_isSome_mem hoc
          by_cases hq : q = o
          · subst hq; simp [hko, hoc]
          · by_cases hq2 : q = this
            · subst hq2; simp [hq, hc]
            · simp [hq, hq2]

theorem Sheet.live_none_of_not_mem {sh : Sheet E} {p : Position} (h : p ∉ sh.keys) :
    sh.live p = none := by
  simp [Sheet.live, h]

theorem Sheet.refs_create (sh : Sheet E) (p q : Position) (hp : p ∉ sh.keys) :
    (sh.create p).refs q = sh.refs q := by
  simp only [Sheet.refs, Sheet.live_create sh p q hp]
  by_cases h : q = p
  · subst h; simp [Sheet.live_none_of_not_mem hp]
  · simp [h]

theorem Sheet.deps_create (sh : Sheet E) (p q : Position) (hp : p ∉ sh.keys) :
    (sh.create p).deps q = sh.deps q := by
  simp only [Sheet.deps, Sheet.live_create sh p q hp]
  by_cases h : q = p
  · subst h; simp [Sheet.live_none_of_not_mem hp]
  · simp [h]

theorem Sheet.impl_create (sh : Sheet E) (p q : Position) (hp : p ∉ sh.keys) :
    (sh.create p).impl q = if q = p then some .EmptyImpl else sh.impl q := by
  simp only [Sheet.impl, Sheet.live_create sh p q hp]
  by_cases h : q = p <;> simp [h]

/-- The two ways the body of the loop of `RefCellsProcessing` reaches `attach`. -/
theorem linkRef_eq (this pos : Position) (s : Sheet E) (hv : E.IsValid pos = true) :
    linkRef (fun p s => SetCellAux 1 p "" s) this pos s =
      if pos ∈ s.keys then (if (s.live pos).isSome then attach this pos s else .undefined)
      else attach this pos (s.create pos) := by
  unfold linkRef
  by_cases hk : pos ∈ s.keys
  · cases hl : s.live pos with
    | some c =>
      rw [GetPtr_live hv hl]
      simp [Outcome.bind, GetPtr_live hv hl, hk]
    | none =>
      rw [GetPtr_dead hv hl]
      have hs : s.slot pos = none := by rw [← Sheet.live_eq_slot hk]; exact hl
      simp [Outcome.bind, SetCellAux_empty_null 0 s pos hv hk hs, hk]
  · have hl := Sheet.live_none_of_not_mem hk
    rw [GetPtr_dead hv hl]
    have hl2 : (s.create pos).live pos = some ⟨.EmptyImpl, [], []⟩ := by
      rw [Sheet.live_create s pos pos hk]; simp
    simp [Outcome.bind, SetCellAux_empty_new 0 s pos hv hk, GetPtr_live hv hl2, hk]

theorem attach_not_threw {this o : Position} {s s' : Sheet E} {e : Exc} :
    attach this o s ≠ .threw e s' := by
  unfold attach
  intro h
  split at h
  · simp at h
  · simp only at h
    split at h <;> simp at h

theorem linkRef_threw {this pos : Position} {s s' : Sheet E} {e : Exc}
    (h : linkRef (fun p s => SetCellAux 1 p "" s) this pos s = .threw e s') :
    E.IsValid pos = false := by
  by_contra hv
  have hv : E.IsValid pos = true := by simpa using hv
  rw [linkRef_eq this pos s hv] at h
  split at h
  · split at h
    · exact attach_not_threw h
    · simp at h
  · exact attach_not_threw h

/-- What a successful pass through the body of the loop of `RefCellsProcessing` does. -/
theorem linkRef_ok {this pos : Position} {s s' : Sheet E}
    (h : linkRef (fun p s => SetCellAux 1 p "" s) this pos s = .ok () s') :
    E.IsValid pos = true ∧ (pos ∈ s.keys → (s.live pos).isSome) ∧
    s'.keys = (if pos ∈ s.keys then s.keys else s.keys ++ [pos]) ∧
    (∀ q, s'.impl q = if q = pos ∧ pos ∉ s.keys then some .EmptyImpl else s.impl q) ∧
    (∀ q, s'.refs q = if q = this then List.insert pos (s.refs this) else s.refs q) ∧
    (∀ q, s'.deps q = if q = pos then List.insert this (s.deps pos) else s.deps q) := by
  have hv : E.IsValid pos = true := by
    by_contra hv
    have hv : E.IsValid pos = false := by simpa using hv
    simp [linkRef, GetPtr_invalid hv, Outcome.bind] at h
  rw [linkRef_eq this pos s hv] at h
  refine ⟨hv, ?_⟩
  by_cases hk : pos ∈ s.keys
  · simp only [hk, if_true] at h
    by_cases hl : (s.live pos).isSome
    · simp only [hl, if_true] at h
      obtain ⟨-, -, h3, h4, h5, h6⟩ := attach_ok h
      exact ⟨fun _ => hl, by simp [hk, h3], by simpa [hk] using h4, h5, h6⟩
    · simp [hl] at h
  · simp only [hk, if_false] at h
    obtain ⟨-, -, h3, h4, h5, h6⟩ := attach_ok h
    refine ⟨fun hk2 => absurd hk2 hk, by simp [hk, h3, Sheet.keys_create], ?_, ?_, ?_⟩
    · intro q
      rw [h4 q, Sheet.impl_create s pos q hk]
      simp [hk]
    · intro q
      rw [h5 q, Sheet.refs_create s pos q hk, Sheet.refs_create s pos this hk]
    · intro q
      rw [h6 q, Sheet.deps_create s pos q hk, Sheet.deps_create s pos pos hk]

theorem forEach_cons_ok {σ α : Type} {body : α → σ → Outcome σ Unit} {x : α} {xs : List α}
    {s s' : σ} (h : forEach body (x :: xs) s = .ok () s') :
    ∃ s1, body x s = .ok () s1 ∧ forEach body xs s1 = .ok () s' := by
  simp only [forEach] at h
  cases hb : body x s with
  | ok a s1 => rw [hb] at h; exact ⟨s1, rfl, h⟩
  | threw e s1 => rw [hb] at h; simp [Outcome.bind] at h
  | undefined => rw [hb] at h; simp [Outcome.bind] at h
  | timeout => rw [hb] at h; simp [Outcome.bind] at h

theorem forEach_threw {σ α : Type} {body : α → σ → Outcome σ Unit} {xs : List α}
    {s s' : σ} {e : Exc} (h : forEach body xs s = .threw e s') :
    ∃ x ∈ xs, ∃ s1 s2, body x s1 = .threw e s2 := by
  induction xs generalizing s with
  | nil => simp [forEach] at h
  | cons x xs ih =>
    simp only [forEach] at h
    cases hb : body x s with
    | ok a s1 =>
      rw [hb] at h
      obtain ⟨y, hy, r⟩ := ih h
      exact ⟨y, List.mem_cons_of_mem _ hy, r⟩
    | threw e1 s1 =>
      rw [hb] at h
      simp only [Outcome.bind, Outcome.threw.injEq] at h
      exact ⟨x, List.mem_cons_self _ _, s, s1, h.1 ▸ hb⟩
    | undefined => rw [hb] at h; simp [Outcome.bind] at h
    | timeout => rw [hb] at h; simp [Outcome.bind] at h

/-- What a successful `RefCellsProcessing` does, seen through the views. -/
theorem RefCellsProcessing_ok {this : Position} {vec : List Position} {s s' : Sheet E}
    (h : RefCellsProcessing (fun p s => SetCellAux 1 p "" s) this vec s = .ok () s') :
    (∀ r ∈ vec, E.IsValid r = true) ∧
    (∀ r ∈ vec, r ∈ s.keys → (s.live r).isSome) ∧
    (∀ p, p ∈ s'.keys ↔ p ∈ s.keys ∨ p ∈ vec) ∧
    (∀ q, s'.impl q = if q ∈ vec ∧ q ∉ s.keys then some .EmptyImpl else s.impl q) ∧
    (∀ q x, x ∈ s'.refs q ↔ x ∈ s.refs q ∨ (q = this ∧ x ∈ vec)) ∧
    (∀ q x, x ∈ s'.deps q ↔ x ∈ s.deps q ∨ (x = this ∧ q ∈ vec)) := by
  unfold RefCellsProcessing at h
  induction vec generalizing s with
  | nil =>
    simp only [forEach, Outcome.ok.injEq, true_and] at h
    subst h
    simp
  | cons r rest ih =>
    obtain ⟨s1, h1, h2⟩ := forEach_cons_ok h
    obtain ⟨a1, a2, a3, a4, a5, a6⟩ := linkRef_ok h1
    obtain ⟨b1, b2, b3, b4, b5, b6⟩ := ih h2
    have hkeys : ∀ p, p ∈ s1.keys ↔ p ∈ s.keys ∨ p = r := by
      intro p
      rw [a3]
      by_cases hk : r ∈ s.keys
      · simp only [hk, if_true]
        constructor
        · exact Or.inl
        · rintro (h | h)
          · exact h
          · exact h ▸ hk
      · simp [hk]
    refine ⟨?_, ?_, ?_, ?_, ?_, ?_⟩
    · intro x hx
      rcases List.mem_cons.1 hx with hx | hx
      · exact hx ▸ a1
      · exact b1 x hx
    · intro x hx hxk
      rcases List.mem_cons.1 hx with hx | hx
      · exact a2 (hx ▸ hxk) |> (hx ▸ ·)
      · have := b2 x hx ((hkeys x).2 (Or.inl hxk))
        rw [← Sheet.impl_isSome, a4 x] at this
        have hne : ¬ (x = r ∧ r ∉ s.keys) := fun hh => hh.2 (hh.1 ▸ hxk)
        simpa [hne, Sheet.impl_isSome] using this
    · intro p
      rw [b3 p, hkeys p, List.mem_cons]
      tauto
    · intro q
      rw [b4 q, a4 q]
      by_cases hq : q = r
      · subst hq
        by_cases hk : q ∈ s.keys
        · have : q ∈ s1.keys := (hkeys q).2 (Or.inl hk)
          simp [hk, this]
        · have : q ∈ s1.keys := (hkeys q).2 (Or.inr rfl)
          simp [hk, this]
      · by_cases hk : q ∈ s.keys
        · have : q ∈ s1.keys := (hkeys q).2 (Or.inl hk)
          simp [hk, this, hq]
        · have : q ∉ s1.keys := fun hh => by
            rcases (hkeys q).1 hh with h | h
            · exact hk h
            · exact hq h
          simp [hk, this, hq]
    · intro q x
      rw [b5 q x, a5 q]
      by_cases hq : q = this
      · subst hq
        simp only [if_true, List.mem_insert_iff, List.mem_cons, true_and]
        tauto
      · simp [hq]
    · intro q x
      rw [b6 q x, a6 q]
      by_cases hq : q = r
      · subst hq
        simp only [if_true, List.mem_insert_iff, List.mem_cons]
        tauto
      · simp only [hq, if_false, List.mem_cons, false_or]

theorem RefCellsProcessing_threw {this : Position} {vec : List Position} {s s' : Sheet E}
    {e : Exc}
    (h : RefCellsProcessing (fun p s => SetCellAux 1 p "" s) this vec s = .threw e s') :
    ∃ r ∈ vec, E.IsValid r = false := by
  obtain ⟨x, hx, s1, s2, hb⟩ := forEach_threw h
  exact ⟨x, hx, linkRef_threw hb⟩

/-! ## The commit of `Cell::Set` -/

theorem Sheet.impl_put {sh : Sheet E} {p : Position} {c : Cell E} (h : sh.live p = some c)
    (c1 : Cell E) (q : Position) :
    (sh.put p (some c1)).impl q = if q = p then some c1.impl_ else sh.impl q := by
  have hk := Sheet.live_isSome_mem h
  simp only [Sheet.impl, Sheet.live_put, hk, if_true]
  by_cases hq : q = p <;> simp [hq]

theorem Sheet.refs_put {sh : Sheet E} {p : Position} {c : Cell E} (h : sh.live p = some c)
    (c1 : Cell E) (q : Position) :
    (sh.put p (some c1)).refs q = if q = p then c1.ref_cells_ else sh.refs q := by
  have hk := Sheet.live_isSome_mem h
  simp only [Sheet.refs, Sheet.live_put, hk, if_true]
  by_cases hq : q = p <;> simp [hq]

theorem Sheet.deps_put {sh : Sheet E} {p : Position} {c : Cell E} (h : sh.live p = some c)
    (c1 : Cell E) (q : Position) :
    (sh.put p (some c1)).deps q = if q = p then c1.dep_cells_ else sh.deps q := by
  have hk := Sheet.live_isSome_mem h
  simp only [Sheet.deps, Sheet.live_put, hk, if_true]
  by_cases hq : q = p <;> simp [hq]

theorem Sheet.impl_of_live {sh : Sheet E} {p : Position} {c : Cell E} (h : sh.live p = some c) :
    sh.impl p = some c.impl_ := by simp [Sheet.impl, h]

theorem Sheet.refs_of_live {sh : Sheet E} {p : Position} {c : Cell E} (h : sh.live p = some c) :
    sh.refs p = c.ref_cells_ := by simp [Sheet.refs, h]

theorem Sheet.deps_of_live {sh : Sheet E} {p : Position} {c : Cell E} (h : sh.live p = some c) :
    sh.deps p = c.dep_cells_ := by simp [Sheet.deps, h]

theorem eraseDep_not_threw {this o : Position} {s s' : Sheet E} {e : Exc} :
    eraseDep this o s ≠ .threw e s' := by
  unfold eraseDep
  intro h
  split at h <;> simp at h

/-- What the first loop of `Cell::Set` does, seen through the views. -/
theorem eraseLoop_ok {this : Position} {l : List Position} {s s' : Sheet E}
    (h : forEach (eraseDep this) l s = .ok () s') :
    (∀ o ∈ l, (s.live o).isSome) ∧ s'.keys = s.keys ∧
    (∀ q, s'.impl q = s.impl q) ∧ (∀ q, s'.refs q = s.refs q) ∧
    (∀ q, s'.deps q = if q ∈ l then (s.deps q).filter (fun x => x ≠ this) else s.deps q) := by
  induction l generalizing s with
  | nil =>
    simp only [forEach, Outcome.ok.injEq, true_and] at h
    subst h
    simp
  | cons o rest ih =>
    obtain ⟨s1, h1, h2⟩ := forEach_cons_ok h
    obtain ⟨b1, b2, b3, b4, b5⟩ := ih h2
    unfold eraseDep at h1
    cases hc : s.live o with
    | none => simp [hc] at h1
    | some c =>
      simp only [hc, Outcome.ok.injEq, true_and] at h1
      subst h1
      have himpl : ∀ q, (s.put o (some { c with
          dep_cells_ := c.dep_cells_.filter (fun x => x ≠ this) })).impl q = s.impl q := by
        intro q
        rw [Sheet.impl_put hc]
        by_cases hq : q = o
        · subst hq; simp [Sheet.impl_of_live hc]
        · simp [hq]
      refine ⟨?_, ?_, ?_, ?_, ?_⟩
      · intro x hx
        rcases List.mem_cons.1 hx with hx | hx
        · simp [hx, hc]
        · have := b1 x hx
          rw [← Sheet.impl_isSome, himpl, Sheet.impl_isSome] at this
          exact this
      · rw [b2]; rfl
      · intro q; rw [b3, himpl]
      · intro q
        rw [b4, Sheet.refs_put hc]
        by_cases hq : q = o
        · subst hq; simp [Sheet.refs_of_live hc]
        · simp [hq]
      · intro q
        rw [b5, Sheet.deps_put hc]
        by_cases hq : q = o
        · subst hq
          simp [Sheet.deps_of_live hc]
        · simp [hq]

/-- What a successful `Cell.install` does, seen through the views. -/
theorem install_ok {this : Position} {impl : Impl E} {s s' : Sheet E} {c : Cell E}
    (hc : s.live this = some c)
    (h : Cell.install (fun p s => SetCellAux 1 p "" s) this impl s = .ok () s') :
    (∀ o ∈ c.ref_cells_, (s.live o).isSome) ∧
    (∀ r ∈ impl.GetReferencedCells, E.IsValid r = true) ∧
    (∀ r ∈ impl.GetReferencedCells, r ∈ s.keys → (s.live r).isSome) ∧
    (∀ p, p ∈ s'.keys ↔ p ∈ s.keys ∨ p ∈ impl.GetReferencedCells) ∧
    (∀ q, s'.impl q = if q = this then some impl
      else if q ∈ impl.GetReferencedCells ∧ q ∉ s.keys then some .EmptyImpl else s.impl q) ∧
    (∀ q x, x ∈ s'.refs q ↔ if q = this then x ∈ impl.GetReferencedCells else x ∈ s.refs q) ∧
    (∀ q x, x ∈ s'.deps q ↔
      (x ∈ s.deps q ∧ ¬ (x = this ∧ q ∈ c.ref_cells_)) ∨
        (x = this ∧ q ∈ impl.GetReferencedCells)) := by
  unfold Cell.install at h
  simp only [hc] at h
  have hk := Sheet.live_isSome_mem hc
  cases h1 : forEach (eraseDep this) c.ref_cells_ (s.put this (some { c with impl_ := impl })) with
  | threw e s1 => rw [h1] at h; simp [Outcome.bind] at h
  | undefined => rw [h1] at h; simp [Outcome.bind] at h
  | timeout => rw [h1] at h; simp [Outcome.bind] at h
  | ok u s2 =>
    rw [h1] at h
    simp only [Outcome.bind] at h
    obtain ⟨e1, e2, e3, e4, e5⟩ := eraseLoop_ok h1
    cases hc2 : s2.live this with
    | none => simp [hc2] at h
    | some c2 =>
      simp only [hc2] at h
      obtain ⟨r1, r2, r3, r4, r5, r6⟩ := RefCellsProcessing_ok h
      have hkeys2 : s2.keys = s.keys := by rw [e2]; rfl
      have himpl1 : ∀ q, (s.put this (some { c with impl_ := impl })).impl q =
          if q = this then some impl else s.impl q := fun q => Sheet.impl_put hc _ q
      have hrefs1 : ∀ q, (s.put this (some { c with impl_ := impl })).refs q = s.refs q := by
        intro q
        rw [Sheet.refs_put hc]
        by_cases hq : q = this
        · subst hq; simp [Sheet.refs_of_live hc]
        · simp [hq]
      have hdeps1 : ∀ q, (s.put this (some { c with impl_ := impl })).deps q = s.deps q := by
        intro q
        rw [Sheet.deps_put hc]
        by_cases hq : q = this
        · subst hq; simp [Sheet.deps_of_live hc]
        · simp [hq]
      have himpl3 : ∀ q, (s2.put this (some { c2 with ref_cells_ := [] })).impl q =
          if q = this then some impl else s.impl q := by
        intro q
        rw [Sheet.impl_put hc2, ← himpl1 q, ← e3 q]
        by_cases hq : q = this
        · subst hq; simp [Sheet.impl_of_live hc2]
        · simp [hq]
      have hrefs3 : ∀ q, (s2.put this (some { c2 with ref_cells_ := [] })).refs q =
          if q = this then [] else s.refs q := by
        intro q
        rw [Sheet.refs_put hc2, e4 q, hrefs1 q]
      have hdeps3 : ∀ q, (s2.put this (some { c2 with ref_cells_ := [] })).deps q =
          if q ∈ c.ref_cells_ then (s.deps q).filter (fun x => x ≠ this) else s.deps q := by
        intro q
        rw [Sheet.deps_put hc2]
        by_cases hq : q = this
        · subst hq
          simp only [if_true]
          rw [← Sheet.deps_of_live hc2, e5 q, hdeps1 q]
        · simp only [hq, if_false]
          rw [e5 q, hdeps1 q]
      have hlive : ∀ q, (s.live q).isSome →
          ((s.put this (some { c with impl_ := impl })).live q).isSome := by
        intro q hq
        rw [← Sheet.impl_isSome, himpl1 q]
        by_cases hq2 : q = this
        · simp [hq2]
        · simpa [hq2, Sheet.impl_isSome] using hq
      have hlive' : ∀ q, ((s.put this (some { c with impl_ := impl })).live q).isSome →
          (s.live q).isSome := by
        intro q hq
        rw [← Sheet.impl_isSome, himpl1 q] at hq
        by_cases hq2 : q = this
        · simp [hq2, hc]
        · simpa [hq2, Sheet.impl_isSome] using hq
      have hlive3 : ∀ q, ((s2.put this (some { c2 with ref_cells_ := [] })).live q).isSome →
          (s.live q).isSome := by
        intro q hq
        rw [← Sheet.impl_isSome, himpl3 q] at hq
        by_cases hq2 : q = this
        · simp [hq2, hc]
        · simpa [hq2, Sheet.impl_isSome] using hq
      refine ⟨fun o ho => hlive' o (e1 o ho), r1, ?_, ?_, ?_, ?_, ?_⟩
      · intro r hr hrk
        exact hlive3 r (r2 r hr (by simpa [Sheet.keys_put, hkeys2] using hrk))
      · intro p
        rw [r3 p]
        simp [Sheet.keys_put, hkeys2]
      · intro q
        rw [r4 q, himpl3 q]
        simp only [Sheet.keys_put, hkeys2]
        by_cases hq : q = this
        · subst hq; simp [hk]
        · simp [hq]
      · intro q x
        rw [r5 q x, hrefs3 q]
        by_cases hq : q = this
        · simp [hq]
        · simp [hq]
      · intro q x
        rw [r6 q x, hdeps3 q]
        by_cases hq : q ∈ c.ref_cells_
        · simp only [hq, if_true, List.mem_filter, decide_eq_true_eq]
          constructor
          · rintro (⟨h1, h2⟩ | h)
            · exact Or.inl ⟨h1, fun hh => h2 hh.1⟩
            · exact Or.inr h
          · rintro (⟨h1, h2⟩ | h)
            · exact Or.inl ⟨h1, fun hh => h2 ⟨hh, trivial⟩⟩
            · exact Or.inr h
        · simp [hq]

theorem install_threw {this : Position} {impl : Impl E} {s s' : Sheet E} {e : Exc}
    (h : Cell.install (fun p s => SetCellAux 1 p "" s) this impl s = .threw e s') :
    ∃ r ∈ impl.GetReferencedCells, E.IsValid r = false := by
  unfold Cell.install at h
  split at h
  · simp at h
  · rename_i c hc
    cases h1 : forEach (eraseDep this) c.ref_cells_
        (s.put this (some { c with impl_ := impl })) with
    | threw e1 s1 =>
      obtain ⟨x, -, s3, s4, hb⟩ := forEach_threw h1
      exact absurd hb eraseDep_not_threw
    | undefined => rw [h1] at h; simp [Outcome.bind] at h
    | timeout => rw [h1] at h; simp [Outcome.bind] at h
    | ok u s2 =>
      rw [h1] at h
      simp only [Outcome.bind] at h
      split at h
      · simp at h
      · exact RefCellsProcessing_threw h

/-! ## `Cell::InvalidateAllCache` changes caches only -/

theorem SameUpToCache.refl (s : Sheet E) : SameUpToCache s s :=
  ⟨rfl, fun _ => rfl, fun _ => rfl, fun _ => rfl⟩

theorem SameUpToCache.trans {s1 s2 s3 : Sheet E} (h12 : SameUpToCache s1 s2)
    (h23 : SameUpToCache s2 s3) : SameUpToCache s1 s3 :=
  ⟨h23.1.trans h12.1, fun q => (h23.2.1 q).trans (h12.2.1 q),
    fun q => (h23.2.2.1 q).trans (h12.2.2.1 q), fun q => (h23.2.2.2 q).trans (h12.2.2.2 q)⟩

theorem SameUpToCache.symm {s1 s2 : Sheet E} (h : SameUpToCache s1 s2) : SameUpToCache s2 s1 :=
  ⟨h.1.symm, fun q => (h.2.1 q).symm, fun q => (h.2.2.1 q).symm, fun q => (h.2.2.2 q).symm⟩

theorem SameUpToCache.live_isSome {s1 s2 : Sheet E} (h : SameUpToCache s1 s2) (q : Position) :
    (s2.live q).isSome = (s1.live q).isSome := by
  have := congrArg Option.isSome (h.2.2.2 q)
  simpa [Sheet.impl] using this

theorem forEach_rel {σ α : Type} {body : α → σ → Outcome σ Unit} (R : σ → σ → Prop)
    (hrefl : ∀ s, R s s) (htrans : ∀ a b c, R a b → R b c → R a c)
    (hbody : ∀ x s s', body x s = .ok () s' → R s s') {xs : List α} {s s' : σ}
    (h : forEach body xs s = .ok () s') : R s s' := by
  induction xs generalizing s with
  | nil =>
    simp only [forEach, Outcome.ok.injEq, true_and] at h
    exact h ▸ hrefl s
  | cons x xs ih =>
    obtain ⟨s1, h1, h2⟩ := forEach_cons_ok h
    exact htrans _ _ _ (hbody x s s1 h1) (ih h2)

theorem Impl.InvalidateCache_idem (i : Impl E) :
    i.InvalidateCache.InvalidateCache = i.InvalidateCache := by
  cases i <;> rfl

theorem sameUpToCache_put_invalidate {s : Sheet E} {p : Position} {c : Cell E}
    (hc : s.live p = some c) :
    SameUpToCache s (s.put p (some { c with impl_ := c.impl_.InvalidateCache })) := by
  refine ⟨rfl, ?_, ?_, ?_⟩
  · intro q
    rw [Sheet.refs_put hc]
    by_cases hq : q = p
    · subst hq; simp [Sheet.refs_of_live hc]
    · simp [hq]
  · intro q
    rw [Sheet.deps_put hc]
    by_cases hq : q = p
    · subst hq; simp [Sheet.deps_of_live hc]
    · simp [hq]
  · intro q
    rw [Sheet.impl_put hc]
    by_cases hq : q = p
    · subst hq; simp [Sheet.impl_of_live hc, Impl.InvalidateCache_idem]
    · simp [hq]

theorem InvalidateAllCache_ok {fuel : Nat} {this : Position} {s s' : Sheet E}
    (h : InvalidateAllCache fuel this s = .ok () s') : SameUpToCache s s' := by
  induction fuel generalizing this s s' with
  | zero => simp [InvalidateAllCache] at h
  | succ fuel ih =>
    unfold InvalidateAllCache at h
    cases hc : s.live this with
    | none => simp [hc] at h
    | some c =>
      simp only [hc] at h
      split at h
      · exact (sameUpToCache_put_invalidate hc).trans
          (forEach_rel SameUpToCache SameUpToCache.refl (fun _ _ _ => SameUpToCache.trans)
            (fun x a b hb => ih hb) h)
      · simp only [Outcome.ok.injEq, true_and] at h
        exact h ▸ SameUpToCache.refl s

theorem InvalidateAllCache_not_threw {fuel : Nat} {this : Position} {s s' : Sheet E} {e : Exc} :
    InvalidateAllCache fuel this s ≠ .threw e s' := by
  induction fuel generalizing this s s' with
  | zero => simp [InvalidateAllCache]
  | succ fuel ih =>
    unfold InvalidateAllCache
    intro h
    split at h
    · simp at h
    · split at h
      · obtain ⟨x, -, s1, s2, hb⟩ := forEach_threw h
        exact ih hb
      · simp at h

/-! ## The first loop of `Cell::HasCircularDependency` -/

theorem collectRefCells_spec (sh : Sheet E) (l : List Position) (acc : List (Option Position)) :
    ((∀ r ∈ l, E.IsValid r = true) ∧ ∃ rc, collectRefCells sh l acc = .ok rc () ∧
      ∀ x, some x ∈ rc ↔ some x ∈ acc ∨ (x ∈ l ∧ (sh.live x).isSome)) ∨
    ((∃ r ∈ l, E.IsValid r = false) ∧
      collectRefCells sh l acc = .threw .InvalidPositionException ()) := by
  induction l generalizing acc with
  | nil => left; exact ⟨by simp, acc, rfl, by simp⟩
  | cons r rest ih =>
    by_cases hv : E.IsValid r = true
    · cases hl : sh.live r with
      | some c =>
        have hg := GetPtr_live hv hl
        rcases ih (List.insert (some r) acc) with ⟨h1, rc, h2, h3⟩ | ⟨h1, h2⟩
        · left
          refine ⟨by simpa [hv] using h1, rc, by simp [collectRefCells, hg, h2], ?_⟩
          intro x
          rw [h3 x, List.mem_insert_iff, List.mem_cons]
          constructor
          · rintro ((h | h) | h)
            · right; cases h; exact ⟨Or.inl rfl, by simp [hl]⟩
            · exact Or.inl h
            · exact Or.inr ⟨Or.inr h.1, h.2⟩
          · rintro (h | ⟨h | h, h'⟩)
            · exact Or.inl (Or.inr h)
            · exact Or.inl (Or.inl (by rw [h]))
            · exact Or.inr ⟨h, h'⟩
        · right
          obtain ⟨x, hx, hxv⟩ := h1
          exact ⟨⟨x, List.mem_cons_of_mem _ hx, hxv⟩, by simp [collectRefCells, hg, h2]⟩
      | none =>
        have hg := GetPtr_dead hv hl
        rcases ih (List.insert none acc) with ⟨h1, rc, h2, h3⟩ | ⟨h1, h2⟩
        · left
          refine ⟨by simpa [hv] using h1, rc, by simp [collectRefCells, hg, h2], ?_⟩
          intro x
          rw [h3 x, List.mem_insert_iff, List.mem_cons]
          constructor
          · rintro ((h | h) | h)
            · cases h
            · exact Or.inl h
            · exact Or.inr ⟨Or.inr h.1, h.2⟩
          · rintro (h | ⟨h | h, h'⟩)
            · exact Or.inl (Or.inr h)
            · rw [h, hl] at h'; simp at h'
            · exact Or.inr ⟨h, h'⟩
        · right
          obtain ⟨x, hx, hxv⟩ := h1
          exact ⟨⟨x, List.mem_cons_of_mem _ hx, hxv⟩, by simp [collectRefCells, hg, h2]⟩
    · have hv : E.IsValid r = false := by simpa using hv
      right
      exact ⟨⟨r, List.mem_cons_self _ _, hv⟩, by simp [collectRefCells, GetPtr_invalid hv]⟩

/-! ## The worklist loop of `Cell::HasCircularDependency` -/

theorem pushUnvisited_eq (visited deps to_visit : List Position) :
    pushUnvisited visited deps to_visit =
      (deps.filter (fun d => decide (d ∉ visited))).reverse ++ to_visit := by
  unfold pushUnvisited
  induction deps generalizing to_visit with
  | nil => simp
  | cons d ds ih =>
    simp only [List.foldl_cons]
    rw [ih]
    by_cases hd : d ∈ visited
    · simp [hd]
    · simp [hd, List.filter_cons]

theorem sum_unvisited_cons_le (l : List Position) (f : Position → Nat) (vis : List Position)
    (cur : Position) :
    ((l.filter (fun p => decide (p ∉ cur :: vis))).map f).sum ≤
      ((l.filter (fun p => decide (p ∉ vis))).map f).sum := by
  induction l with
  | nil => simp
  | cons a l ih =>
    by_cases h1 : a ∈ vis
    · have h2 : a ∈ cur :: vis := List.mem_cons_of_mem _ h1
      simpa [List.filter_cons, h1, h2] using ih
    · by_cases h2 : a = cur
      · subst h2
        simp only [List.filter_cons, List.mem_cons, true_or, not_true_eq_false, decide_False,
          Bool.false_eq_true, if_false, h1, not_false_eq_true, decide_True, if_true,
          List.map_cons, List.sum_cons]
        simp only [List.mem_cons] at ih
        omega
      · have h3 : a ∉ cur :: vis := by simp [h1, h2]
        simp only [List.filter_cons, h3, not_false_eq_true, decide_True, if_true, h1,
          List.map_cons, List.sum_cons]
        omega

theorem sum_unvisited_cons_add_le (l : List Position) (f : Position → Nat)
    (vis : List Position) (cur : Position) (hmem : cur ∈ l) (hnv : cur ∉ vis) :
    ((l.filter (fun p => decide (p ∉ cur :: vis))).map f).sum + f cur ≤
      ((l.filter (fun p => decide (p ∉ vis))).map f).sum := by
  induction l with
  | nil => simp at hmem
  | cons a l ih =>
    by_cases h2 : a = cur
    · subst h2
      have := sum_unvisited_cons_le l f vis a
      simp only [List.filter_cons, List.mem_cons, true_or, not_true_eq_false, decide_False,
        Bool.false_eq_true, if_false, hnv, not_false_eq_true, decide_True, if_true,
        List.map_cons, List.sum_cons]
      simp only [List.mem_cons] at this
      omega
    · have hmem' : cur ∈ l := by
        rcases List.mem_cons.1 hmem with h | h
        · exact absurd h.symm h2
        · exact h
      have ih := ih hmem'
      by_cases h1 : a ∈ vis
      · have h3 : a ∈ cur :: vis := List.mem_cons_of_mem _ h1
        simpa [List.filter_cons, h1, h3] using ih
      · have h3 : a ∉ cur :: vis := by simp [h1, h2]
        simp only [List.filter_cons, h3, not_false_eq_true, decide_True, if_true, h1,
          List.map_cons, List.sum_cons]
        omega

theorem LoopInv.step {sh : Sheet E} {this cur : Position} {rc : List (Option Position)}
    {visited rest : List Position} (inv : LoopInv sh this rc visited (cur :: rest))
    (hrc : some cur ∉ rc) :
    LoopInv sh this rc (cur :: visited)
      ((((sh.deps cur).filter (fun d => decide (d ∉ cur :: visited))).reverse) ++ rest) := by
  have hcur : Reach sh this cur := inv.reach cur (List.mem_cons_self _ _)
  refine ⟨?_, ?_, ?_, ?_, ?_⟩
  · intro x hx
    rcases List.mem_append.1 hx with hx | hx
    · have hx : x ∈ sh.deps cur := (List.mem_filter.1 (List.mem_reverse.1 hx)).1
      exact Relation.ReflTransGen.tail hcur hx
    · exact inv.reach x (List.mem_cons_of_mem _ hx)
  · intro v hv
    rcases List.mem_cons.1 hv with hv | hv
    · exact hv ▸ hrc
    · exact inv.clean v hv
  · intro v hv d hd
    by_cases hdv : d ∈ cur :: visited
    · exact Or.inl hdv
    · right
      rcases List.mem_cons.1 hv with hv | hv
      · subst hv
        exact List.mem_append_left _ (List.mem_reverse.2 (List.mem_filter.2 ⟨hd, by simpa using hdv⟩))
      · rcases inv.closed v hv d hd with h | h
        · exact absurd (List.mem_cons_of_mem _ h) hdv
        · rcases List.mem_cons.1 h with h | h
          · exact absurd (h ▸ List.mem_cons_self _ _) hdv
          · exact List.mem_append_right _ h
  · intro pre v post hsplit hv d hd hdv
    have hpushed : ∀ y ∈ ((sh.deps cur).filter (fun d => decide (d ∉ cur :: visited))).reverse,
        y ∉ cur :: visited := by
      intro y hy
      simpa using (List.mem_filter.1 (List.mem_reverse.1 hy)).2
    rcases List.append_eq_append_iff.1 hsplit with ⟨a', h1, h2⟩ | ⟨c', h1, h2⟩
    · -- the occurrence of `v` lies in `rest`
      rcases List.mem_cons.1 hv with hv' | hv'
      · subst hv'
        rw [h1]
        exact List.mem_append_left _
          (List.mem_reverse.2 (List.mem_filter.2 ⟨hd, by simpa using hdv⟩))
      · have hsplit' : cur :: rest = (cur :: a') ++ v :: post := by simp [h2]
        have := inv.above (cur :: a') v post hsplit' hv' d hd
          (fun h => hdv (List.mem_cons_of_mem _ h))
        rcases List.mem_cons.1 this with h | h
        · exact absurd (h ▸ List.mem_cons_self _ _) hdv
        · rw [h1]; exact List.mem_append_right _ h
    · -- the occurrence of `v` lies among the pushed cells, which are not visited
      cases c' with
      | nil =>
        simp only [List.nil_append] at h2
        simp only [List.append_nil] at h1
        rcases List.mem_cons.1 hv with hv' | hv'
        · subst hv'
          rw [← h1]
          exact List.mem_reverse.2 (List.mem_filter.2 ⟨hd, by simpa using hdv⟩)
        · have hsplit' : cur :: rest = [cur] ++ v :: post := by simp [h2]
          have := inv.above [cur] v post hsplit' hv' d hd
            (fun h => hdv (List.mem_cons_of_mem _ h))
          rcases List.mem_singleton.1 this with h
          exact absurd (h ▸ List.mem_cons_self _ _) hdv
      | cons y ys =>
        simp only [List.cons_append, List.cons.injEq] at h2
        have : v ∈ ((sh.deps cur).filter (fun d => decide (d ∉ cur :: visited))).reverse := by
          rw [h1, ← h2.1]; simp
        exact absurd hv (hpushed v this)
  · rcases inv.source with h | h
    · exact Or.inl (List.mem_cons_of_mem _ h)
    · rcases List.mem_cons.1 h with h | h
      · exact Or.inl (h ▸ List.mem_cons_self _ _)
      · exact Or.inr (List.mem_append_right _ h)

/-- The worklist loop does not run out of fuel, throws only for a reachable cell of the
reference set, returns only when no reachable cell is in it, and is undefined only when it
pops a dangling pointer. -/
theorem searchLoop_spec (sh : Sheet E) (this : Position) (rc : List (Option Position)) :
    ∀ (fuel : Nat) (visited to_visit : List Position),
      LoopInv sh this rc visited to_visit →
      to_visit.length + searchWeight sh visited < fuel →
      match searchLoop sh rc fuel visited to_visit with
      | .ok b _ => b = false ∧ ∀ x, Reach sh this x → some x ∉ rc
      | .threw e _ => e = .CircularDependencyException ∧ ∃ x, Reach sh this x ∧ some x ∈ rc
      | .undefined => ∃ x, Reach sh this x ∧ sh.live x = none
      | .timeout => False := by
  intro fuel
  induction fuel with
  | zero => intro _ _ _ h; omega
  | succ fuel ih =>
    intro visited to_visit inv hfuel
    cases to_visit with
    | nil =>
      simp only [searchLoop, true_and]
      intro x hx
      have hvis : x ∈ visited := by
        induction hx with
        | refl => simpa using inv.source
        | tail _ hedge ih2 => simpa using inv.closed _ ih2 _ hedge
      exact inv.clean x hvis
    | cons cur rest =>
      have hcur : Reach sh this cur := inv.reach cur (List.mem_cons_self _ _)
      simp only [searchLoop]
      by_cases hrc : some cur ∈ rc
      · simp only [hrc, if_true, true_and]
        exact ⟨cur, hcur, hrc⟩
      · simp only [hrc, if_false]
        cases hl : sh.live cur with
        | none => exact ⟨cur, hcur, hl⟩
        | some c =>
          simp only
          rw [pushUnvisited_eq, ← Sheet.deps_of_live hl]
          apply ih _ _ (inv.step hrc)
          have hk := Sheet.live_isSome_mem hl
          simp only [List.length_append, List.length_reverse, List.length_cons] at hfuel ⊢
          by_cases hv : cur ∈ visited
          · have hnil : (sh.deps cur).filter (fun d => decide (d ∉ cur :: visited)) = [] := by
              rw [List.filter_eq_nil_iff]
              intro d hd
              have : d ∈ visited := by
                by_contra hdv
                have := inv.above [] cur rest rfl hv d hd hdv
                simp at this
              simp [this]
            have := sum_unvisited_cons_le sh.keys (fun p => (sh.deps p).length) visited cur
            simp only [searchWeight] at hfuel ⊢
            rw [hnil]
            simp only [List.length_nil]
            omega
          · have := sum_unvisited_cons_add_le sh.keys (fun p => (sh.deps p).length) visited cur
              hk hv
            dsimp only at this
            have hlen := List.length_filter_le (fun d => decide (d ∉ cur :: visited)) (sh.deps cur)
            simp only [searchWeight] at hfuel ⊢
            omega

/-- What `Cell::HasCircularDependency` answers, for every sheet. -/
theorem HasCircularDependency_spec (sh : Sheet E) (this : Position) (impl : Impl E) :
    match HasCircularDependency sh this impl with
    | .ok b _ => b = false ∧ (∀ r ∈ impl.GetReferencedCells, E.IsValid r = true) ∧
        ∀ x, Reach sh this x → x ∈ impl.GetReferencedCells → sh.live x = none
    | .threw e _ =>
        (e = .CircularDependencyException ∧ (∀ r ∈ impl.GetReferencedCells, E.IsValid r = true) ∧
          ∃ x, Reach sh this x ∧ x ∈ impl.GetReferencedCells ∧ (sh.live x).isSome) ∨
        (e = .InvalidPositionException ∧ ∃ r ∈ impl.GetReferencedCells, E.IsValid r = false)
    | .undefined => ∃ x, Reach sh this x ∧ sh.live x = none
    | .timeout => False := by
  unfold HasCircularDependency
  by_cases hnil : impl.GetReferencedCells.isEmpty = true
  · have : impl.GetReferencedCells = [] := by simpa using hnil
    simp [hnil, this]
  · simp only [hnil, Bool.false_eq_true, if_false]
    rcases collectRefCells_spec sh impl.GetReferencedCells [] with ⟨h1, rc, h2, h3⟩ | ⟨h1, h2⟩
    · rw [h2]
      simp only
      have inv : LoopInv sh this rc [] [this] :=
        ⟨fun x hx => by simp at hx; exact hx ▸ Relation.ReflTransGen.refl, by simp, by simp,
          by simp, Or.inr (List.mem_singleton_self _)⟩
      have hfuel : [this].length + searchWeight sh [] < searchFuel sh := by
        simp only [searchWeight, searchFuel, List.length_singleton, List.not_mem_nil,
          not_false_eq_true, decide_True, List.filter_true]
        omega
      have hloop := searchLoop_spec sh this rc (searchFuel sh) [] [this] inv hfuel
      cases hr : searchLoop sh rc (searchFuel sh) [] [this] with
      | ok b u =>
        rw [hr] at hloop
        refine ⟨hloop.1, h1, ?_⟩
        intro x hx hxr
        have h4 := hloop.2 x hx
        rw [h3 x] at h4
        by_contra hl
        exact h4 (Or.inr ⟨hxr, by
          cases hlx : sh.live x with
          | none => exact absurd hlx hl
          | some c => simp⟩)
      | threw e u =>
        rw [hr] at hloop
        left
        obtain ⟨he, x, hx, hxrc⟩ := hloop
        refine ⟨he, h1, x, hx, ?_⟩
        simpa using (h3 x).1 hxrc
      | undefined => rw [hr] at hloop; exact hloop
      | timeout => rw [hr] at hloop; exact hloop
    · rw [h2]
      exact Or.inr ⟨rfl, h1⟩

/-! ## Inversion of `Sheet::SetCell` -/

theorem Sheet.ensure_live (sh : Sheet E) (p q : Position) :
    (sh.ensure p).live q =
      if q = p ∧ p ∉ sh.keys then some ⟨.EmptyImpl, [], []⟩ else sh.live q := by
  unfold Sheet.ensure
  by_cases hk : p ∈ sh.keys
  · simp [hk]
  · simp only [hk, if_false, Sheet.live_create sh p q hk]
    by_cases hq : q = p <;> simp [hq]

theorem Sheet.ensure_mem (sh : Sheet E) (p : Position) : p ∈ (sh.ensure p).keys := by
  unfold Sheet.ensure
  by_cases hk : p ∈ sh.keys
  · simp [hk]
  · simp [hk, Sheet.keys_create]

/-- A `SetCell` that throws leaves the sheet as it was, up to the cell object it made for a new
key, and throws for one of three reasons. -/
theorem SetCell_threw {pos : Position} {text : String} {sh s' : Sheet E} {e : Exc}
    (h : SetCell pos text sh = .threw e s') :
    (e = .InvalidPositionException ∧ E.IsValid pos = false ∧ s' = sh) ∨
    (E.IsValid pos = true ∧ s' = sh.ensure pos ∧ ((sh.ensure pos).live pos).isSome ∧
      ((e = .FormulaException ∧ buildImpl (E := E) text = none) ∨
        ∃ impl : Impl E, buildImpl text = some impl ∧
          HasCircularDependency (sh.ensure pos) pos impl = .threw e ())) := by
  unfold SetCell SetCellAux at h
  by_cases hv : E.IsValid pos = true
  · right
    simp only [hv, Bool.not_true, Bool.false_eq_true, if_false] at h
    cases hs : (sh.ensure pos).slot pos with
    | none => simp [hs] at h
    | some c =>
      have hl : ((sh.ensure pos).live pos).isSome := by
        rw [Sheet.live_eq_slot (Sheet.ensure_mem sh pos), hs]; rfl
      simp only [hs, Cell.Set] at h
      cases hb : buildImpl (E := E) text with
      | none =>
        simp only [hb, Outcome.threw.injEq] at h
        exact ⟨hv, h.2.symm, hl, Or.inl ⟨h.1.symm, rfl⟩⟩
      | some impl =>
        simp only [hb] at h
        have hspec := HasCircularDependency_spec (sh.ensure pos) pos impl
        cases hc : HasCircularDependency (sh.ensure pos) pos impl with
        | threw e1 u =>
          simp only [hc, Outcome.threw.injEq] at h
          exact ⟨hv, h.2.symm, hl, Or.inr ⟨impl, rfl, by rw [← h.1]; exact hc⟩⟩
        | undefined => simp [hc] at h
        | timeout => simp [hc] at h
        | ok b u =>
          rw [hc] at hspec
          simp only [hc] at h
          exfalso
          cases hi : Cell.install (fun p s => SetCellAux 1 p "" s) pos impl (sh.ensure pos) with
          | threw e1 s1 =>
            obtain ⟨r, hr, hrv⟩ := install_threw hi
            rw [hspec.2.1 r hr] at hrv
            exact Bool.noConfusion hrv
          | undefined => rw [hi] at h; simp [Outcome.bind] at h
          | timeout => rw [hi] at h; simp [Outcome.bind] at h
          | ok u1 s4 =>
            rw [hi] at h
            simp only [Outcome.bind] at h
            exact InvalidateAllCache_not_threw h
  · left
    have hv : E.IsValid pos = false := by simpa using hv
    simp only [hv, Bool.not_false, if_true, Outcome.threw.injEq] at h
    exact ⟨h.1.symm, hv, h.2.symm⟩

/-- A `SetCell` that returns has passed the cycle check, installed the new implementation
object and invalidated caches. -/
theorem SetCell_ok {pos : Position} {text : String} {sh s' : Sheet E}
    (h : SetCell pos text sh = .ok () s') :
    E.IsValid pos = true ∧ ∃ (c : Cell E) (impl : Impl E) (s4 : Sheet E),
      (sh.ensure pos).live pos = some c ∧ buildImpl text = some impl ∧
      HasCircularDependency (sh.ensure pos) pos impl = .ok false () ∧
      Cell.install (fun p s => SetCellAux 1 p "" s) pos impl (sh.ensure pos) = .ok () s4 ∧
      InvalidateAllCache (s4.keys.length + 1) pos s4 = .ok () s' := by
  unfold SetCell SetCellAux at h
  by_cases hv : E.IsValid pos = true
  · refine ⟨hv, ?_⟩
    simp only [hv, Bool.not_true, Bool.false_eq_true, if_false] at h
    cases hs : (sh.ensure pos).slot pos with
    | none => simp [hs] at h
    | some c =>
      have hl : (sh.ensure pos).live pos = some c := by
        rw [Sheet.live_eq_slot (Sheet.ensure_mem sh pos), hs]
      simp only [hs, Cell.Set] at h
      cases hb : buildImpl (E := E) text with
      | none => simp [hb] at h
      | some impl =>
        simp only [hb] at h
        have hspec := HasCircularDependency_spec (sh.ensure pos) pos impl
        cases hc : HasCircularDependency (sh.ensure pos) pos impl with
        | threw e1 u => simp [hc] at h
        | undefined => simp [hc] at h
        | timeout => simp [hc] at h
        | ok b u =>
          rw [hc] at hspec
          simp only [hc] at h
          cases hi : Cell.install (fun p s => SetCellAux 1 p "" s) pos impl (sh.ensure pos) with
          | threw e1 s1 => rw [hi] at h; simp [Outcome.bind] at h
          | undefined => rw [hi] at h; simp [Outcome.bind] at h
          | timeout => rw [hi] at h; simp [Outcome.bind] at h
          | ok u1 s4 =>
            have hi2 := hi
            rw [hi] at h
            simp only [Outcome.bind] at h
            refine ⟨c, impl, s4, hl, rfl, ?_, hi2, h⟩
            rw [hc, hspec.1]
  · have hv : E.IsValid pos = false := by simpa using hv
    simp [hv] at h

/-! ## Edge symmetry is kept by `SetCell` and `ClearCell` -/

theorem Sheet.refs_of_dead {sh : Sheet E} {p : Position} (h : sh.live p = none) :
    sh.refs p = [] := by simp [Sheet.refs, h]

theorem Sheet.deps_of_dead {sh : Sheet E} {p : Position} (h : sh.live p = none) :
    sh.deps p = [] := by simp [Sheet.deps, h]

theorem Sheet.live_of_mem_refs {sh : Sheet E} {p q : Position} (h : q ∈ sh.refs p) :
    (sh.live p).isSome := by
  cases hl : sh.live p with
  | none => rw [Sheet.refs_of_dead hl] at h; simp at h
  | some c => rfl

theorem Sheet.live_of_mem_deps {sh : Sheet E} {p q : Position} (h : q ∈ sh.deps p) :
    (sh.live p).isSome := by
  cases hl : sh.live p with
  | none => rw [Sheet.deps_of_dead hl] at h; simp at h
  | some c => rfl

theorem Sheet.mem_keys_of_live {sh : Sheet E} {p : Position} (h : (sh.live p).isSome) :
    p ∈ sh.keys := by
  cases hl : sh.live p with
  | none => simp [hl] at h
  | some c => exact Sheet.live_isSome_mem hl

theorem Sheet.ensure_refs (sh : Sheet E) (p q : Position) : (sh.ensure p).refs q = sh.refs q := by
  unfold Sheet.ensure
  by_cases hk : p ∈ sh.keys
  · simp [hk]
  · simp [hk, Sheet.refs_create sh p q hk]

theorem Sheet.ensure_deps (sh : Sheet E) (p q : Position) : (sh.ensure p).deps q = sh.deps q := by
  unfold Sheet.ensure
  by_cases hk : p ∈ sh.keys
  · simp [hk]
  · simp [hk, Sheet.deps_create sh p q hk]

theorem Sheet.ensure_keys (sh : Sheet E) (p q : Position) :
    q ∈ (sh.ensure p).keys ↔ q ∈ sh.keys ∨ q = p := by
  unfold Sheet.ensure
  by_cases hk : p ∈ sh.keys
  · simp only [hk, if_true]
    constructor
    · exact Or.inl
    · rintro (h | h)
      · exact h
      · exact h ▸ hk
  · simp [hk, Sheet.keys_create]

theorem Sheet.ensure_impl (sh : Sheet E) (p q : Position) :
    (sh.ensure p).impl q = if q = p ∧ p ∉ sh.keys then some .EmptyImpl else sh.impl q := by
  simp only [Sheet.impl, Sheet.ensure_live]
  by_cases h : q = p ∧ p ∉ sh.keys <;> simp [h]

theorem Sheet.ensure_live_isSome (sh : Sheet E) (p q : Position) :
    ((sh.ensure p).live q).isSome ↔ (sh.live q).isSome ∨ (q = p ∧ p ∉ sh.keys) := by
  rw [Sheet.ensure_live]
  by_cases h : q = p ∧ p ∉ sh.keys
  · simp [h]
  · simp [h]

theorem Linked.empty : Linked (Sheet.empty (E := E)) :=
  ⟨fun p q h => by simp [Sheet.refs, Sheet.deps, Sheet.live, Sheet.empty] at h,
    fun p q h => by simp [Sheet.live, Sheet.empty] at h⟩

theorem Linked.ensure {sh : Sheet E} (g : Linked sh) (pos : Position) :
    Linked (sh.ensure pos) := by
  refine ⟨?_, ?_⟩
  · intro p q h
    rw [Sheet.ensure_refs, Sheet.ensure_deps] at h
    exact (Sheet.ensure_keys sh pos q).2 (Or.inl (g.closed p q h))
  · intro p q hp hq
    rw [Sheet.ensure_refs, Sheet.ensure_deps]
    rcases (Sheet.ensure_live_isSome sh pos p).1 hp with hp | ⟨hp, hk⟩
    · rcases (Sheet.ensure_live_isSome sh pos q).1 hq with hq | ⟨hq, hk⟩
      · exact g.sym p q hp hq
      · subst hq
        have hd : sh.deps q = [] := Sheet.deps_of_dead (Sheet.live_none_of_not_mem hk)
        constructor
        · intro h; exact absurd (g.closed p q (Or.inl h)) hk
        · intro h; rw [hd] at h; simp at h
    · subst hp
      have hr : sh.refs p = [] := Sheet.refs_of_dead (Sheet.live_none_of_not_mem hk)
      constructor
      · intro h; rw [hr] at h; simp at h
      · intro h; exact absurd (g.closed q p (Or.inr h)) hk

theorem Linked.sameUpToCache {s s' : Sheet E} (g : Linked s) (h : SameUpToCache s s') :
    Linked s' := by
  refine ⟨?_, ?_⟩
  · intro p q hpq
    rw [h.2.1, h.2.2.1] at hpq
    rw [h.1]
    exact g.closed p q hpq
  · intro p q hp hq
    rw [h.live_isSome] at hp hq
    rw [h.2.1, h.2.2.1]
    exact g.sym p q hp hq

theorem Linked.clear {sh : Sheet E} (g : Linked sh) (pos : Position) :
    Linked (sh.put pos none) := by
  have hlive : ∀ q, (sh.put pos none).live q = if q = pos then none else sh.live q := by
    intro q
    rw [Sheet.live_put]
    by_cases hq : q = pos <;> simp [hq]
  have hrefs : ∀ q, (sh.put pos none).refs q = if q = pos then [] else sh.refs q := by
    intro q
    simp only [Sheet.refs, hlive q]
    by_cases hq : q = pos <;> simp [hq]
  have hdeps : ∀ q, (sh.put pos none).deps q = if q = pos then [] else sh.deps q := by
    intro q
    simp only [Sheet.deps, hlive q]
    by_cases hq : q = pos <;> simp [hq]
  refine ⟨?_, ?_⟩
  · intro p q h
    rw [hrefs, hdeps] at h
    rw [Sheet.keys_put]
    by_cases hp : p = pos
    · simp [hp] at h
    · simp only [hp, if_false] at h
      exact g.closed p q h
  · intro p q hp hq
    rw [hlive] at hp hq
    rw [hrefs, hdeps]
    by_cases hp2 : p = pos
    · simp [hp2] at hp
    · by_cases hq2 : q = pos
      · simp [hq2] at hq
      · simp only [hp2, hq2, if_false] at hp hq ⊢
        exact g.sym p q hp hq

/-- The commit of `Cell::Set` keeps the edges linked. -/
theorem Linked.install {s s' : Sheet E} (g : Linked s) {this : Position} {impl : Impl E}
    {c : Cell E} (hc : s.live this = some c)
    (h : Cell.install (fun p s => SetCellAux 1 p "" s) this impl s = .ok () s') :
    Linked s' := by
  obtain ⟨i1, i2, i3, i4, i5, i6, i7⟩ := install_ok hc h
  have hcref : c.ref_cells_ = s.refs this := (Sheet.refs_of_live hc).symm
  have hthis : (s.live this).isSome := by simp [hc]
  have hlive : ∀ q, (s'.live q).isSome → (s.live q).isSome ∨ q ∉ s.keys := by
    intro q hq
    by_cases hk : q ∈ s.keys
    · left
      rw [← Sheet.impl_isSome, i5 q] at hq
      by_cases hq2 : q = this
      · exact hq2 ▸ hthis
      · simpa [hq2, hk, Sheet.impl_isSome] using hq
    · exact Or.inr hk
  refine ⟨?_, ?_⟩
  · intro p q hpq
    rw [i4 q]
    rcases hpq with hpq | hpq
    · rw [i6 p q] at hpq
      by_cases hp : p = this
      · simp only [hp, if_true] at hpq; exact Or.inr hpq
      · simp only [hp, if_false] at hpq; exact Or.inl (g.closed p q (Or.inl hpq))
    · rcases (i7 p q).1 hpq with ⟨h1, -⟩ | ⟨h1, -⟩
      · exact Or.inl (g.closed p q (Or.inr h1))
      · exact Or.inl (h1 ▸ Sheet.live_isSome_mem hc)
  · intro p q hp hq
    rw [i6 p q, i7 q p]
    by_cases hpt : p = this
    · subst hpt
      simp only [if_true, true_and]
      constructor
      · exact Or.inr
      · rintro (⟨h1, h2⟩ | h1)
        · exfalso
          apply h2
          rw [hcref]
          exact (g.sym p q hthis (Sheet.live_of_mem_deps h1)).2 h1
        · exact h1
    · simp only [hpt, if_false, false_and, or_false, not_false_eq_true, and_true]
      rcases hlive p hp with hp' | hp'
      · rcases hlive q hq with hq' | hq'
        · exact g.sym p q hp' hq'
        · constructor
          · intro h1; exact absurd (g.closed p q (Or.inl h1)) hq'
          · intro h1; exact absurd (Sheet.mem_keys_of_live (Sheet.live_of_mem_deps h1)) hq'
      · constructor
        · intro h1; exact absurd (Sheet.mem_keys_of_live (Sheet.live_of_mem_refs h1)) hp'
        · intro h1; exact absurd (g.closed q p (Or.inr h1)) hp'

theorem Linked.setCell {sh s' : Sheet E} (g : Linked sh) {pos : Position} {text : String}
    (h : (SetCell pos text sh).state? = some s') : Linked s' := by
  cases hr : SetCell pos text sh with
  | ok u s1 =>
    rw [hr] at h
    simp only [Outcome.state?, Option.some.injEq] at h
    subst h
    obtain ⟨-, c, impl, s4, hl, -, -, hi, hinv⟩ := SetCell_ok hr
    exact ((g.ensure pos).install hl hi).sameUpToCache (InvalidateAllCache_ok hinv)
  | threw e s1 =>
    rw [hr] at h
    simp only [Outcome.state?, Option.some.injEq] at h
    subst h
    rcases SetCell_threw hr with ⟨-, -, h1⟩ | ⟨-, h1, -⟩
    · exact h1 ▸ g
    · exact h1 ▸ g.ensure pos
  | undefined => rw [hr] at h; simp [Outcome.state?] at h
  | timeout => rw [hr] at h; simp [Outcome.state?] at h

theorem Linked.clearCell {sh s' : Sheet E} (g : Linked sh) {pos : Position}
    (h : (ClearCell pos sh).state? = some s') : Linked s' := by
  unfold ClearCell at h
  by_cases hv : E.IsValid pos = true
  · by_cases hk : pos ∈ sh.keys
    · simp only [hv, hk, Bool.not_true, Bool.false_eq_true, if_false, if_true, Outcome.state?,
        Option.some.injEq] at h
      exact h ▸ g.clear pos
    · simp only [hv, hk, Bool.not_true, Bool.false_eq_true, if_false, Outcome.state?,
        Option.some.injEq] at h
      exact h ▸ g
  · have hv : E.IsValid pos = false := by simpa using hv
    simp only [hv, Bool.not_false, if_true, Outcome.state?, Option.some.injEq] at h
    exact h ▸ g

theorem run_linked {ops : List Op} (hops : ∀ op ∈ ops, op.isEdit = true) {s0 sh : Sheet E}
    (g : Linked s0) (hrun : run ops s0 = some sh) : Linked sh := by
  induction ops generalizing s0 with
  | nil =>
    simp only [run, Option.some.injEq] at hrun
    exact hrun ▸ g
  | cons op ops ih =>
    simp only [run] at hrun
    cases ha : op.apply s0 with
    | none => rw [ha] at hrun; simp at hrun
    | some s1 =>
      rw [ha] at hrun
      simp only [Option.some_bind] at hrun
      have hop := hops op (List.mem_cons_self _ _)
      have g1 : Linked s1 := by
        cases op with
        | set pos text => exact g.setCell ha
        | clear pos => exact g.clearCell ha
        | value pos => simp [Op.isEdit] at hop
      exact ih (fun o ho => hops o (List.mem_cons_of_mem _ ho)) g1 hrun

/-! ## Paths through a graph in which the edges of one node were replaced -/

theorem path_cut {α : Type} {R4 Rs : α → α → Prop} {pos : α}
    (hold : ∀ a b, a ≠ pos → R4 a b → Rs a b) {a b : α} (h : Relation.ReflTransGen R4 a b) :
    Relation.ReflTransGen Rs a pos ∨ Relation.ReflTransGen Rs a b := by
  induction h using Relation.ReflTransGen.head_induction_on with
  | refl => exact Or.inr Relation.ReflTransGen.refl
  | @head x y hab _ ih =>
    by_cases hx : x = pos
    · exact Or.inl (hx ▸ Relation.ReflTransGen.refl)
    · rcases ih with ih | ih
      · exact Or.inl (Relation.ReflTransGen.head (hold _ _ hx hab) ih)
      · exact Or.inr (Relation.ReflTransGen.head (hold _ _ hx hab) ih)

theorem path_split {α : Type} {R4 Rs : α → α → Prop} {pos : α} {targets : α → Prop}
    (hold : ∀ a b, a ≠ pos → R4 a b → Rs a b) (hnew : ∀ b, R4 pos b → targets b) {a b : α}
    (h : Relation.TransGen R4 a b) :
    Relation.TransGen Rs a b ∨
      (Relation.ReflTransGen Rs a pos ∧ ∃ r, targets r ∧ Relation.ReflTransGen R4 r b) := by
  induction h with
  | single hab =>
    by_cases ha : a = pos
    · subst ha
      exact Or.inr ⟨Relation.ReflTransGen.refl, _, hnew _ hab, Relation.ReflTransGen.refl⟩
    · exact Or.inl (Relation.TransGen.single (hold _ _ ha hab))
  | @tail m b' _ hmb ih =>
    rcases ih with ih | ⟨h1, r, hr, h2⟩
    · by_cases hm : m = pos
      · subst hm
        exact Or.inr ⟨ih.to_reflTransGen, _, hnew _ hmb, Relation.ReflTransGen.refl⟩
      · exact Or.inl (Relation.TransGen.tail ih (hold _ _ hm hmb))
    · exact Or.inr ⟨h1, r, hr, Relation.ReflTransGen.tail h2 hmb⟩

/-- Replacing the outgoing edges of `pos` by edges to `targets` closes no cycle when no target
reaches `pos` in the old graph. -/
theorem no_new_cycle {α : Type} {R4 : α → α → Prop} (Rs : α → α → Prop) (pos : α)
    (targets : α → Prop) (hold : ∀ a b, a ≠ pos → R4 a b → Rs a b) (hnew : ∀ b, R4 pos b → targets b)
    (hacyc : ∀ p, ¬ Relation.TransGen Rs p p)
    (hcheck : ∀ r, targets r → ¬ Relation.ReflTransGen Rs r pos) :
    ∀ p, ¬ Relation.TransGen R4 p p := by
  intro p hp
  rcases path_split hold hnew hp with h | ⟨h1, r, hr, h2⟩
  · exact hacyc p h
  · rcases path_cut hold h2 with h3 | h3
    · exact hcheck r hr h3
    · exact hcheck r hr (h3.trans h1)

/-! ## The invariant of sheets built by `SetCell` -/

theorem Good.sym_all {sh : Sheet E} (g : Good sh) (p q : Position) :
    q ∈ sh.refs p ↔ p ∈ sh.deps q := by
  constructor
  · intro h
    have hp := Sheet.live_of_mem_refs h
    have hq := g.noNull q (g.linked.closed p q (Or.inl h))
    exact (g.linked.sym p q hp hq).1 h
  · intro h
    have hq := Sheet.live_of_mem_deps h
    have hp := g.noNull p (g.linked.closed q p (Or.inr h))
    exact (g.linked.sym p q hp hq).2 h

theorem Good.reach_of_refPath {sh : Sheet E} (g : Good sh) {a b : Position}
    (h : Relation.ReflTransGen (RefEdge sh) a b) : Reach sh b a := by
  induction h with
  | refl => exact Relation.ReflTransGen.refl
  | tail _ hmb ih => exact Relation.ReflTransGen.head ((g.sym_all _ _).1 hmb) ih

theorem Good.refPath_of_reach {sh : Sheet E} (g : Good sh) {a b : Position}
    (h : Reach sh a b) : Relation.ReflTransGen (RefEdge sh) b a := by
  induction h with
  | refl => exact Relation.ReflTransGen.refl
  | tail _ hmb ih => exact Relation.ReflTransGen.head ((g.sym_all _ _).2 hmb) ih

theorem Good.live_of_reach {sh : Sheet E} (g : Good sh) {a b : Position}
    (ha : (sh.live a).isSome) (h : Reach sh a b) : (sh.live b).isSome := by
  induction h with
  | refl => exact ha
  | tail _ hmb _ => exact g.noNull _ (g.linked.closed _ _ (Or.inr hmb))

theorem Good.init : Good (Sheet.empty (E := E)) := by
  refine ⟨Linked.empty, ?_, ?_, ?_, ?_⟩
  · intro p hp; simp [Sheet.empty] at hp
  · intro p hp
    rcases Relation.TransGen.head'_iff.1 hp with ⟨c, h, -⟩
    simp [RefEdge, Sheet.refs, Sheet.live, Sheet.empty] at h
  · intro p i h
    simp [Sheet.impl, Sheet.live, Sheet.empty] at h
  · intro p hp; simp [Sheet.empty] at hp

theorem Good.prepared {sh : Sheet E} (g : Good sh) {pos : Position} (hv : E.IsValid pos = true) :
    Good (sh.ensure pos) := by
  refine ⟨g.linked.ensure pos, ?_, ?_, ?_, ?_⟩
  rotate_right
  · intro p hp
    rcases (Sheet.ensure_keys sh pos p).1 hp with h | h
    · exact g.valid p h
    · exact h ▸ hv
  · intro p hp
    rw [Sheet.ensure_live_isSome]
    rcases (Sheet.ensure_keys sh pos p).1 hp with h | h
    · exact Or.inl (g.noNull p h)
    · by_cases hk : pos ∈ sh.keys
      · exact Or.inl (g.noNull p (h ▸ hk))
      · exact Or.inr ⟨h, hk⟩
  · intro p hp
    apply g.acyclic p
    have : RefEdge (sh.ensure pos) = RefEdge sh := by
      funext a b
      simp [RefEdge, Sheet.ensure_refs]
    unfold DependsOn at hp ⊢
    rwa [this] at hp
  · intro p i hi q
    rw [Sheet.ensure_refs]
    rw [Sheet.ensure_impl] at hi
    by_cases h : p = pos ∧ pos ∉ sh.keys
    · simp only [h, not_false_eq_true, and_self, if_true, Option.some.injEq] at hi
      subst hi
      have : sh.refs p = [] := Sheet.refs_of_dead (Sheet.live_none_of_not_mem (h.1 ▸ h.2))
      simp [this, Impl.GetReferencedCells]
    · simp only [h, if_false] at hi
      exact g.content p i hi q

theorem Impl.GetReferencedCells_invalidate (i : Impl E) :
    i.InvalidateCache.GetReferencedCells = i.GetReferencedCells := by
  cases i <;> rfl

theorem Good.same {s s' : Sheet E} (g : Good s) (h : SameUpToCache s s') :
    Good s' := by
  refine ⟨g.linked.sameUpToCache h, ?_, ?_, ?_, ?_⟩
  rotate_right
  · intro p hp
    exact g.valid p (h.1 ▸ hp)
  · intro p hp
    rw [h.live_isSome]
    exact g.noNull p (h.1 ▸ hp)
  · intro p hp
    apply g.acyclic p
    have : RefEdge s' = RefEdge s := by
      funext a b
      simp [RefEdge, h.2.1]
    unfold DependsOn at hp ⊢
    rwa [this] at hp
  · intro p i hi q
    rw [h.2.1]
    have h4 := h.2.2.2 p
    rw [hi] at h4
    cases hs : s.impl p with
    | none => rw [hs] at h4; simp at h4
    | some i0 =>
      rw [hs] at h4
      simp only [Option.map_some', Option.some.injEq] at h4
      rw [g.content p i0 hs q, ← Impl.GetReferencedCells_invalidate i0, ← h4,
        Impl.GetReferencedCells_invalidate]

/-- The commit of `Cell::Set` keeps the invariant when the cycle check has passed. -/
theorem Good.commit {s s' : Sheet E} (g : Good s) {this : Position} {impl : Impl E}
    {c : Cell E} (hc : s.live this = some c)
    (hcheck : ∀ x, Reach s this x → x ∈ impl.GetReferencedCells → s.live x = none)
    (h : Cell.install (fun p s => SetCellAux 1 p "" s) this impl s = .ok () s') :
    Good s' := by
  obtain ⟨i1, i2, i3, i4, i5, i6, i7⟩ := install_ok hc h
  have hthis : (s.live this).isSome := by simp [hc]
  refine ⟨g.linked.install hc h, ?_, ?_, ?_, ?_⟩
  rotate_right
  · intro p hp
    rcases (i4 p).1 hp with h1 | h1
    · exact g.valid p h1
    · exact i2 p h1
  · intro p hp
    rw [← Sheet.impl_isSome, i5 p]
    by_cases hpt : p = this
    · simp [hpt]
    · simp only [hpt, if_false]
      by_cases hk : p ∈ s.keys
      · simpa [hk, Sheet.impl_isSome] using g.noNull p hk
      · rcases (i4 p).1 hp with h1 | h1
        · exact absurd h1 hk
        · simp [h1, hk]
  · apply no_new_cycle (RefEdge s) this (fun r => r ∈ impl.GetReferencedCells)
    · intro a b ha hab
      simpa [RefEdge, i6 a b, ha] using hab
    · intro b hb
      simpa [RefEdge, i6 this b] using hb
    · exact g.acyclic
    · intro r hr hpath
      have hdead := hcheck r (g.reach_of_refPath hpath) hr
      rcases Relation.ReflTransGen.cases_head hpath with h0 | ⟨m, hrm, -⟩
      · rw [h0, hc] at hdead; simp at hdead
      · have := Sheet.live_of_mem_refs hrm
        rw [hdead] at this; simp at this
  · intro p i hi q
    rw [i6 p q]
    rw [i5 p] at hi
    by_cases hpt : p = this
    · simp only [hpt, if_true, Option.some.injEq] at hi ⊢
      rw [hi]
    · simp only [hpt, if_false] at hi ⊢
      by_cases hnew : p ∈ impl.GetReferencedCells ∧ p ∉ s.keys
      · simp only [hnew, not_false_eq_true, and_self, if_true, Option.some.injEq] at hi
        subst hi
        have : s.refs p = [] := Sheet.refs_of_dead (Sheet.live_none_of_not_mem hnew.2)
        simp [this, Impl.GetReferencedCells]
      · simp only [hnew, if_false] at hi
        exact g.content p i hi q

theorem Good.afterSet {sh s' : Sheet E} (g : Good sh) {pos : Position} {text : String}
    (h : (SetCell pos text sh).state? = some s') : Good s' := by
  cases hr : SetCell pos text sh with
  | ok u s1 =>
    rw [hr] at h
    simp only [Outcome.state?, Option.some.injEq] at h
    subst h
    obtain ⟨hv, c, impl, s4, hl, -, hchk, hi, hinv⟩ := SetCell_ok hr
    have hspec := HasCircularDependency_spec (sh.ensure pos) pos impl
    rw [hchk] at hspec
    exact ((g.prepared hv).commit hl hspec.2.2 hi).same (InvalidateAllCache_ok hinv)
  | threw e s1 =>
    rw [hr] at h
    simp only [Outcome.state?, Option.some.injEq] at h
    subst h
    rcases SetCell_threw hr with ⟨-, -, h1⟩ | ⟨hv, h1, -⟩
    · exact h1 ▸ g
    · exact h1 ▸ g.prepared hv
  | undefined => rw [hr] at h; simp [Outcome.state?] at h
  | timeout => rw [hr] at h; simp [Outcome.state?] at h

/-! ## On a sheet built by `SetCell` every call of `SetCell` has a defined result -/

theorem forEach_total {σ α : Type} (body : α → σ → Outcome σ Unit) (P : σ → Prop)
    (xs : List α) (hbody : ∀ x ∈ xs, ∀ s, P s → ∃ s', body x s = .ok () s' ∧ P s')
    {s : σ} (hs : P s) : ∃ s', forEach body xs s = .ok () s' ∧ P s' := by
  induction xs generalizing s with
  | nil => exact ⟨s, rfl, hs⟩
  | cons x xs ih =>
    obtain ⟨s1, h1, p1⟩ := hbody x (List.mem_cons_self _ _) s hs
    obtain ⟨s2, h2, p2⟩ := ih (fun y hy => hbody y (List.mem_cons_of_mem _ hy)) p1
    exact ⟨s2, by simp [forEach, h1, Outcome.bind, h2], p2⟩

theorem attach_total {this o : Position} {s : Sheet E} (hthis : (s.live this).isSome)
    (ho : (s.live o).isSome) : ∃ s', attach this o s = .ok () s' := by
  unfold attach
  cases hc : s.live this with
  | none => simp [hc] at hthis
  | some c =>
    have hk := Sheet.live_isSome_mem hc
    simp only
    cases hoc : (s.put this (some { c with
        ref_cells_ := List.insert o c.ref_cells_ })).live o with
    | none =>
      rw [Sheet.live_put] at hoc
      by_cases hot : o = this
      · simp [hot, hk] at hoc
      · simp only [hot, if_false] at hoc
        rw [hoc] at ho; simp at ho
    | some oc => exact ⟨_, rfl⟩

theorem eraseLoop_total (this : Position) {l : List Position} {s : Sheet E}
    (hl : ∀ o ∈ l, (s.live o).isSome) : ∃ s', forEach (eraseDep this) l s = .ok () s' := by
  have := forEach_total (eraseDep this) (fun a => ∀ o ∈ l, (a.live o).isSome) l
    (by
      intro x hx a ha
      cases hc : a.live x with
      | none => have := ha x hx; rw [hc] at this; simp at this
      | some c =>
        refine ⟨a.put x (some { c with
          dep_cells_ := c.dep_cells_.filter (fun y => y ≠ this) }), by simp only [eraseDep, hc], ?_⟩
        intro o ho
        rw [Sheet.live_put]
        by_cases hox : o = x
        · simp [hox, Sheet.live_isSome_mem hc]
        · simpa [hox] using ha o ho)
    hl
  obtain ⟨s', h, -⟩ := this
  exact ⟨s', h⟩

theorem RefCellsProcessing_total {this : Position} {vec : List Position} {s : Sheet E}
    (hv : ∀ r ∈ vec, E.IsValid r = true) (hn : ∀ p ∈ s.keys, (s.live p).isSome)
    (hthis : (s.live this).isSome) :
    ∃ s', RefCellsProcessing (fun p s => SetCellAux 1 p "" s) this vec s = .ok () s' := by
  unfold RefCellsProcessing
  have := forEach_total (linkRef (fun p s => SetCellAux 1 p "" s) this)
    (fun a => (∀ p ∈ a.keys, (a.live p).isSome) ∧ (a.live this).isSome) vec
    (by
      intro x hx a ha
      have hxv := hv x hx
      have hstep : ∃ a', linkRef (fun p s => SetCellAux 1 p "" s) this x a = .ok () a' := by
        rw [linkRef_eq this x a hxv]
        by_cases hk : x ∈ a.keys
        · simp only [hk, if_true, ha.1 x hk]
          exact attach_total ha.2 (ha.1 x hk)
        · simp only [hk, if_false]
          apply attach_total
          · rw [Sheet.live_create a x this hk]
            by_cases ht : this = x
            · simp [ht]
            · simpa [ht] using ha.2
          · rw [Sheet.live_create a x x hk]; simp
      obtain ⟨a', ha'⟩ := hstep
      refine ⟨a', ha', ?_⟩
      obtain ⟨-, l2, l3, l4, -, -⟩ := linkRef_ok ha'
      have hlive : ∀ p, (a.live p).isSome → (a'.live p).isSome := by
        intro p hp
        rw [← Sheet.impl_isSome, l4 p]
        by_cases hh : p = x ∧ x ∉ a.keys
        · simp [hh]
        · simpa [hh, Sheet.impl_isSome] using hp
      refine ⟨?_, hlive this ha.2⟩
      intro p hp
      rw [l3] at hp
      by_cases hk : x ∈ a.keys
      · simp only [hk, if_true] at hp
        exact hlive p (ha.1 p hp)
      · simp only [hk, if_false, List.mem_append, List.mem_singleton] at hp
        rcases hp with hp | hp
        · exact hlive p (ha.1 p hp)
        · rw [← Sheet.impl_isSome, l4 p]
          simp [hp, hk])
    ⟨hn, hthis⟩
  obtain ⟨s', h, -⟩ := this
  exact ⟨s', h⟩

theorem install_total {s : Sheet E} (g : Good s) (this : Position) (impl : Impl E)
    (hthis : (s.live this).isSome) (hv : ∀ r ∈ impl.GetReferencedCells, E.IsValid r = true) :
    ∃ s', Cell.install (fun p s => SetCellAux 1 p "" s) this impl s = .ok () s' := by
  unfold Cell.install
  cases hc : s.live this with
  | none => simp [hc] at hthis
  | some c =>
    have hk := Sheet.live_isSome_mem hc
    simp only
    have hcl : ∀ o ∈ c.ref_cells_,
        ((s.put this (some { c with impl_ := impl })).live o).isSome := by
      intro o ho
      rw [Sheet.live_put]
      by_cases hot : o = this
      · simp [hot, hk]
      · simp only [hot, if_false]
        apply g.noNull
        apply g.linked.closed this o
        left
        rw [Sheet.refs_of_live hc]
        exact ho
    obtain ⟨s2, h2⟩ := eraseLoop_total this hcl
    rw [h2]
    simp only [Outcome.bind]
    obtain ⟨-, e2, e3, -, -⟩ := eraseLoop_ok h2
    have hlive2 : ∀ p, (s2.live p).isSome = (s.live p).isSome := by
      intro p
      rw [← Sheet.impl_isSome, e3 p, Sheet.impl_put hc, ← Sheet.impl_isSome]
      by_cases hp : p = this
      · simp [hp, Sheet.impl_of_live hc]
      · simp [hp]
    cases hc2 : s2.live this with
    | none => have := hlive2 this; rw [hc2, hc] at this; simp at this
    | some c2 =>
      simp only
      have hk2 : this ∈ s2.keys := Sheet.live_isSome_mem hc2
      apply RefCellsProcessing_total hv
      · intro p hp
        rw [Sheet.live_put]
        by_cases hpt : p = this
        · simp [hpt, hk2]
        · simp only [hpt, if_false]
          rw [hlive2]
          apply g.noNull
          rw [Sheet.keys_put, e2, Sheet.keys_put] at hp
          exact hp
      · rw [Sheet.live_put]; simp [hk2]

theorem Good.no_dep_cycle {sh : Sheet E} (g : Good sh) (p : Position) :
    ¬ Relation.TransGen (DepEdge sh) p p := by
  intro h
  apply g.acyclic p
  have : ∀ a b, Relation.TransGen (DepEdge sh) a b → Relation.TransGen (RefEdge sh) b a := by
    intro a b hab
    induction hab with
    | single h1 => exact Relation.TransGen.single ((g.sym_all _ _).2 h1)
    | tail _ h1 ih => exact Relation.TransGen.head ((g.sym_all _ _).2 h1) ih
  exact this p p h

/-- A duplicate-free chain of keys that does not contain the key `this` is shorter than the
list of keys. -/
theorem depth_bound {keys path : List Position} {this : Position} (hnd : path.Nodup)
    (hsub : ∀ x ∈ path, x ∈ keys) (hthis : this ∈ keys) (hnot : this ∉ path) :
    path.length + 1 ≤ keys.length := by
  have hnd2 : (this :: path).Nodup := List.nodup_cons.2 ⟨hnot, hnd⟩
  have hsub2 : (this :: path) ⊆ keys := by
    intro x hx
    rcases List.mem_cons.1 hx with h | h
    · exact h ▸ hthis
    · exact hsub x h
  have := (List.subperm_of_subset hnd2 hsub2).length_le
  simpa using this

/-- On a sheet without cycles the recursion of `InvalidateAllCache` ends within the fuel. -/
theorem InvalidateAllCache_total {s0 : Sheet E} (g : Good s0) :
    ∀ (fuel : Nat) (path : List Position) (this : Position) (s : Sheet E),
      SameUpToCache s0 s → path.Nodup → (∀ x ∈ path, x ∈ s0.keys) →
      (∀ x ∈ path, Relation.TransGen (DepEdge s0) x this) → (s0.live this).isSome →
      s0.keys.length ≤ fuel + path.length →
      ∃ s', InvalidateAllCache fuel this s = .ok () s' ∧ SameUpToCache s0 s' := by
  intro fuel
  induction fuel with
  | zero =>
    intro path this s _ hnd hsub hreach hthis hlen
    exfalso
    have hnot : this ∉ path := fun hin => g.no_dep_cycle this (hreach this hin)
    have := depth_bound hnd hsub (Sheet.mem_keys_of_live hthis) hnot
    omega
  | succ fuel ih =>
    intro path this s hsame hnd hsub hreach hthis hlen
    have hnot : this ∉ path := fun hin => g.no_dep_cycle this (hreach this hin)
    unfold InvalidateAllCache
    cases hc : s.live this with
    | none => rw [← hsame.live_isSome, hc] at hthis; simp at hthis
    | some c =>
      simp only
      by_cases hcache : c.impl_.HasCache = true
      · simp only [hcache, if_true]
        have hsame1 : SameUpToCache s0
            (s.put this (some { c with impl_ := c.impl_.InvalidateCache })) :=
          hsame.trans (sameUpToCache_put_invalidate hc)
        have hdeps : c.dep_cells_ = s0.deps this := by
          rw [← Sheet.deps_of_live hc, hsame.2.2.1]
        apply forEach_total _ (fun a => SameUpToCache s0 a) _ _ hsame1
        intro d hd a ha
        have hd : d ∈ s0.deps this := hdeps ▸ hd
        apply ih (this :: path) d a ha
        · exact List.nodup_cons.2 ⟨hnot, hnd⟩
        · intro x hx
          rcases List.mem_cons.1 hx with h | h
          · exact h ▸ Sheet.mem_keys_of_live hthis
          · exact hsub x h
        · intro x hx
          rcases List.mem_cons.1 hx with h | h
          · exact h ▸ Relation.TransGen.single hd
          · exact Relation.TransGen.tail (hreach x h) hd
        · exact g.noNull d (g.linked.closed this d (Or.inr hd))
        · simp only [List.length_cons]; omega
      · simp only [hcache, Bool.false_eq_true, if_false]
        exact ⟨s, rfl, hsame⟩

/-- On a sheet built by `SetCell` a call of `SetCell` returns or throws: it meets no dangling
pointer and does not run out of fuel. -/
theorem SetCell_total {sh : Sheet E} (g : Good sh) (pos : Position) (text : String) :
    ∃ s', (SetCell pos text sh).state? = some s' := by
  unfold SetCell SetCellAux
  by_cases hv : E.IsValid pos = true
  · simp only [hv, Bool.not_true, Bool.false_eq_true, if_false]
    have g1 := g.prepared hv
    have hlive := g1.noNull pos (Sheet.ensure_mem sh pos)
    have hslot : ((sh.ensure pos).slot pos).isSome := by
      rw [← Sheet.live_eq_slot (Sheet.ensure_mem sh pos)]; exact hlive
    cases hs : (sh.ensure pos).slot pos with
    | none => rw [hs] at hslot; simp at hslot
    | some c =>
      simp only [Cell.Set]
      cases hb : buildImpl (E := E) text with
      | none => exact ⟨_, rfl⟩
      | some impl =>
        simp only
        have hspec := HasCircularDependency_spec (sh.ensure pos) pos impl
        cases hchk : HasCircularDependency (sh.ensure pos) pos impl with
        | threw e u => exact ⟨_, rfl⟩
        | undefined =>
          rw [hchk] at hspec
          obtain ⟨x, hx, hdead⟩ := hspec
          have := g1.live_of_reach hlive hx
          rw [hdead] at this; simp at this
        | timeout => rw [hchk] at hspec; exact hspec.elim
        | ok b u =>
          rw [hchk] at hspec
          simp only
          obtain ⟨s4, h4⟩ := install_total g1 pos impl hlive hspec.2.1
          cases hc : (sh.ensure pos).live pos with
          | none => rw [hc] at hlive; simp at hlive
          | some c0 =>
            have g4 : Good s4 := g1.commit hc hspec.2.2 h4
            obtain ⟨-, -, -, i4, i5, -, -⟩ := install_ok hc h4
            have hlive4 : (s4.live pos).isSome := by
              rw [← Sheet.impl_isSome, i5 pos]; simp
            obtain ⟨s5, h5, -⟩ := InvalidateAllCache_total g4 (s4.keys.length + 1) [] pos s4
              (SameUpToCache.refl s4) List.nodup_nil (by simp) (by simp) hlive4 (by simp)
            rw [h4]
            simp only [Outcome.bind, h5]
            exact ⟨_, rfl⟩
  · have hv : E.IsValid pos = false := by simpa using hv
    simp only [hv, Bool.not_false, if_true]
    exact ⟨_, rfl⟩

theorem RefEdge_ensure (sh : Sheet E) (pos : Position) :
    RefEdge (sh.ensure pos) = RefEdge sh := by
  funext a b
  simp [RefEdge, Sheet.ensure_refs]

theorem run_set_good {ops : List Op} (hops : ∀ op ∈ ops, op.isSet = true) {s0 : Sheet E}
    (g : Good s0) : ∃ sh, run ops s0 = some sh ∧ Good sh := by
  induction ops generalizing s0 with
  | nil => exact ⟨s0, rfl, g⟩
  | cons op ops ih =>
    have hop := hops op (List.mem_cons_self _ _)
    cases op with
    | set pos text =>
      obtain ⟨s1, h1⟩ := SetCell_total g pos text
      obtain ⟨sh, h2, g2⟩ := ih (fun o ho => hops o (List.mem_cons_of_mem _ ho)) (g.afterSet h1)
      exact ⟨sh, by simp [run, Op.apply, h1, h2], g2⟩
    | clear pos => simp [Op.isSet] at hop
    | value pos => simp [Op.isSet] at hop

theorem buildImpl_formula {text : String} {h : E.Handle}
    (hform : text.data.length > 1 ∧ text.data.head? = some FORMULA_SIGN)
    (hparse : E.ParseFormula (String.mk (text.data.drop 1)) = some h) :
    buildImpl (E := E) text =
      some (.FormulaImpl h (String.mk (FORMULA_SIGN :: (E.GetExpression h).data)) none) := by
  have hne : text.data.isEmpty = false := by
    cases hd : text.data with
    | nil => rw [hd] at hform; simp at hform
    | cons a l => rfl
  unfold buildImpl
  rw [hne]
  simp only [Bool.false_eq_true, if_false]
  rw [if_pos hform]
  unfold mkFormulaImpl
  rw [hparse]

/-! ## `Cell::GetValue` changes caches only -/

theorem setCache_same (s : Sheet E) (this : Position) (v : FValue E.Num E.FErr) :
    SameUpToCache s (setCache s this v) := by
  unfold setCache
  split
  · rename_i h t cache d r hc
    refine ⟨rfl, ?_, ?_, ?_⟩
    · intro q
      rw [Sheet.refs_put hc]
      by_cases hq : q = this
      · subst hq; simp [Sheet.refs_of_live hc]
      · simp [hq]
    · intro q
      rw [Sheet.deps_put hc]
      by_cases hq : q = this
      · subst hq; simp [Sheet.deps_of_live hc]
      · simp [hq]
    · intro q
      rw [Sheet.impl_put hc]
      by_cases hq : q = this
      · subst hq; simp [Sheet.impl_of_live hc, Impl.InvalidateCache]
      · simp [hq]
  · exact SameUpToCache.refl s

theorem lookupCells_same
    {getValue : Position → Sheet E → Outcome (Sheet E) (Value E.Num E.FErr × List Position)}
    (hget : ∀ p a a' r, getValue p a = .ok r a' → SameUpToCache a a') :
    ∀ (l : List Position) (s s' : Sheet E) r, lookupCells getValue l s = .ok r s' →
      SameUpToCache s s' := by
  intro l
  induction l with
  | nil =>
    intro s s' r h
    simp only [lookupCells, Outcome.ok.injEq] at h
    exact h.2 ▸ SameUpToCache.refl s
  | cons p ps ih =>
    intro s s' r h
    unfold lookupCells at h
    by_cases hv : E.IsValid p = true
    · simp only [hv, Bool.not_true, Bool.false_eq_true, if_false] at h
      cases hl : s.live p with
      | none =>
        simp only [hl] at h
        cases hrest : lookupCells getValue ps s with
        | ok r1 s1 =>
          rw [hrest] at h
          simp only [Outcome.bind, Outcome.ok.injEq] at h
          exact h.2 ▸ ih s s1 r1 hrest
        | threw e s1 => rw [hrest] at h; simp [Outcome.bind] at h
        | undefined => rw [hrest] at h; simp [Outcome.bind] at h
        | timeout => rw [hrest] at h; simp [Outcome.bind] at h
      | some c =>
        simp only [hl] at h
        cases hg : getValue p s with
        | ok v s1 =>
          rw [hg] at h
          simp only [Outcome.bind] at h
          cases hrest : lookupCells getValue ps s1 with
          | ok r1 s2 =>
            rw [hrest] at h
            simp only [Outcome.ok.injEq] at h
            exact h.2 ▸ (hget p s s1 v hg).trans (ih s1 s2 r1 hrest)
          | threw e s2 => rw [hrest] at h; simp at h
          | undefined => rw [hrest] at h; simp at h
          | timeout => rw [hrest] at h; simp at h
        | threw e s1 => rw [hg] at h; simp [Outcome.bind] at h
        | undefined => rw [hg] at h; simp [Outcome.bind] at h
        | timeout => rw [hg] at h; simp [Outcome.bind] at h
    · have hv : E.IsValid p = false := by simpa using hv
      simp only [hv, Bool.not_false, if_true] at h
      cases hrest : lookupCells getValue ps s with
      | ok r1 s1 =>
        rw [hrest] at h
        simp only [Outcome.bind, Outcome.ok.injEq] at h
        exact h.2 ▸ ih s s1 r1 hrest
      | threw e s1 => rw [hrest] at h; simp [Outcome.bind] at h
      | undefined => rw [hrest] at h; simp [Outcome.bind] at h
      | timeout => rw [hrest] at h; simp [Outcome.bind] at h

theorem EvaluateOn_ok
    {getValue : Position → Sheet E → Outcome (Sheet E) (Value E.Num E.FErr × List Position)}
    {this : Position} {h : E.Handle} {s s' : Sheet E} {r : FValue E.Num E.FErr × List Position}
    (he : EvaluateOn getValue this h s = .ok r s') :
    ∃ t, lookupCells getValue (E.GetReferencedCells h) s = .ok t s' ∧
      r = (E.Evaluate h (tableLookup t.1), this :: t.2) := by
  unfold EvaluateOn at he
  cases hl : lookupCells getValue (E.GetReferencedCells h) s with
  | ok t s1 =>
    rw [hl] at he
    simp only [Outcome.bind, Outcome.ok.injEq] at he
    exact ⟨t, by rw [he.2], he.1.symm⟩
  | threw e s1 => rw [hl] at he; simp [Outcome.bind] at he
  | undefined => rw [hl] at he; simp [Outcome.bind] at he
  | timeout => rw [hl] at he; simp [Outcome.bind] at he

/-- The shape of a successful `GetValue` on a formula cell: an optional first evaluation that
fills the cache, then the evaluation whose result is returned. -/
theorem GetValue_formula_ok {fuel : Nat} {this : Position} {s s' : Sheet E} {c : Cell E}
    {h : E.Handle} {t : String} {cache : Option (FValue E.Num E.FErr)}
    {r : Value E.Num E.FErr × List Position}
    (hc : s.live this = some c) (hi : c.impl_ = .FormulaImpl h t cache)
    (hg : Cell.GetValue (fuel + 1) this s = .ok r s') :
    ∃ (s1 : Sheet E) (log1 : List Position) (r2 : FValue E.Num E.FErr × List Position),
      ((cache.isSome ∧ s1 = s ∧ log1 = []) ∨
        (cache = none ∧ ∃ r1 s0, EvaluateOn (Cell.GetValue fuel) this h s = .ok r1 s0 ∧
          s1 = setCache s0 this r1.1 ∧ log1 = r1.2)) ∧
      EvaluateOn (Cell.GetValue fuel) this h s1 = .ok r2 s' ∧
      r = (r2.1.toValue, log1 ++ r2.2) := by
  unfold Cell.GetValue at hg
  simp only [hc, hi] at hg
  cases cache with
  | some v =>
    simp only [Outcome.bind] at hg
    cases he : EvaluateOn (Cell.GetValue fuel) this h s with
    | ok r2 s2 =>
      rw [he] at hg
      simp only [Outcome.ok.injEq] at hg
      exact ⟨s, [], r2, Or.inl ⟨rfl, rfl, rfl⟩, by rw [he, hg.2], hg.1.symm⟩
    | threw e s2 => rw [he] at hg; simp at hg
    | undefined => rw [he] at hg; simp at hg
    | timeout => rw [he] at hg; simp at hg
  | none =>
    simp only at hg
    cases he1 : EvaluateOn (Cell.GetValue fuel) this h s with
    | ok r1 s0 =>
      rw [he1] at hg
      simp only [Outcome.bind] at hg
      cases he : EvaluateOn (Cell.GetValue fuel) this h (setCache s0 this r1.1) with
      | ok r2 s2 =>
        rw [he] at hg
        simp only [Outcome.ok.injEq] at hg
        exact ⟨setCache s0 this r1.1, r1.2, r2, Or.inr ⟨rfl, r1, s0, rfl, rfl, rfl⟩,
          by rw [he, hg.2], hg.1.symm⟩
      | threw e s2 => rw [he] at hg; simp at hg
      | undefined => rw [he] at hg; simp at hg
      | timeout => rw [he] at hg; simp at hg
    | threw e s2 => rw [he1] at hg; simp [Outcome.bind] at hg
    | undefined => rw [he1] at hg; simp [Outcome.bind] at hg
    | timeout => rw [he1] at hg; simp [Outcome.bind] at hg

theorem GetValue_same : ∀ (fuel : Nat) (this : Position) (s s' : Sheet E)
    (r : Value E.Num E.FErr × List Position),
    Cell.GetValue fuel this s = .ok r s' → SameUpToCache s s' := by
  intro fuel
  induction fuel with
  | zero => intro this s s' r h; simp [Cell.GetValue] at h
  | succ fuel ih =>
    intro this s s' r hg
    cases hc : s.live this with
    | none => simp [Cell.GetValue, hc] at hg
    | some c =>
      cases hi : c.impl_ with
      | EmptyImpl =>
        simp only [Cell.GetValue, hc, hi, Outcome.ok.injEq] at hg
        exact hg.2 ▸ SameUpToCache.refl s
      | TextImpl t v =>
        simp only [Cell.GetValue, hc, hi, Outcome.ok.injEq] at hg
        exact hg.2 ▸ SameUpToCache.refl s
      | FormulaImpl h t cache =>
        obtain ⟨s1, log1, r2, hfirst, hsecond, -⟩ := GetValue_formula_ok hc hi hg
        have h1 : SameUpToCache s s1 := by
          rcases hfirst with ⟨-, h1, -⟩ | ⟨-, r1, s0, he, h1, -⟩
          · exact h1 ▸ SameUpToCache.refl s
          · obtain ⟨t1, hl, -⟩ := EvaluateOn_ok he
            exact h1 ▸ (lookupCells_same ih _ _ _ _ hl).trans (setCache_same s0 this r1.1)
        obtain ⟨t2, hl2, -⟩ := EvaluateOn_ok hsecond
        exact h1.trans (lookupCells_same ih _ _ _ _ hl2)

/-! ## `Cell::GetValue` returns the current value -/

theorem SameUpToCache.impl_eq {s s' : Sheet E} (h : SameUpToCache s s') (p : Position) :
    (s'.impl p).isSome = (s.impl p).isSome := by
  rw [Sheet.impl_isSome, Sheet.impl_isSome, h.live_isSome]

theorem readCells_same {s s' : Sheet E} (h : SameUpToCache s s')
    {val val' : Position → Option (Value E.Num E.FErr)} (hval : ∀ p, val' p = val p)
    (l : List Position) : readCells val' s' l = readCells val s l := by
  induction l with
  | nil => rfl
  | cons p ps ih =>
    unfold readCells
    rw [ih, hval p]
    have hs := h.impl_eq p
    cases h1 : s.impl p with
    | none =>
      rw [h1] at hs
      cases h2 : s'.impl p with
      | none => rfl
      | some i => rw [h2] at hs; simp at hs
    | some i =>
      rw [h1] at hs
      cases h2 : s'.impl p with
      | none => rw [h2] at hs; simp at hs
      | some i' => rfl

theorem currentValue_same {s s' : Sheet E} (h : SameUpToCache s s') :
    ∀ (fuel : Nat) (p : Position), currentValue fuel s' p = currentValue fuel s p := by
  intro fuel
  induction fuel with
  | zero => intro p; rfl
  | succ fuel ih =>
    intro p
    unfold currentValue
    have h4 := h.2.2.2 p
    cases h1 : s.impl p with
    | none =>
      rw [h1] at h4
      cases h2 : s'.impl p with
      | none => rfl
      | some i => rw [h2] at h4; simp at h4
    | some i =>
      rw [h1] at h4
      cases h2 : s'.impl p with
      | none => rw [h2] at h4; simp at h4
      | some i' =>
        rw [h2] at h4
        simp only [Option.map_some', Option.some.injEq] at h4
        cases i with
        | EmptyImpl =>
          cases i' with
          | EmptyImpl => rfl
          | TextImpl t v => simp [Impl.InvalidateCache] at h4
          | FormulaImpl f t c => simp [Impl.InvalidateCache] at h4
        | TextImpl t0 v0 =>
          cases i' with
          | EmptyImpl => simp [Impl.InvalidateCache] at h4
          | TextImpl t v =>
            simp only [Impl.InvalidateCache, Impl.TextImpl.injEq] at h4
            simp [h4.2]
          | FormulaImpl f t c => simp [Impl.InvalidateCache] at h4
        | FormulaImpl f0 t0 c0 =>
          cases i' with
          | EmptyImpl => simp [Impl.InvalidateCache] at h4
          | TextImpl t v => simp [Impl.InvalidateCache] at h4
          | FormulaImpl f t c =>
            simp only [Impl.InvalidateCache, Impl.FormulaImpl.injEq] at h4
            simp only
            rw [h4.1, readCells_same h ih]

theorem lookupCells_readCells
    {getValue : Position → Sheet E → Outcome (Sheet E) (Value E.Num E.FErr × List Position)}
    (val : Sheet E → Position → Option (Value E.Num E.FErr))
    (hsame : ∀ a a', SameUpToCache a a' → ∀ p, val a' p = val a p)
    (hget : ∀ p a a' r, getValue p a = .ok r a' → SameUpToCache a a' ∧ val a p = some r.1) :
    ∀ (l : List Position) (s s' : Sheet E) r, lookupCells getValue l s = .ok r s' →
      readCells (val s) s l = some r.1 := by
  intro l
  induction l with
  | nil =>
    intro s s' r h
    simp only [lookupCells, Outcome.ok.injEq] at h
    rw [← h.1]
    rfl
  | cons p ps ih =>
    intro s s' r h
    unfold lookupCells at h
    unfold readCells
    by_cases hv : E.IsValid p = true
    · simp only [hv, Bool.not_true, Bool.false_eq_true, if_false] at h ⊢
      cases hl : s.live p with
      | none =>
        simp only [hl] at h
        have hi : s.impl p = none := by simp [Sheet.impl, hl]
        rw [hi]
        cases hrest : lookupCells getValue ps s with
        | ok r1 s1 =>
          rw [hrest] at h
          simp only [Outcome.bind, Outcome.ok.injEq] at h
          rw [ih s s1 r1 hrest, ← h.1]
          rfl
        | threw e s1 => rw [hrest] at h; simp [Outcome.bind] at h
        | undefined => rw [hrest] at h; simp [Outcome.bind] at h
        | timeout => rw [hrest] at h; simp [Outcome.bind] at h
      | some c =>
        simp only [hl] at h
        have hi : s.impl p = some c.impl_ := Sheet.impl_of_live hl
        rw [hi]
        cases hg : getValue p s with
        | ok v s1 =>
          rw [hg] at h
          simp only [Outcome.bind] at h
          obtain ⟨hs1, hv1⟩ := hget p s s1 v hg
          cases hrest : lookupCells getValue ps s1 with
          | ok r1 s2 =>
            rw [hrest] at h
            simp only [Outcome.ok.injEq] at h
            have := ih s1 s2 r1 hrest
            rw [readCells_same hs1 (hsame s s1 hs1)] at this
            simp only [hv1, this]
            rw [← h.1]
          | threw e s2 => rw [hrest] at h; simp at h
          | undefined => rw [hrest] at h; simp at h
          | timeout => rw [hrest] at h; simp at h
        | threw e s1 => rw [hg] at h; simp [Outcome.bind] at h
        | undefined => rw [hg] at h; simp [Outcome.bind] at h
        | timeout => rw [hg] at h; simp [Outcome.bind] at h
    · have hv : E.IsValid p = false := by simpa using hv
      simp only [hv, Bool.not_false, if_true] at h ⊢
      cases hrest : lookupCells getValue ps s with
      | ok r1 s1 =>
        rw [hrest] at h
        simp only [Outcome.bind, Outcome.ok.injEq] at h
        rw [ih s s1 r1 hrest, ← h.1]
        rfl
      | threw e s1 => rw [hrest] at h; simp [Outcome.bind] at h
      | undefined => rw [hrest] at h; simp [Outcome.bind] at h
      | timeout => rw [hrest] at h; simp [Outcome.bind] at h

/-- The value a `GetValue` returns is the current value of the cell, whatever the caches
held. -/
theorem GetValue_currentValue : ∀ (fuel : Nat) (this : Position) (s s' : Sheet E)
    (r : Value E.Num E.FErr × List Position),
    Cell.GetValue fuel this s = .ok r s' → currentValue fuel s this = some r.1 := by
  intro fuel
  induction fuel with
  | zero => intro this s s' r h; simp [Cell.GetValue] at h
  | succ fuel ih =>
    intro this s s' r hg
    cases hc : s.live this with
    | none => simp [Cell.GetValue, hc] at hg
    | some c =>
      have himpl := Sheet.impl_of_live hc
      cases hi : c.impl_ with
      | EmptyImpl =>
        simp only [Cell.GetValue, hc, hi, Outcome.ok.injEq] at hg
        simp [currentValue, himpl, hi, ← hg.1]
      | TextImpl t v =>
        simp only [Cell.GetValue, hc, hi, Outcome.ok.injEq] at hg
        simp [currentValue, himpl, hi, ← hg.1]
      | FormulaImpl h t cache =>
        obtain ⟨s1, log1, r2, hfirst, hsecond, hr⟩ := GetValue_formula_ok hc hi hg
        have h1 : SameUpToCache s s1 := by
          rcases hfirst with ⟨-, h1, -⟩ | ⟨-, r1, s0, he, h1, -⟩
          · exact h1 ▸ SameUpToCache.refl s
          · obtain ⟨t1, hl, -⟩ := EvaluateOn_ok he
            exact h1 ▸ (lookupCells_same (GetValue_same fuel) _ _ _ _ hl).trans
              (setCache_same s0 this r1.1)
        obtain ⟨t2, hl2, hr2⟩ := EvaluateOn_ok hsecond
        have hread := lookupCells_readCells (currentValue fuel)
          (fun a a' haa p => currentValue_same haa fuel p)
          (fun p a a' r hga => ⟨GetValue_same fuel p a a' r hga, ih p a a' r hga⟩)
          _ _ _ _ hl2
        rw [readCells_same h1 (currentValue_same h1 fuel)] at hread
        simp only [currentValue, himpl, hi, hread, Option.map_some', hr, hr2]

/-! ## On a sheet built by `SetCell` every read has a result -/

theorem lookupCells_total
    (getValue : Position → Sheet E → Outcome (Sheet E) (Value E.Num E.FErr × List Position))
    (P : Sheet E → Prop) (l : List Position)
    (hget : ∀ p ∈ l, ∀ a, P a → (a.live p).isSome → ∃ r a', getValue p a = .ok r a' ∧ P a')
    {s : Sheet E} (hs : P s) : ∃ r s', lookupCells getValue l s = .ok r s' ∧ P s' := by
  induction l generalizing s with
  | nil => exact ⟨_, s, rfl, hs⟩
  | cons p ps ih =>
    have ih' := fun (a : Sheet E) (ha : P a) =>
      ih (fun q hq => hget q (List.mem_cons_of_mem _ hq)) (s := a) ha
    unfold lookupCells
    by_cases hv : E.IsValid p = true
    · simp only [hv, Bool.not_true, Bool.false_eq_true, if_false]
      cases hl : s.live p with
      | none =>
        obtain ⟨r1, s1, h1, p1⟩ := ih' s hs
        simp only [h1, Outcome.bind]
        exact ⟨_, _, rfl, p1⟩
      | some c =>
        obtain ⟨v, s1, hg, p1⟩ := hget p (List.mem_cons_self _ _) s hs (by simp [hl])
        obtain ⟨r1, s2, h1, p2⟩ := ih' s1 p1
        simp only [hg, h1, Outcome.bind]
        exact ⟨_, _, rfl, p2⟩
    · have hv : E.IsValid p = false := by simpa using hv
      simp only [hv, Bool.not_false, if_true]
      obtain ⟨r1, s1, h1, p1⟩ := ih' s hs
      simp only [h1, Outcome.bind]
      exact ⟨_, _, rfl, p1⟩

theorem SameUpToCache.formula {s s' : Sheet E} (hs : SameUpToCache s s') {p : Position}
    {h : E.Handle} {t : String} {cache : Option (FValue E.Num E.FErr)}
    (hi : s'.impl p = some (.FormulaImpl h t cache)) :
    ∃ c0, s.impl p = some (.FormulaImpl h t c0) := by
  have h4 := hs.2.2.2 p
  rw [hi] at h4
  cases h1 : s.impl p with
  | none => rw [h1] at h4; simp at h4
  | some i =>
    rw [h1] at h4
    simp only [Option.map_some', Option.some.injEq] at h4
    cases i with
    | EmptyImpl => simp [Impl.InvalidateCache] at h4
    | TextImpl t v => simp [Impl.InvalidateCache] at h4
    | FormulaImpl f t0 c =>
      simp only [Impl.InvalidateCache, Impl.FormulaImpl.injEq] at h4
      exact ⟨c, by rw [h4.1, h4.2.1]⟩

/-- On a sheet without cycles the recursion of `GetValue` ends within the fuel. -/
theorem GetValue_total {s0 : Sheet E} (hacyc : Acyclic s0)
    (hcontent : ∀ p i, s0.impl p = some i → ∀ q, q ∈ s0.refs p ↔ q ∈ i.GetReferencedCells) :
    ∀ (fuel : Nat) (path : List Position) (this : Position) (s : Sheet E),
      SameUpToCache s0 s → path.Nodup → (∀ x ∈ path, x ∈ s0.keys) →
      (∀ x ∈ path, Relation.TransGen (RefEdge s0) x this) → (s0.live this).isSome →
      s0.keys.length ≤ fuel + path.length →
      ∃ r s', Cell.GetValue fuel this s = .ok r s' ∧ SameUpToCache s0 s' := by
  intro fuel
  induction fuel with
  | zero =>
    intro path this s _ hnd hsub hreach hthis hlen
    exfalso
    have hnot : this ∉ path := fun hin => hacyc this (hreach this hin)
    have := depth_bound hnd hsub (Sheet.mem_keys_of_live hthis) hnot
    omega
  | succ fuel ih =>
    intro path this s hsame hnd hsub hreach hthis hlen
    have hnot : this ∉ path := fun hin => hacyc this (hreach this hin)
    cases hc : s.live this with
    | none => rw [← hsame.live_isSome, hc] at hthis; simp at hthis
    | some c =>
      cases hi : c.impl_ with
      | EmptyImpl => exact ⟨(.str "", []), s, by simp [Cell.GetValue, hc, hi], hsame⟩
      | TextImpl t v => exact ⟨(.str v, []), s, by simp [Cell.GetValue, hc, hi], hsame⟩
      | FormulaImpl h t cache =>
        have himpl : s.impl this = some (.FormulaImpl h t cache) := by
          rw [Sheet.impl_of_live hc, hi]
        obtain ⟨c0, h0⟩ := hsame.formula himpl
        have hedge : ∀ p ∈ E.GetReferencedCells h, RefEdge s0 this p := by
          intro p hp
          exact (hcontent this _ h0 p).2 hp
        have heval : ∀ a, SameUpToCache s0 a →
            ∃ r a', EvaluateOn (Cell.GetValue fuel) this h a = .ok r a' ∧
              SameUpToCache s0 a' := by
          intro a ha
          obtain ⟨r, a', hl, hp⟩ := lookupCells_total (Cell.GetValue fuel)
            (fun b => SameUpToCache s0 b) (E.GetReferencedCells h)
            (by
              intro p hp b hb hlive
              apply ih (this :: path) p b hb
              · exact List.nodup_cons.2 ⟨hnot, hnd⟩
              · intro x hx
                rcases List.mem_cons.1 hx with hx | hx
                · exact hx ▸ Sheet.mem_keys_of_live hthis
                · exact hsub x hx
              · intro x hx
                rcases List.mem_cons.1 hx with hx | hx
                · exact hx ▸ Relation.TransGen.single (hedge p hp)
                · exact Relation.TransGen.tail (hreach x hx) (hedge p hp)
              · rw [hb.live_isSome] at hlive; exact hlive
              · simp only [List.length_cons]; omega)
            ha
          exact ⟨(E.Evaluate h (tableLookup r.1), this :: r.2), a',
            by simp [EvaluateOn, hl, Outcome.bind], hp⟩
        unfold Cell.GetValue
        simp only [hc, hi]
        cases cache with
        | some v =>
          obtain ⟨r2, s2, he2, hp2⟩ := heval s hsame
          simp only [Outcome.bind, he2]
          exact ⟨_, _, rfl, hp2⟩
        | none =>
          obtain ⟨r1, sa, he1, hp1⟩ := heval s hsame
          obtain ⟨r2, s2, he2, hp2⟩ := heval (setCache sa this r1.1)
            (hp1.trans (setCache_same sa this r1.1))
          simp only [Outcome.bind, he1, he2]
          exact ⟨_, _, rfl, hp2⟩

theorem lookupCells_not_threw
    {getValue : Position → Sheet E → Outcome (Sheet E) (Value E.Num E.FErr × List Position)}
    (hget : ∀ p a e a', getValue p a ≠ .threw e a') :
    ∀ (l : List Position) (s : Sheet E) e s', lookupCells getValue l s ≠ .threw e s' := by
  intro l
  induction l with
  | nil => intro s e s' h; simp [lookupCells] at h
  | cons p ps ih =>
    intro s e s' h
    unfold lookupCells at h
    split at h
    · cases hrest : lookupCells getValue ps s with
      | ok r1 s1 => rw [hrest] at h; simp [Outcome.bind] at h
      | threw e1 s1 => exact ih _ _ _ hrest
      | undefined => rw [hrest] at h; simp [Outcome.bind] at h
      | timeout => rw [hrest] at h; simp [Outcome.bind] at h
    · split at h
      · cases hrest : lookupCells getValue ps s with
        | ok r1 s1 => rw [hrest] at h; simp [Outcome.bind] at h
        | threw e1 s1 => exact ih _ _ _ hrest
        | undefined => rw [hrest] at h; simp [Outcome.bind] at h
        | timeout => rw [hrest] at h; simp [Outcome.bind] at h
      · cases hg : getValue p s with
        | ok v s1 =>
          rw [hg] at h
          simp only [Outcome.bind] at h
          cases hrest : lookupCells getValue ps s1 with
          | ok r1 s2 => rw [hrest] at h; simp at h
          | threw e1 s2 => exact ih _ _ _ hrest
          | undefined => rw [hrest] at h; simp at h
          | timeout => rw [hrest] at h; simp at h
        | threw e1 s1 => exact hget _ _ _ _ hg
        | undefined => rw [hg] at h; simp [Outcome.bind] at h
        | timeout => rw [hg] at h; simp [Outcome.bind] at h

theorem EvaluateOn_not_threw
    {getValue : Position → Sheet E → Outcome (Sheet E) (Value E.Num E.FErr × List Position)}
    (hget : ∀ p a e a', getValue p a ≠ .threw e a') (this : Position) (h : E.Handle)
    (s : Sheet E) (e : Exc) (s' : Sheet E) : EvaluateOn getValue this h s ≠ .threw e s' := by
  intro he
  unfold EvaluateOn at he
  cases hl : lookupCells getValue (E.GetReferencedCells h) s with
  | ok t s1 => rw [hl] at he; simp [Outcome.bind] at he
  | threw e1 s1 => exact lookupCells_not_threw hget _ _ _ _ hl
  | undefined => rw [hl] at he; simp [Outcome.bind] at he
  | timeout => rw [hl] at he; simp [Outcome.bind] at he

theorem GetValue_not_threw : ∀ (fuel : Nat) (this : Position) (s : Sheet E) (e : Exc)
    (s' : Sheet E), Cell.GetValue fuel this s ≠ .threw e s' := by
  intro fuel
  induction fuel with
  | zero => intro this s e s' h; simp [Cell.GetValue] at h
  | succ fuel ih =>
    intro this s e s' hg
    unfold Cell.GetValue at hg
    split at hg
    · simp at hg
    · split at hg
      · simp at hg
      · simp at hg
      · rename_i h t cache hi
        cases cache with
        | some v =>
          simp only [Outcome.bind] at hg
          cases he : EvaluateOn (Cell.GetValue fuel) this h s with
          | ok r2 s2 => rw [he] at hg; simp at hg
          | threw e1 s2 => exact EvaluateOn_not_threw ih _ _ _ _ _ he
          | undefined => rw [he] at hg; simp at hg
          | timeout => rw [he] at hg; simp at hg
        | none =>
          simp only at hg
          cases he1 : EvaluateOn (Cell.GetValue fuel) this h s with
          | ok r1 s0 =>
            rw [he1] at hg
            simp only [Outcome.bind] at hg
            cases he : EvaluateOn (Cell.GetValue fuel) this h (setCache s0 this r1.1) with
            | ok r2 s2 => rw [he] at hg; simp at hg
            | threw e1 s2 => exact EvaluateOn_not_threw ih _ _ _ _ _ he
            | undefined => rw [he] at hg; simp at hg
            | timeout => rw [he] at hg; simp at hg
          | threw e1 s2 => exact EvaluateOn_not_threw ih _ _ _ _ _ he1
          | undefined => rw [he1] at hg; simp [Outcome.bind] at hg
          | timeout => rw [he1] at hg; simp [Outcome.bind] at hg

theorem GetValue_of_live {sh : Sheet E} {pos : Position} (hv : E.IsValid pos = true)
    (hl : (sh.live pos).isSome) :
    GetValue pos sh = Cell.GetValue (sh.keys.length + 1) pos sh := by
  cases hc : sh.live pos with
  | none => rw [hc] at hl; simp at hl
  | some c => simp [GetValue, GetCell, GetPtr_live hv hc, Outcome.bind]

theorem Good.getValue {sh s' : Sheet E} (g : Good sh) {pos : Position}
    (h : (GetValue pos sh).state? = some s') : Good s' := by
  by_cases hv : E.IsValid pos = true
  · cases hc : sh.live pos with
    | none =>
      simp [GetValue, GetCell, GetPtr_dead hv hc, Outcome.bind, Outcome.state?] at h
    | some c =>
      rw [GetValue_of_live hv (by simp [hc])] at h
      cases hg : Cell.GetValue (sh.keys.length + 1) pos sh with
      | ok r s1 =>
        rw [hg] at h
        simp only [Outcome.state?, Option.some.injEq] at h
        exact h ▸ g.same (GetValue_same _ _ _ _ _ hg)
      | threw e s1 => exact absurd hg (GetValue_not_threw _ _ _ _ _)
      | undefined => rw [hg] at h; simp [Outcome.state?] at h
      | timeout => rw [hg] at h; simp [Outcome.state?] at h
  · have hv : E.IsValid pos = false := by simpa using hv
    simp only [GetValue, GetCell, GetPtr_invalid hv, Outcome.bind, Outcome.state?,
      Option.some.injEq] at h
    exact h ▸ g

theorem run_good {ops : List Op} (hops : ∀ op ∈ ops, op.isSetOrValue = true) {s0 sh : Sheet E}
    (g : Good s0) (hrun : run ops s0 = some sh) : Good sh := by
  induction ops generalizing s0 with
  | nil =>
    simp only [run, Option.some.injEq] at hrun
    exact hrun ▸ g
  | cons op ops ih =>
    simp only [run] at hrun
    cases ha : op.apply s0 with
    | none => rw [ha] at hrun; simp at hrun
    | some s1 =>
      rw [ha] at hrun
      simp only [Option.some_bind] at hrun
      have hop := hops op (List.mem_cons_self _ _)
      have g1 : Good s1 := by
        cases op with
        | set pos text => exact g.afterSet ha
        | clear pos => simp [Op.isSetOrValue] at hop
        | value pos => exact g.getValue ha
      exact ih (fun o ho => hops o (List.mem_cons_of_mem _ ho)) g1 hrun

/-- On a sheet built by `SetCell` and `GetValue` a read of a cell returns the current value of
the cell. -/
theorem GetValue_good {sh : Sheet E} (g : Good sh) {pos : Position}
    (hl : (sh.live pos).isSome) :
    ∃ r s', GetValue pos sh = .ok r s' ∧
      currentValue (sh.keys.length + 1) sh pos = some r.1 := by
  have hv := g.valid pos (Sheet.mem_keys_of_live hl)
  rw [GetValue_of_live hv hl]
  obtain ⟨r, s', hg, -⟩ := GetValue_total g.acyclic g.content (sh.keys.length + 1) [] pos sh
    (SameUpToCache.refl sh) List.nodup_nil (by simp) (by simp) hl (by simp)
  exact ⟨r, s', hg, GetValue_currentValue _ _ _ _ _ hg⟩

/-! ## The classification of the text in `Cell::Set` -/

theorem string_eq_empty_iff (raw : String) : raw = "" ↔ raw.data = [] := by
  constructor
  · intro h; rw [h]
  · intro h
    cases raw with
    | mk d => simp only at h; subst h; rfl

theorem buildImpl_cases (raw : String) :
    (raw = "" ∧ buildImpl (E := E) raw = some .EmptyImpl) ∨
    (raw ≠ "" ∧ (raw.data.length > 1 ∧ raw.data.head? = some FORMULA_SIGN) ∧
      buildImpl (E := E) raw = mkFormulaImpl raw) ∨
    (raw ≠ "" ∧ ¬ (raw.data.length > 1 ∧ raw.data.head? = some FORMULA_SIGN) ∧
      buildImpl (E := E) raw = some (mkTextImpl raw)) := by
  by_cases h0 : raw = ""
  · left
    subst h0
    exact ⟨rfl, buildImpl_empty⟩
  · right
    have hne : raw.data.isEmpty = false := by
      cases hd : raw.data with
      | nil => exact absurd ((string_eq_empty_iff raw).2 hd) h0
      | cons a l => rfl
    by_cases hf : raw.data.length > 1 ∧ raw.data.head? = some FORMULA_SIGN
    · left
      refine ⟨h0, hf, ?_⟩
      unfold buildImpl
      rw [hne]
      simp only [Bool.false_eq_true, if_false]
      rw [if_pos hf]
    · right
      refine ⟨h0, hf, ?_⟩
      unfold buildImpl
      rw [hne]
      simp only [Bool.false_eq_true, if_false]
      rw [if_neg hf]

theorem mkFormulaImpl_some {raw : String} {i : Impl E} (h : mkFormulaImpl raw = some i) :
    ∃ f, E.ParseFormula (String.mk (raw.data.drop 1)) = some f ∧
      i = .FormulaImpl f (String.mk (FORMULA_SIGN :: (E.GetExpression f).data)) none := by
  unfold mkFormulaImpl at h
  cases hp : E.ParseFormula (String.mk (raw.data.drop 1)) with
  | none => rw [hp] at h; simp at h
  | some f =>
    rw [hp] at h
    simp only [Option.some.injEq] at h
    exact ⟨f, rfl, h.symm⟩

/-- The implementation object built from a text has an empty cache. -/
theorem buildImpl_fresh {raw : String} {i : Impl E} (h : buildImpl raw = some i) :
    i.InvalidateCache = i := by
  rcases buildImpl_cases (E := E) raw with ⟨-, h1⟩ | ⟨-, -, h1⟩ | ⟨-, -, h1⟩
  · rw [h1] at h; cases h; rfl
  · rw [h1] at h
    obtain ⟨f, -, hi⟩ := mkFormulaImpl_some h
    rw [hi]; rfl
  · rw [h1] at h; cases h; rfl

/-- Two implementation objects that agree up to the cache are of the same class, with the same
text and, for a formula, the same formula object. -/
theorem Impl.eq_up_to_cache {i j : Impl E} (h : j.InvalidateCache = i.InvalidateCache) :
    (i = .EmptyImpl ∧ j = .EmptyImpl) ∨ (∃ t v, i = .TextImpl t v ∧ j = .TextImpl t v) ∨
      (∃ f t c c', i = .FormulaImpl f t c ∧ j = .FormulaImpl f t c') := by
  cases i with
  | EmptyImpl =>
    cases j with
    | EmptyImpl => exact Or.inl ⟨rfl, rfl⟩
    | TextImpl t v => simp [Impl.InvalidateCache] at h
    | FormulaImpl f t c => simp [Impl.InvalidateCache] at h
  | TextImpl t0 v0 =>
    cases j with
    | EmptyImpl => simp [Impl.InvalidateCache] at h
    | TextImpl t v =>
      simp only [Impl.InvalidateCache, Impl.TextImpl.injEq] at h
      exact Or.inr (Or.inl ⟨t0, v0, rfl, by rw [h.1, h.2]⟩)
    | FormulaImpl f t c => simp [Impl.InvalidateCache] at h
  | FormulaImpl f0 t0 c0 =>
    cases j with
    | EmptyImpl => simp [Impl.InvalidateCache] at h
    | TextImpl t v => simp [Impl.InvalidateCache] at h
    | FormulaImpl f t c =>
      simp only [Impl.InvalidateCache, Impl.FormulaImpl.injEq] at h
      exact Or.inr (Or.inr ⟨f0, t0, c0, c, rfl, by rw [h.1, h.2.1]⟩)

/-- After a `SetCell` that returns, the cell at the position holds the implementation object
built from the text, up to its cache. -/
theorem SetCell_impl {pos : Position} {text : String} {sh s' : Sheet E}
    (h : SetCell pos text sh = .ok () s') :
    ∃ impl j : Impl E, buildImpl text = some impl ∧ s'.impl pos = some j ∧
      j.InvalidateCache = impl.InvalidateCache := by
  obtain ⟨-, c, impl, s4, hl, hb, -, hi, hinv⟩ := SetCell_ok h
  obtain ⟨-, -, -, -, i5, -, -⟩ := install_ok hl hi
  have h4 := (InvalidateAllCache_ok hinv).2.2.2 pos
  rw [i5 pos] at h4
  simp only [if_true, Option.map_some'] at h4
  cases hj : s'.impl pos with
  | none => rw [hj] at h4; simp at h4
  | some j =>
    rw [hj] at h4
    simp only [Option.map_some', Option.some.injEq] at h4
    exact ⟨impl, j, hb, rfl, h4⟩

theorem Sheet.live_of_impl {sh : Sheet E} {p : Position} {i : Impl E} (h : sh.impl p = some i) :
    ∃ c, sh.live p = some c ∧ c.impl_ = i := by
  unfold Sheet.impl at h
  cases hl : sh.live p with
  | none => rw [hl] at h; simp at h
  | some c =>
    rw [hl] at h
    simp only [Option.map_some', Option.some.injEq] at h
    exact ⟨c, rfl, h⟩

theorem GetValue_text {sh : Sheet E} {pos : Position} {t v : String}
    (hv : E.IsValid pos = true) (h : sh.impl pos = some (.TextImpl t v)) :
    GetValue pos sh = .ok (.str v, []) sh := by
  obtain ⟨c, hl, hi⟩ := Sheet.live_of_impl h
  rw [GetValue_of_live hv (by simp [hl])]
  simp [Cell.GetValue, hl, hi]

/-- A `SetCell` whose text is not a formula returns on every sheet built by `SetCell`. -/
theorem SetCell_plain_total {sh : Sheet E} (g : Good sh) {pos : Position}
    (hv : E.IsValid pos = true) {text : String} {impl : Impl E}
    (hb : buildImpl text = some impl) (hr : impl.GetReferencedCells = []) :
    ∃ s', SetCell pos text sh = .ok () s' := by
  obtain ⟨s', htot⟩ := SetCell_total g pos text
  cases hset : SetCell pos text sh with
  | ok u s1 => exact ⟨s1, rfl⟩
  | threw e s1 =>
    exfalso
    rcases SetCell_threw hset with ⟨-, h1, -⟩ | ⟨-, -, -, h1⟩
    · rw [hv] at h1; exact Bool.noConfusion h1
    · rcases h1 with ⟨-, h1⟩ | ⟨impl', hb', hchk⟩
      · rw [hb] at h1; cases h1
      · rw [hb] at hb'
        cases hb'
        rw [HasCircularDependency_nil _ _ _ hr] at hchk
        cases hchk
  | undefined => rw [hset] at htot; simp [Outcome.state?] at htot
  | timeout => rw [hset] at htot; simp [Outcome.state?] at htot

/-- The exact sheet after writing a text that is not a formula to a position without a
cell. -/
theorem SetCell_plain_new (sh : Sheet E) (pos : Position) (hv : E.IsValid pos = true)
    (hk : pos ∉ sh.keys) (text : String) (impl : Impl E) (hb : buildImpl text = some impl)
    (hr : impl.GetReferencedCells = []) (hc : impl.HasCache = true)
    (hi : impl.InvalidateCache = impl) :
    SetCell pos text sh = .ok () ((sh.create pos).put pos (some ⟨impl, [], []⟩)) := by
  have hl : (sh.create pos).live pos = some ⟨.EmptyImpl, [], []⟩ := by
    rw [Sheet.live_create sh pos pos hk]; simp
  have hs : (sh.create pos).slot pos = some ⟨.EmptyImpl, [], []⟩ := by
    simp [Sheet.create]
  have hkc : pos ∈ (sh.create pos).keys := by simp [Sheet.keys_create]
  have hput : ∀ c : Cell E, ((sh.create pos).put pos (some c)).live pos = some c := by
    intro c
    rw [Sheet.live_put]; simp [hkc]
  have hputput : ∀ c d : Cell E,
      ((sh.create pos).put pos (some c)).put pos (some d) = (sh.create pos).put pos (some d) := by
    intro c d
    simp [Sheet.put]
  simp only [SetCell, SetCellAux, Sheet.ensure, hv, hk, Bool.not_true, Bool.false_eq_true,
    if_false, hs, Cell.Set, hb]
  rw [HasCircularDependency_nil _ _ _ hr]
  simp only [Cell.install, hl, forEach, Outcome.bind, hput, hputput, RefCellsProcessing, hr,
    InvalidateAllCache, hc, if_true, hi]

theorem GetPrintableSize_single (sh : Sheet E) (pos : Position) (hk : sh.keys = [pos]) :
    GetPrintableSize sh =
      match sh.slot pos with
      | some _ => ⟨max 0 (pos.row + 1), max 0 (pos.col + 1)⟩
      | none => ⟨0, 0⟩ := by
  unfold GetPrintableSize
  rw [hk]
  simp only [List.foldl_cons, List.foldl_nil]

/-! ## `Cell::InvalidateAllCache` clears every formula cache at most once -/

theorem forEachLog_forget {σ α β : Type} (body : α → σ → Outcome σ (List β))
    (body' : α → σ → Outcome σ Unit) (h : ∀ x s, (body x s).forget = body' x s) :
    ∀ (xs : List α) (s : σ), (forEachLog body xs s).forget = forEach body' xs s := by
  intro xs
  induction xs with
  | nil => intro s; rfl
  | cons x xs ih =>
    intro s
    simp only [forEachLog, forEach]
    rw [← h x s]
    cases hb : body x s with
    | ok l s1 =>
      simp only [Outcome.bind, Outcome.forget]
      rw [← ih s1]
      cases forEachLog body xs s1 <;> rfl
    | threw e s1 => rfl
    | undefined => rfl
    | timeout => rfl

theorem InvalidateAllCacheLog_forget : ∀ (fuel : Nat) (this : Position) (s : Sheet E),
    (InvalidateAllCacheLog fuel this s).forget = InvalidateAllCache fuel this s := by
  intro fuel
  induction fuel with
  | zero => intro this s; rfl
  | succ fuel ih =>
    intro this s
    unfold InvalidateAllCacheLog InvalidateAllCache
    cases hc : s.live this with
    | none => rfl
    | some c =>
      simp only
      by_cases hh : c.impl_.HasCache = true
      · simp only [hh, if_true]
        rw [← forEachLog_forget (InvalidateAllCacheLog fuel) (InvalidateAllCache fuel) ih]
        cases forEachLog (InvalidateAllCacheLog fuel) c.dep_cells_
          (s.put this (some { c with impl_ := c.impl_.InvalidateCache })) <;> rfl
      · simp only [hh, Bool.false_eq_true, if_false]
        rfl

theorem Outcome.forget_ok {σ α : Type} {o : Outcome σ α} {s' : σ}
    (h : o.forget = .ok () s') : ∃ a, o = .ok a s' := by
  cases o with
  | ok a s => simp only [Outcome.forget, Outcome.ok.injEq, true_and] at h; exact ⟨a, by rw [h]⟩
  | threw e s => simp [Outcome.forget] at h
  | undefined => simp [Outcome.forget] at h
  | timeout => simp [Outcome.forget] at h

theorem Invalidated.nil (s : Sheet E) : Invalidated s [] s :=
  ⟨fun p h => ⟨by simp, h⟩, fun p hp => by simp at hp, fun p _ => by simp, fun _ => Iff.rfl⟩

theorem Invalidated.append {s s1 s2 : Sheet E} {log1 log2 : List Position}
    (h1 : Invalidated s log1 s1) (h2 : Invalidated s1 log2 s2) :
    Invalidated s (log1 ++ log2) s2 := by
  refine ⟨?_, ?_, ?_, ?_⟩
  · intro p hp
    obtain ⟨a1, a2⟩ := h1.skipped p hp
    obtain ⟨b1, b2⟩ := h2.skipped p a2
    exact ⟨by simp [a1, b1], b2⟩
  · intro p hp hf
    rcases List.mem_append.1 hp with hp | hp
    · exact (h2.skipped p (h1.cleared p hp hf)).2
    · exact h2.cleared p hp ((h1.kept p).2 hf)
  · intro p hf
    rw [List.count_append]
    by_cases hp : p ∈ log1
    · have := (h2.skipped p (h1.cleared p hp hf)).1
      rw [List.count_eq_zero_of_not_mem this]
      exact h1.once p hf
    · rw [List.count_eq_zero_of_not_mem hp]
      simpa using h2.once p ((h1.kept p).2 hf)
  · intro p
    rw [h2.kept p, h1.kept p]

theorem forEachLog_invalidated {body : Position → Sheet E → Outcome (Sheet E) (List Position)}
    (hbody : ∀ x s log s', body x s = .ok log s' → Invalidated s log s') :
    ∀ (xs : List Position) (s : Sheet E) log s', forEachLog body xs s = .ok log s' →
      Invalidated s log s' := by
  intro xs
  induction xs with
  | nil =>
    intro s log s' h
    simp only [forEachLog, Outcome.ok.injEq] at h
    rw [← h.1, ← h.2]
    exact Invalidated.nil s
  | cons x xs ih =>
    intro s log s' h
    simp only [forEachLog] at h
    cases hb : body x s with
    | ok l1 s1 =>
      rw [hb] at h
      simp only [Outcome.bind] at h
      cases hr : forEachLog body xs s1 with
      | ok l2 s2 =>
        rw [hr] at h
        simp only [Outcome.ok.injEq] at h
        rw [← h.1, ← h.2]
        exact (hbody x s l1 s1 hb).append (ih s1 l2 s2 hr)
      | threw e s2 => rw [hr] at h; simp at h
      | undefined => rw [hr] at h; simp at h
      | timeout => rw [hr] at h; simp at h
    | threw e s1 => rw [hb] at h; simp [Outcome.bind] at h
    | undefined => rw [hb] at h; simp [Outcome.bind] at h
    | timeout => rw [hb] at h; simp [Outcome.bind] at h

theorem InvalidateAllCacheLog_invalidated : ∀ (fuel : Nat) (this : Position) (s : Sheet E)
    (log : List Position) (s' : Sheet E),
    InvalidateAllCacheLog fuel this s = .ok log s' → Invalidated s log s' := by
  intro fuel
  induction fuel with
  | zero => intro this s log s' h; simp [InvalidateAllCacheLog] at h
  | succ fuel ih =>
    intro this s log s' h
    unfold InvalidateAllCacheLog at h
    cases hc : s.live this with
    | none => simp [hc] at h
    | some c =>
      simp only [hc] at h
      by_cases hh : c.impl_.HasCache = true
      · simp only [hh, if_true] at h
        cases hr : forEachLog (InvalidateAllCacheLog fuel) c.dep_cells_
            (s.put this (some { c with impl_ := c.impl_.InvalidateCache })) with
        | ok l2 s2 =>
          rw [hr] at h
          simp only [Outcome.bind, Outcome.ok.injEq] at h
          rw [← h.1, ← h.2]
          have hrest := forEachLog_invalidated ih _ _ _ _ hr
          have hi0 : ∀ q, (s.put this (some { c with
              impl_ := c.impl_.InvalidateCache })).impl q =
              if q = this then some c.impl_.InvalidateCache else s.impl q :=
            fun q => Sheet.impl_put hc _ q
          have hthis : s.impl this = some c.impl_ := Sheet.impl_of_live hc
          -- a formula cell stays a formula cell, and `this` has an empty cache afterwards
          have hform0 : ∀ q, (s.put this (some { c with
              impl_ := c.impl_.InvalidateCache })).isFormula q ↔ s.isFormula q := by
            intro q
            unfold Sheet.isFormula
            rw [hi0 q]
            by_cases hq : q = this
            · subst hq
              simp only [if_true, hthis, Option.some.injEq]
              cases c.impl_ <;> simp [Impl.InvalidateCache]
            · simp [hq]
          have hempty0 : ∀ q, s.emptyCache q → (s.put this (some { c with
              impl_ := c.impl_.InvalidateCache })).emptyCache q ∧ q ≠ this := by
            intro q hq
            obtain ⟨f, t, hq⟩ := hq
            have hne : q ≠ this := by
              intro h0
              subst h0
              rw [hthis] at hq
              simp only [Option.some.injEq] at hq
              rw [hq] at hh
              simp [Impl.HasCache] at hh
            exact ⟨⟨f, t, by rw [hi0 q]; simp [hne, hq]⟩, hne⟩
          have hthis0 : s.isFormula this → (s.put this (some { c with
              impl_ := c.impl_.InvalidateCache })).emptyCache this := by
            rintro ⟨f, t, c1, hf⟩
            rw [hthis] at hf
            simp only [Option.some.injEq] at hf
            exact ⟨f, t, by rw [hi0 this, hf]; simp [Impl.InvalidateCache]⟩
          refine ⟨?_, ?_, ?_, ?_⟩
          · intro p hp
            obtain ⟨a1, a2⟩ := hempty0 p hp
            obtain ⟨b1, b2⟩ := hrest.skipped p a1
            exact ⟨by simp [a2, b1], b2⟩
          · intro p hp hf
            rcases List.mem_cons.1 hp with hp | hp
            · subst hp
              exact (hrest.skipped p (hthis0 hf)).2
            · exact hrest.cleared p hp ((hform0 p).2 hf)
          · intro p hf
            by_cases hp : p = this
            · subst hp
              have := (hrest.skipped p (hthis0 hf)).1
              simp [List.count_cons, List.count_eq_zero_of_not_mem this]
            · have := hrest.once p ((hform0 p).2 hf)
              simpa [List.count_cons, Ne.symm hp] using this
          · intro p
            rw [hrest.kept p, hform0 p]
        | threw e s2 => rw [hr] at h; simp [Outcome.bind] at h
        | undefined => rw [hr] at h; simp [Outcome.bind] at h
        | timeout => rw [hr] at h; simp [Outcome.bind] at h
      · simp only [hh, Bool.false_eq_true, if_false, Outcome.ok.injEq] at h
        rw [← h.1, ← h.2]
        exact Invalidated.nil s

/-! ## What the worklist loop pops -/

theorem searchPopped_outcome (sh : Sheet E) (rc : List (Option Position)) :
    ∀ (fuel : Nat) (visited to_visit : List Position),
      (searchPopped sh rc fuel visited to_visit).2 = searchLoop sh rc fuel visited to_visit := by
  intro fuel
  induction fuel with
  | zero => intro v s; rfl
  | succ fuel ih =>
    intro v s
    cases s with
    | nil => rfl
    | cons cur rest =>
      simp only [searchPopped, searchLoop]
      by_cases hrc : some cur ∈ rc
      · simp [hrc]
      · simp only [hrc, if_false]
        cases hl : sh.live cur with
        | none => rfl
        | some c => exact ih _ _

/-- The loop pops only cells reached from the source, and all of them when it returns. -/
theorem searchPopped_spec (sh : Sheet E) (this : Position) (rc : List (Option Position)) :
    ∀ (fuel : Nat) (visited to_visit : List Position),
      LoopInv sh this rc visited to_visit → (∀ v ∈ visited, Reach sh this v) →
      (∀ x ∈ (searchPopped sh rc fuel visited to_visit).1, Reach sh this x) ∧
      ((searchPopped sh rc fuel visited to_visit).2 = .ok false () →
        ∀ x, Reach sh this x → x ∈ (searchPopped sh rc fuel visited to_visit).1) := by
  intro fuel
  induction fuel with
  | zero =>
    intro visited to_visit inv hvis
    exact ⟨hvis, fun h => by simp [searchPopped] at h⟩
  | succ fuel ih =>
    intro visited to_visit inv hvis
    cases to_visit with
    | nil =>
      refine ⟨hvis, fun _ x hx => ?_⟩
      simp only [searchPopped]
      induction hx with
      | refl => simpa using inv.source
      | tail _ hedge ih2 => simpa using inv.closed _ ih2 _ hedge
    | cons cur rest =>
      have hcur : Reach sh this cur := inv.reach cur (List.mem_cons_self _ _)
      have hvis' : ∀ v ∈ cur :: visited, Reach sh this v := by
        intro v hv
        rcases List.mem_cons.1 hv with h | h
        · exact h ▸ hcur
        · exact hvis v h
      simp only [searchPopped]
      by_cases hrc : some cur ∈ rc
      · simp only [hrc, if_true]
        exact ⟨hvis', fun h => by simp at h⟩
      · simp only [hrc, if_false]
        cases hl : sh.live cur with
        | none => exact ⟨hvis', fun h => by simp at h⟩
        | some c =>
          simp only
          rw [pushUnvisited_eq, ← Sheet.deps_of_live hl]
          exact ih _ _ (inv.step hrc) hvis'

theorem SameGraph.reach {sh sh' : Sheet E} (h : SameGraph sh sh') (a b : Position) :
    Reach sh' a b ↔ Reach sh a b := by
  have : DepEdge sh' = DepEdge sh := by
    funext x y
    simp [DepEdge, h.2 x y]
  unfold Reach
  rw [this]

theorem collectRefCells_congr {sh sh' : Sheet E} (h : SameGraph sh sh') :
    ∀ (l : List Position) (acc : List (Option Position)),
      collectRefCells sh' l acc = collectRefCells sh l acc := by
  intro l
  induction l with
  | nil => intro acc; rfl
  | cons p ps ih =>
    intro acc
    by_cases hv : E.IsValid p = true
    · have hlive := h.1 p
      cases hl : sh.live p with
      | none =>
        rw [hl] at hlive
        have hl' : sh'.live p = none := by
          cases h2 : sh'.live p with
          | none => rfl
          | some c => rw [h2] at hlive; simp at hlive
        simp only [collectRefCells, GetPtr_dead hv hl, GetPtr_dead hv hl']
        exact ih _
      | some c =>
        rw [hl] at hlive
        cases hl' : sh'.live p with
        | none => rw [hl'] at hlive; simp at hlive
        | some c' =>
          simp only [collectRefCells, GetPtr_live hv hl, GetPtr_live hv hl']
          exact ih _
    · have hv : E.IsValid p = false := by simpa using hv
      simp [collectRefCells, GetPtr_invalid hv]

/-- On a graph of cells the loop ends with a verdict: it returns `false` exactly when no cell
reached from the source is in the reference set, and throws otherwise. -/
theorem searchLoop_verdict (sh : Sheet E) (this : Position) (rc : List (Option Position))
    (hthis : (sh.live this).isSome) (hcl : ∀ p x, x ∈ sh.deps p → (sh.live x).isSome) :
    (searchLoop sh rc (searchFuel sh) [] [this] = .ok false () ∧
      ∀ x, Reach sh this x → some x ∉ rc) ∨
    (searchLoop sh rc (searchFuel sh) [] [this] = .threw .CircularDependencyException () ∧
      ∃ x, Reach sh this x ∧ some x ∈ rc) := by
  have inv : LoopInv sh this rc [] [this] :=
    ⟨fun x hx => by simp at hx; exact hx ▸ Relation.ReflTransGen.refl, by simp, by simp,
      by simp, Or.inr (List.mem_singleton_self _)⟩
  have hfuel : [this].length + searchWeight sh [] < searchFuel sh := by
    simp only [searchWeight, searchFuel, List.length_singleton, List.not_mem_nil,
      not_false_eq_true, decide_True, List.filter_true]
    omega
  have hloop := searchLoop_spec sh this rc (searchFuel sh) [] [this] inv hfuel
  have hreach : ∀ x, Reach sh this x → (sh.live x).isSome := by
    intro x hx
    induction hx with
    | refl => exact hthis
    | tail _ hedge _ => exact hcl _ _ hedge
  cases hr : searchLoop sh rc (searchFuel sh) [] [this] with
  | ok b u =>
    rw [hr] at hloop
    left
    exact ⟨by rw [hloop.1], hloop.2⟩
  | threw e u =>
    rw [hr] at hloop
    right
    exact ⟨by rw [hloop.1], hloop.2⟩
  | undefined =>
    rw [hr] at hloop
    obtain ⟨x, hx, hdead⟩ := hloop
    have := hreach x hx
    rw [hdead] at this
    simp at this
  | timeout => rw [hr] at hloop; exact hloop.elim

/-- The result of `HasCircularDependency` on a graph of cells does not depend on the order in
which the dependents are stored. -/
theorem HasCircularDependency_congr {sh sh' : Sheet E} (h : SameGraph sh sh') (this : Position)
    (hthis : (sh.live this).isSome) (hcl : ∀ p x, x ∈ sh.deps p → (sh.live x).isSome)
    (impl : Impl E) :
    HasCircularDependency sh' this impl = HasCircularDependency sh this impl := by
  unfold HasCircularDependency
  by_cases hnil : impl.GetReferencedCells.isEmpty = true
  · simp [hnil]
  · simp only [hnil, Bool.false_eq_true, if_false]
    rw [collectRefCells_congr h]
    cases hc : collectRefCells sh impl.GetReferencedCells [] with
    | ok rc u =>
      simp only
      have hthis' : (sh'.live this).isSome := by rw [h.1]; exact hthis
      have hcl' : ∀ p x, x ∈ sh'.deps p → (sh'.live x).isSome := by
        intro p x hx
        rw [h.1]
        exact hcl p x ((h.2 p x).1 hx)
      rcases searchLoop_verdict sh this rc hthis hcl with ⟨h1, h2⟩ | ⟨h1, x, hx, hxrc⟩
      · rcases searchLoop_verdict sh' this rc hthis' hcl' with ⟨h3, -⟩ | ⟨-, y, hy, hyrc⟩
        · rw [h1, h3]
        · exact absurd hyrc (h2 y ((h.reach this y).1 hy))
      · rcases searchLoop_verdict sh' this rc hthis' hcl' with ⟨-, h4⟩ | ⟨h3, -⟩
        · exact absurd hxrc (h4 x ((h.reach this x).2 hx))
        · rw [h1, h3]
    | threw e u => rfl
    | undefined => rfl
    | timeout => rfl

/-! ## The invariant of sheets built by `SetCell`, `ClearCell` and `GetValue` -/

theorem Linked.reach_of_path {sh : Sheet E} (g : Linked sh) {a b : Position}
    (hb : (sh.live b).isSome) (h : Relation.ReflTransGen (RefEdge sh) a b) : Reach sh b a := by
  induction h using Relation.ReflTransGen.head_induction_on with
  | refl => exact Relation.ReflTransGen.refl
  | @head x y hxy hyb ih =>
    have hx : (sh.live x).isSome := Sheet.live_of_mem_refs hxy
    have hy : (sh.live y).isSome := by
      rcases Relation.ReflTransGen.cases_head hyb with h0 | ⟨m, hym, -⟩
      · exact h0 ▸ hb
      · exact Sheet.live_of_mem_refs hym
    exact Relation.ReflTransGen.tail ih ((g.sym x y hx hy).1 hxy)

theorem Sound.of_good {sh : Sheet E} (g : Good sh) : Sound sh :=
  ⟨g.linked, g.acyclic, g.content⟩

theorem Sound.start : Sound (Sheet.empty (E := E)) := Sound.of_good Good.init

theorem Sound.ensured {sh : Sheet E} (g : Sound sh) (pos : Position) :
    Sound (sh.ensure pos) := by
  refine ⟨g.linked.ensure pos, ?_, ?_⟩
  · intro p hp
    apply g.acyclic p
    unfold DependsOn at hp ⊢
    rwa [RefEdge_ensure] at hp
  · intro p i hi q
    rw [Sheet.ensure_refs]
    rw [Sheet.ensure_impl] at hi
    by_cases h : p = pos ∧ pos ∉ sh.keys
    · simp only [h, not_false_eq_true, and_self, if_true, Option.some.injEq] at hi
      subst hi
      have : sh.refs p = [] := Sheet.refs_of_dead (Sheet.live_none_of_not_mem (h.1 ▸ h.2))
      simp [this, Impl.GetReferencedCells]
    · simp only [h, if_false] at hi
      exact g.content p i hi q

theorem Sound.unchanged {s s' : Sheet E} (g : Sound s) (h : SameUpToCache s s') : Sound s' := by
  refine ⟨g.linked.sameUpToCache h, ?_, ?_⟩
  · intro p hp
    apply g.acyclic p
    have : RefEdge s' = RefEdge s := by
      funext a b
      simp [RefEdge, h.2.1]
    unfold DependsOn at hp ⊢
    rwa [this] at hp
  · intro p i hi q
    rw [h.2.1]
    have h4 := h.2.2.2 p
    rw [hi] at h4
    cases hs : s.impl p with
    | none => rw [hs] at h4; simp at h4
    | some i0 =>
      rw [hs] at h4
      simp only [Option.map_some', Option.some.injEq] at h4
      rw [g.content p i0 hs q, ← Impl.GetReferencedCells_invalidate i0, ← h4,
        Impl.GetReferencedCells_invalidate]

theorem Sound.committed {s s' : Sheet E} (g : Sound s) {this : Position} {impl : Impl E}
    {c : Cell E} (hc : s.live this = some c)
    (hcheck : ∀ x, Reach s this x → x ∈ impl.GetReferencedCells → s.live x = none)
    (h : Cell.install (fun p s => SetCellAux 1 p "" s) this impl s = .ok () s') :
    Sound s' := by
  obtain ⟨i1, i2, i3, i4, i5, i6, i7⟩ := install_ok hc h
  have hthis : (s.live this).isSome := by simp [hc]
  refine ⟨g.linked.install hc h, ?_, ?_⟩
  · apply no_new_cycle (RefEdge s) this (fun r => r ∈ impl.GetReferencedCells)
    · intro a b ha hab
      simpa [RefEdge, i6 a b, ha] using hab
    · intro b hb
      simpa [RefEdge, i6 this b] using hb
    · exact g.acyclic
    · intro r hr hpath
      have hdead := hcheck r (g.linked.reach_of_path hthis hpath) hr
      rcases Relation.ReflTransGen.cases_head hpath with h0 | ⟨m, hrm, -⟩
      · rw [h0, hc] at hdead; simp at hdead
      · have := Sheet.live_of_mem_refs hrm
        rw [hdead] at this; simp at this
  · intro p i hi q
    rw [i6 p q]
    rw [i5 p] at hi
    by_cases hpt : p = this
    · simp only [hpt, if_true, Option.some.injEq] at hi ⊢
      rw [hi]
    · simp only [hpt, if_false] at hi ⊢
      by_cases hnew : p ∈ impl.GetReferencedCells ∧ p ∉ s.keys
      · simp only [hnew, not_false_eq_true, and_self, if_true, Option.some.injEq] at hi
        subst hi
        have : s.refs p = [] := Sheet.refs_of_dead (Sheet.live_none_of_not_mem hnew.2)
        simp [this, Impl.GetReferencedCells]
      · simp only [hnew, if_false] at hi
        exact g.content p i hi q

theorem Sound.nulled {sh : Sheet E} (g : Sound sh) (pos : Position) :
    Sound (sh.put pos none) := by
  have hlive : ∀ q, (sh.put pos none).live q = if q = pos then none else sh.live q := by
    intro q
    rw [Sheet.live_put]
    by_cases hq : q = pos <;> simp [hq]
  have hrefs : ∀ q, (sh.put pos none).refs q = if q = pos then [] else sh.refs q := by
    intro q
    simp only [Sheet.refs, hlive q]
    by_cases hq : q = pos <;> simp [hq]
  refine ⟨g.linked.clear pos, ?_, ?_⟩
  · intro p hp
    apply g.acyclic p
    unfold DependsOn at hp ⊢
    refine Relation.TransGen.mono ?_ hp
    intro a b hab
    simp only [RefEdge, hrefs a] at hab
    by_cases ha : a = pos
    · simp [ha] at hab
    · simpa [RefEdge, ha] using hab
  · intro p i hi q
    simp only [Sheet.impl, hlive p] at hi
    rw [hrefs p]
    by_cases hp : p = pos
    · simp [hp] at hi
    · simp only [hp, if_false] at hi ⊢
      exact g.content p i hi q

theorem Sound.afterOp {sh s' : Sheet E} (g : Sound sh) (op : Op)
    (h : op.apply sh = some s') : Sound s' := by
  cases op with
  | set pos text =>
    simp only [Op.apply] at h
    cases hr : SetCell pos text sh with
    | ok u s1 =>
      rw [hr] at h
      simp only [Outcome.state?, Option.some.injEq] at h
      subst h
      obtain ⟨hv, c, impl, s4, hl, -, hchk, hi, hinv⟩ := SetCell_ok hr
      have hspec := HasCircularDependency_spec (sh.ensure pos) pos impl
      rw [hchk] at hspec
      exact ((g.ensured pos).committed hl hspec.2.2 hi).unchanged (InvalidateAllCache_ok hinv)
    | threw e s1 =>
      rw [hr] at h
      simp only [Outcome.state?, Option.some.injEq] at h
      subst h
      rcases SetCell_threw hr with ⟨-, -, h1⟩ | ⟨hv, h1, -⟩
      · exact h1 ▸ g
      · exact h1 ▸ g.ensured pos
    | undefined => rw [hr] at h; simp [Outcome.state?] at h
    | timeout => rw [hr] at h; simp [Outcome.state?] at h
  | clear pos =>
    simp only [Op.apply, ClearCell] at h
    by_cases hv : E.IsValid pos = true
    · by_cases hk : pos ∈ sh.keys
      · simp only [hv, hk, Bool.not_true, Bool.false_eq_true, if_false, if_true, Outcome.state?,
          Option.some.injEq] at h
        exact h ▸ g.nulled pos
      · simp only [hv, hk, Bool.not_true, Bool.false_eq_true, if_false, Outcome.state?,
          Option.some.injEq] at h
        exact h ▸ g
    · have hv : E.IsValid pos = false := by simpa using hv
      simp only [hv, Bool.not_false, if_true, Outcome.state?, Option.some.injEq] at h
      exact h ▸ g
  | value pos =>
    simp only [Op.apply] at h
    by_cases hv : E.IsValid pos = true
    · cases hc : sh.live pos with
      | none =>
        simp [GetValue, GetCell, GetPtr_dead hv hc, Outcome.bind, Outcome.state?] at h
      | some c =>
        rw [GetValue_of_live hv (by simp [hc])] at h
        cases hg : Cell.GetValue (sh.keys.length + 1) pos sh with
        | ok r s1 =>
          rw [hg] at h
          simp only [Outcome.state?, Option.some.injEq] at h
          exact h ▸ g.unchanged (GetValue_same _ _ _ _ _ hg)
        | threw e s1 => exact absurd hg (GetValue_not_threw _ _ _ _ _)
        | undefined => rw [hg] at h; simp [Outcome.state?] at h
        | timeout => rw [hg] at h; simp [Outcome.state?] at h
    · have hv : E.IsValid pos = false := by simpa using hv
      simp only [GetValue, GetCell, GetPtr_invalid hv, Outcome.bind, Outcome.state?,
        Option.some.injEq] at h
      exact h ▸ g

theorem run_sound {ops : List Op} {s0 sh : Sheet E} (g : Sound s0)
    (hrun : run ops s0 = some sh) : Sound sh := by
  induction ops generalizing s0 with
  | nil =>
    simp only [run, Option.some.injEq] at hrun
    exact hrun ▸ g
  | cons op ops ih =>
    simp only [run] at hrun
    cases ha : op.apply s0 with
    | none => rw [ha] at hrun; simp at hrun
    | some s1 =>
      rw [ha] at hrun
      simp only [Option.some_bind] at hrun
      exact ih (g.afterOp op ha) hrun

/-! ## The layout written by the print methods -/

theorem printCols_append (field : Nat → String) (l1 l2 : List Nat) (out : String) :
    printCols field (l1 ++ l2) out = printCols field l2 (printCols field l1 out) := by
  induction l1 generalizing out with
  | nil => rfl
  | cons a l ih =>
    show printCols field (l ++ l2) ((if a > 0 then out ++ "\t" else out) ++ field a) =
      printCols field l2 (printCols field l ((if a > 0 then out ++ "\t" else out) ++ field a))
    exact ih _

theorem tabSeparated_snoc (l : List String) (x : String) :
    tabSeparated (l ++ [x]) = if l = [] then x else tabSeparated l ++ "\t" ++ x := by
  induction l with
  | nil => rfl
  | cons a l ih =>
    cases l with
    | nil => simp [tabSeparated]
    | cons b l2 =>
      have ih' : tabSeparated ((b :: l2) ++ [x]) = tabSeparated (b :: l2) ++ "\t" ++ x := by
        simpa using ih
      show a ++ "\t" ++ tabSeparated ((b :: l2) ++ [x]) = _
      rw [ih']
      simp [tabSeparated, String.append_assoc]

theorem printCols_range (field : Nat → String) (n : Nat) (out : String) :
    printCols field (List.range n) out = out ++ tabSeparated ((List.range n).map field) := by
  induction n with
  | zero => simp [printCols, tabSeparated]
  | succ n ih =>
    rw [List.range_succ, printCols_append, ih, List.map_append, List.map_singleton,
      tabSeparated_snoc]
    simp only [printCols]
    cases n with
    | zero => simp [tabSeparated]
    | succ m =>
      have hne : List.map field (List.range (m + 1)) ≠ [] := by
        simp [List.range_succ]
      simp only [hne, if_false, Nat.zero_lt_succ, if_true, String.append_assoc]

theorem printRows_eq (field : Nat → Nat → String) (cols : Nat) (rows : List Nat)
    (out : String) :
    printRows field cols rows out =
      out ++ renderLines (rows.map fun r => (List.range cols).map fun c => field r c) := by
  induction rows generalizing out with
  | nil => simp [printRows, renderLines]
  | cons r rs ih =>
    simp only [printRows, List.map_cons, renderLines]
    rw [ih, printCols_range]
    simp [String.append_assoc]

theorem printTextsCols_eq (sh : Sheet E) (row : Nat) (l : List Nat) (out : String) :
    printTextsCols sh row l out = printCols (textField sh row) l out := by
  induction l generalizing out with
  | nil => rfl
  | cons col cols ih =>
    simp only [printTextsCols, printCols, textField]
    cases hl : sh.live (cellAt row col) with
    | none => simp only [String.append_empty]; exact ih _
    | some c =>
      simp only
      by_cases ht : c.impl_.GetText = ""
      · simp only [ht, ne_eq, not_true_eq_false, if_false, String.append_empty]
        exact ih _
      · simp only [ht, ne_eq, not_false_eq_true, if_true]
        exact ih _

theorem printTextsRows_eq (sh : Sheet E) (cols : Nat) (rows : List Nat) (out : String) :
    printTextsRows sh cols rows out = printRows (textField sh) cols rows out := by
  induction rows generalizing out with
  | nil => rfl
  | cons r rs ih =>
    simp only [printTextsRows, printRows, printTextsCols_eq]
    exact ih _

theorem Impl.GetText_invalidate (i : Impl E) : i.InvalidateCache.GetText = i.GetText := by
  cases i <;> rfl

theorem SameUpToCache.text {s0 s : Sheet E} (h : SameUpToCache s0 s) (p : Position) :
    (s.impl p).map Impl.GetText = (s0.impl p).map Impl.GetText := by
  have h4 := congrArg (Option.map Impl.GetText) (h.2.2.2 p)
  simp only [Option.map_map] at h4
  have hfun : (Impl.GetText ∘ Impl.InvalidateCache : Impl E → String) = Impl.GetText := by
    funext i
    exact Impl.GetText_invalidate i
  rw [hfun] at h4
  exact h4

theorem GetPrintableSize_nonneg (sh : Sheet E) :
    0 ≤ (GetPrintableSize sh).rows ∧ 0 ≤ (GetPrintableSize sh).cols := by
  unfold GetPrintableSize
  have : ∀ (l : List Position) (acc : Size), 0 ≤ acc.rows ∧ 0 ≤ acc.cols →
      0 ≤ (l.foldl (fun result p =>
        match sh.slot p with
        | some _ => (⟨max result.rows (p.row + 1), max result.cols (p.col + 1)⟩ : Size)
        | none => result) acc).rows ∧
      0 ≤ (l.foldl (fun result p =>
        match sh.slot p with
        | some _ => (⟨max result.rows (p.row + 1), max result.cols (p.col + 1)⟩ : Size)
        | none => result) acc).cols := by
    intro l
    induction l with
    | nil => intro acc h; exact h
    | cons a l ih =>
      intro acc h
      simp only [List.foldl_cons]
      apply ih
      cases sh.slot a with
      | none => exact h
      | some c => exact ⟨le_max_of_le_left h.1, le_max_of_le_left h.2⟩
  exact this sh.keys ⟨0, 0⟩ ⟨le_refl _, le_refl _⟩

theorem printValuesCols_eq (showNum : E.Num → String) (showErr : E.FErr → String)
    {s0 : Sheet E} (g : Sound s0) (row : Nat) :
    ∀ (l : List Nat) (s : Sheet E) (out : String), SameUpToCache s0 s →
      ∃ s', printValuesCols showNum showErr row l s out =
          .ok (printCols (valueField showNum showErr s0 row) l out) s' ∧
        SameUpToCache s0 s' := by
  intro l
  induction l with
  | nil => intro s out hs; exact ⟨s, rfl, hs⟩
  | cons col cols ih =>
    intro s out hs
    have htext := hs.text (cellAt row col)
    simp only [printValuesCols, printCols, valueField]
    cases hl : s.live (cellAt row col) with
    | none =>
      have hl0 : s0.live (cellAt row col) = none := by
        have := hs.live_isSome (cellAt row col)
        rw [hl] at this
        cases h0 : s0.live (cellAt row col) with
        | none => rfl
        | some c0 => rw [h0] at this; simp at this
      simp only [hl0, String.append_empty]
      exact ih s _ hs
    | some c =>
      have hlive0 : (s0.live (cellAt row col)).isSome := by
        rw [← hs.live_isSome, hl]; rfl
      cases hl0 : s0.live (cellAt row col) with
      | none => rw [hl0] at hlive0; simp at hlive0
      | some c0 =>
        have ht : c.impl_.GetText = c0.impl_.GetText := by
          simpa [Sheet.impl, hl, hl0] using htext
        simp only [ht]
        by_cases he : c0.impl_.GetText = ""
        · simp only [he, ne_eq, not_true_eq_false, if_false, String.append_empty]
          exact ih s _ hs
        · simp only [he, ne_eq, not_false_eq_true, if_true]
          obtain ⟨r, s1, hg, hs1⟩ := GetValue_total g.acyclic g.content (s.keys.length + 1) []
            (cellAt row col) s hs List.nodup_nil (by simp) (by simp) hlive0
            (by rw [hs.1]; simp)
          have hcur := GetValue_currentValue _ _ _ _ _ hg
          rw [hs.1, currentValue_same hs] at hcur
          simp only [hg, Outcome.bind, hcur]
          exact ih s1 _ hs1

theorem printValuesRows_eq (showNum : E.Num → String) (showErr : E.FErr → String)
    {s0 : Sheet E} (g : Sound s0) (cols : Nat) :
    ∀ (rows : List Nat) (s : Sheet E) (out : String), SameUpToCache s0 s →
      ∃ s', printValuesRows showNum showErr cols rows s out =
          .ok (printRows (valueField showNum showErr s0) cols rows out) s' ∧
        SameUpToCache s0 s' := by
  intro rows
  induction rows with
  | nil => intro s out hs; exact ⟨s, rfl, hs⟩
  | cons r rs ih =>
    intro s out hs
    obtain ⟨s1, h1, hs1⟩ := printValuesCols_eq showNum showErr g r (List.range cols) s out hs
    obtain ⟨s2, h2, hs2⟩ := ih s1
      (printCols (valueField showNum showErr s0 r) (List.range cols) out ++ "\n") hs1
    exact ⟨s2, by simp only [printValuesRows, printRows, h1, Outcome.bind, h2], hs2⟩

/-- A text that `mkFormulaImpl` rejects is one the parser rejects. -/
theorem mkFormulaImpl_none {raw : String} (h : mkFormulaImpl (E := E) raw = none) :
    E.ParseFormula (String.mk (raw.data.drop 1)) = none := by
  unfold mkFormulaImpl at h
  cases hp : E.ParseFormula (String.mk (raw.data.drop 1)) with
  | none => rfl
  | some f => rw [hp] at h; simp at h

/-- The search never pops a second cell of the reference set: a throw comes at the first
popped cell that is in the set, and a search that returns has popped no such cell. -/
theorem searchPopped_hit (sh : Sheet E) (rc : List (Option Position)) :
    ∀ (fuel : Nat) (visited to_visit : List Position), (∀ x ∈ visited, some x ∉ rc) →
      ((searchPopped sh rc fuel visited to_visit).2 = .threw .CircularDependencyException () →
        ∃ c rest, (searchPopped sh rc fuel visited to_visit).1 = c :: rest ∧ some c ∈ rc ∧
          ∀ x ∈ rest, some x ∉ rc) ∧
      ((searchPopped sh rc fuel visited to_visit).2 = .ok false () →
        ∀ x ∈ (searchPopped sh rc fuel visited to_visit).1, some x ∉ rc) := by
  intro fuel
  induction fuel with
  | zero =>
    intro visited to_visit _
    constructor <;> intro h <;> simp [searchPopped] at h
  | succ fuel ih =>
    intro visited to_visit hv
    cases to_visit with
    | nil =>
      constructor
      · intro h; simp [searchPopped] at h
      · intro _; simpa [searchPopped] using hv
    | cons current to_visit =>
      by_cases hc : some current ∈ rc
      · constructor
        · intro _
          exact ⟨current, visited, by simp [searchPopped, hc], hc, hv⟩
        · intro h; simp [searchPopped, hc] at h
      · cases hl : sh.live current with
        | none =>
          constructor <;> intro h <;> simp [searchPopped, hc, hl] at h
        | some c =>
          have hv' : ∀ x ∈ current :: visited, some x ∉ rc := by
            intro x hx
            rcases List.mem_cons.1 hx with rfl | hx
            · exact hc
            · exact hv x hx
          have := ih (current :: visited)
            (pushUnvisited (current :: visited) c.dep_cells_ to_visit) hv'
          simpa [searchPopped, hc, hl] using this

/-! ## Properties of the specification, checked against the code -/

/-- C4. Atomicity of a rejected cycle: when `SetCell(pos, text)` throws
`CircularDependencyException` on a position that already held a cell, the sheet, with the
content, the two edge sets and the cache of every cell, is what it was before the call. -/
theorem rejected_cycle_is_atomic (sh s' : Sheet E) (pos : Position) (text : String)
    (c : Cell E) (hc : sh.live pos = some c)
    (h : SetCell pos text sh = .threw .CircularDependencyException s') : s' = sh := by
  have hk := Sheet.live_isSome_mem hc
  rcases SetCell_threw h with ⟨h1, -, -⟩ | ⟨-, h1, -⟩
  · cases h1
  · simpa [Sheet.ensure, hk] using h1

theorem rejected_cycle_is_atomic_witness :
    SetCell A1 "=A2" Sheet.empty = .ok () (demoSheet [.set A1 "=A2"]) ∧
      SetCell A2 "=A1" (demoSheet [.set A1 "=A2"]) =
        .threw .CircularDependencyException (demoSheet [.set A1 "=A2", .set A2 "=A1"]) ∧
      demoSheet [.set A1 "=A2", .set A2 "=A1"] = demoSheet [.set A1 "=A2"] ∧
      ((demoSheet [.set A1 "=A2", .set A2 "=A1"]).live A2).map
        (fun c => (c.impl_.GetText, c.ref_cells_)) = some ("", []) :=
  ⟨rfl, rfl,
    rejected_cycle_is_atomic (demoSheet [.set A1 "=A2"]) _ A2 "=A1" ⟨.EmptyImpl, [A1], []⟩
      rfl rfl,
    rfl⟩

/-- C5. A failing `SetCell` on a position without a cell is not transactional: on the empty
sheet `SetCell(A1, "=A1")` throws `CircularDependencyException` and `SetCell(A1, "=?")`, whose
formula does not parse, throws `FormulaException`, and either call leaves a new cell at `A1`:
`GetCell(A1)` answered `nullptr` before and a cell after, and the printable size went from
`(0, 0)` to `(1, 1)`. -/
theorem failed_set_cell_keeps_new_cell :
    SetCell A1 "=A1" (Sheet.empty : Sheet demo) =
        .threw .CircularDependencyException (demoSheet [.set A1 "=A1"]) ∧
      SetCell A1 "=?" (Sheet.empty : Sheet demo) =
        .threw .FormulaException (demoSheet [.set A1 "=?"]) ∧
      GetCell (Sheet.empty : Sheet demo) A1 = .ok none Sheet.empty ∧
      GetCell (demoSheet [.set A1 "=A1"]) A1 = .ok (some A1) (demoSheet [.set A1 "=A1"]) ∧
      GetCell (demoSheet [.set A1 "=?"]) A1 = .ok (some A1) (demoSheet [.set A1 "=?"]) ∧
      GetPrintableSize (Sheet.empty : Sheet demo) = ⟨0, 0⟩ ∧
      GetPrintableSize (demoSheet [.set A1 "=A1"]) = ⟨1, 1⟩ ∧
      GetPrintableSize (demoSheet [.set A1 "=?"]) = ⟨1, 1⟩ :=
  ⟨rfl, rfl, rfl, rfl, rfl, rfl, rfl, rfl⟩

/-- C6. `ClearCell` is not `SetCell` with empty text: on the empty sheet `ClearCell(A1)` changes
nothing while `SetCell(A1, "")` makes an empty cell; on a sheet where `B1` holds `=A1`,
`ClearCell(B1)` resets the slot to `nullptr` and leaves `B1` in the `dep_cells_` of `A1`, while
`SetCell(B1, "")` keeps an empty cell at `B1` and removes it from the `dep_cells_` of `A1`. -/
theorem clear_cell_differs_from_set_empty :
    ClearCell A1 (Sheet.empty : Sheet demo) = .ok () Sheet.empty ∧
      (Sheet.empty : Sheet demo).live A1 = none ∧
      ((demoSheet [.set A1 ""]).live A1).map (fun c => c.impl_.GetText) = some "" ∧
      (demoSheet [.set B1 "=A1", .clear B1]).live B1 = none ∧
      (demoSheet [.set B1 "=A1", .clear B1]).deps A1 = [B1] ∧
      ((demoSheet [.set B1 "=A1", .set B1 ""]).live B1).map (fun c => c.impl_.GetText) =
        some "" ∧
      (demoSheet [.set B1 "=A1", .set B1 ""]).deps A1 = [] :=
  ⟨rfl, rfl, rfl, rfl, rfl, rfl, rfl⟩

/-- C7. `ClearCell` leaves dangling edges: after `SetCell(B1, "=A1")` the cell at `A1` has `B1`
in its `dep_cells_`; `ClearCell(A1)` then destroys that cell, the slot holds `nullptr`, and the
cell at `B1` still has the destroyed cell in its `ref_cells_`. -/
theorem clear_cell_leaves_dangling_edge :
    run [.set B1 "=A1", .clear A1] (Sheet.empty : Sheet demo) =
        some (demoSheet [.set B1 "=A1", .clear A1]) ∧
      (demoSheet [.set B1 "=A1"]).deps A1 = [B1] ∧
      A1 ∈ (demoSheet [.set B1 "=A1", .clear A1]).keys ∧
      (demoSheet [.set B1 "=A1", .clear A1]).slot A1 = none ∧
      GetCell (demoSheet [.set B1 "=A1", .clear A1]) A1 =
        .ok none (demoSheet [.set B1 "=A1", .clear A1]) ∧
      (demoSheet [.set B1 "=A1", .clear A1]).refs B1 = [A1] :=
  ⟨rfl, rfl, by decide, rfl, rfl, rfl⟩

/-- C8. Invalidation misses the dependents when the new content is a formula: after
`A1 = "1"`, `A2 = "=A1"` and a read of `A2`, the committed `SetCell(A1, "=1")` leaves the cache
of `A2` filled although `A2` refers to `A1`; after the committed `SetCell(A1, "2")` the cache
of `A2` is empty. -/
theorem formula_edit_keeps_dependent_cache :
    SetCell A1 "=1" (demoSheet [.set A1 "1", .set A2 "=A1", .value A2]) =
        .ok () (demoSheet [.set A1 "1", .set A2 "=A1", .value A2, .set A1 "=1"]) ∧
      (demoSheet [.set A1 "1", .set A2 "=A1", .value A2, .set A1 "=1"]).refs A2 = [A1] ∧
      ((demoSheet [.set A1 "1", .set A2 "=A1", .value A2, .set A1 "=1"]).impl A2).map
        Impl.HasCache = some true ∧
      ((demoSheet [.set A1 "1", .set A2 "=A1", .value A2, .set A1 "2"]).impl A2).map
        Impl.HasCache = some false :=
  ⟨rfl, rfl, rfl, rfl⟩

/-- C10. The second read is not a cache hit: on the formula cell `A1 = "=1"` the first
`GetValue` calls `Evaluate` twice, the second `GetValue`, made right after it with the cache
filled, calls `Evaluate` again; both return the number 1. -/
theorem second_read_evaluates_again :
    evaluateLog (GetValue A1 (demoSheet [.set A1 "=1"])) = [A1, A1] ∧
      ((demoSheet [.set A1 "=1", .value A1]).impl A1).map Impl.HasCache = some true ∧
      evaluateLog (GetValue A1 (demoSheet [.set A1 "=1", .value A1])) = [A1] ∧
      returnedValue (GetValue A1 (demoSheet [.set A1 "=1"])) = some (.num (1 : Int)) ∧
      returnedValue (GetValue A1 (demoSheet [.set A1 "=1", .value A1])) = some (.num (1 : Int)) :=
  ⟨rfl, rfl, rfl, rfl, rfl⟩

/-- C2. Acyclicity invariant: every finite sequence of `SetCell` calls, successful or failing,
applied to the empty sheet runs to a sheet whose graph of `ref_cells_` edges has no cycle and
no self-loop. -/
theorem acyclicity_invariant (ops : List Op) (hops : ∀ op ∈ ops, op.isSet = true) :
    ∃ sh : Sheet E, run ops Sheet.empty = some sh ∧ Acyclic sh := by
  obtain ⟨sh, h, g⟩ := run_set_good hops (Good.init (E := E))
  exact ⟨sh, h, g.acyclic⟩

theorem acyclicity_invariant_witness :
    (∀ op ∈ cycleRun, op.isSet = true) ∧
      SetCell A2 "=A3" (demoSheet [.set A1 "=A2", .set A2 "=A1", .set A3 "=A1+A2"]) =
        .threw .CircularDependencyException
          (demoSheet [.set A1 "=A2", .set A2 "=A1", .set A3 "=A1+A2"]) ∧
      (demoSheet cycleRun).refs A3 = [A2, A1] ∧
      ∃ sh : Sheet demo, run cycleRun Sheet.empty = some sh ∧ Acyclic sh :=
  ⟨by decide, rfl, rfl, acyclicity_invariant cycleRun (by decide)⟩

/-- C1. Cycle rejection is exact: on a sheet reached from the empty sheet by `SetCell` calls,
for a valid position `S` and a formula text that parses to a formula whose referenced cells
are valid positions, `SetCell(S, text)` throws `CircularDependencyException` if and only if
one of the referenced positions is `S` itself or holds a cell that depends on `S` through
reference edges; in every other case the call returns. -/
theorem cycle_rejection_exact (ops : List Op) (hops : ∀ op ∈ ops, op.isSet = true)
    (sh : Sheet E) (hrun : run ops Sheet.empty = some sh) (S : Position)
    (hS : E.IsValid S = true) (text : String) (h : E.Handle)
    (hform : text.data.length > 1 ∧ text.data.head? = some FORMULA_SIGN)
    (hparse : E.ParseFormula (String.mk (text.data.drop 1)) = some h)
    (hR : ∀ r ∈ E.GetReferencedCells h, E.IsValid r = true) :
    ((∃ s', SetCell S text sh = .threw .CircularDependencyException s') ↔
      ∃ r ∈ E.GetReferencedCells h, r = S ∨ ((sh.live r).isSome ∧ DependsOn sh r S)) ∧
    ((¬ ∃ r ∈ E.GetReferencedCells h, r = S ∨ ((sh.live r).isSome ∧ DependsOn sh r S)) →
      ∃ s', SetCell S text sh = .ok () s') := by
  have g : Good sh := by
    obtain ⟨sh', h1, g⟩ := run_set_good hops (Good.init (E := E))
    rw [hrun] at h1
    cases h1
    exact g
  have g1 := g.prepared hS
  have hbuild := buildImpl_formula hform hparse
  have hliveS : ((sh.ensure S).live S).isSome := g1.noNull S (Sheet.ensure_mem sh S)
  -- a throw of the cycle check gives a referenced cell that reaches `S`
  have hfwd : ∀ impl : Impl E, buildImpl text = some impl → ∀ e,
      HasCircularDependency (sh.ensure S) S impl = .threw e () →
      e = .CircularDependencyException ∧
        ∃ r ∈ E.GetReferencedCells h, r = S ∨ ((sh.live r).isSome ∧ DependsOn sh r S) := by
    intro impl hb e hchk
    rw [hbuild] at hb
    cases hb
    have hspec := HasCircularDependency_spec (sh.ensure S) S
      (.FormulaImpl h (String.mk (FORMULA_SIGN :: (E.GetExpression h).data)) none)
    rw [hchk] at hspec
    rcases hspec with ⟨he, -, x, hx, hxR, -⟩ | ⟨-, r, hr, hrv⟩
    · refine ⟨he, x, hxR, ?_⟩
      have hpath := g1.refPath_of_reach hx
      rw [RefEdge_ensure] at hpath
      rcases Relation.reflTransGen_iff_eq_or_transGen.1 hpath with h0 | h0
      · exact Or.inl h0.symm
      · right
        refine ⟨?_, h0⟩
        rcases Relation.TransGen.head'_iff.1 h0 with ⟨m, hxm, -⟩
        exact Sheet.live_of_mem_refs hxm
    · rw [hR r hr] at hrv
      exact Bool.noConfusion hrv
  -- a referenced cell that reaches `S` makes the call throw
  have hthrow : ∀ e s', SetCell S text sh = .threw e s' →
      e = .CircularDependencyException ∧
        ∃ r ∈ E.GetReferencedCells h, r = S ∨ ((sh.live r).isSome ∧ DependsOn sh r S) := by
    intro e s' hth
    rcases SetCell_threw hth with ⟨-, h1, -⟩ | ⟨-, -, -, h1⟩
    · rw [hS] at h1; exact Bool.noConfusion h1
    · rcases h1 with ⟨-, h1⟩ | ⟨impl, hb, hchk⟩
      · rw [hbuild] at h1; cases h1
      · exact hfwd impl hb e hchk
  have hok : ∀ s', SetCell S text sh = .ok () s' →
      ¬ ∃ r ∈ E.GetReferencedCells h, r = S ∨ ((sh.live r).isSome ∧ DependsOn sh r S) := by
    intro s' hset
    obtain ⟨-, c, impl, s4, hl, hb, hchk, -, -⟩ := SetCell_ok hset
    rw [hbuild] at hb
    cases hb
    have hspec := HasCircularDependency_spec (sh.ensure S) S
      (.FormulaImpl h (String.mk (FORMULA_SIGN :: (E.GetExpression h).data)) none)
    rw [hchk] at hspec
    rintro ⟨r, hr, hcase⟩
    have hreach : Reach (sh.ensure S) S r := by
      apply g1.reach_of_refPath
      rw [RefEdge_ensure]
      rcases hcase with h0 | ⟨-, h0⟩
      · rw [h0]
      · exact h0.to_reflTransGen
    have hdead := hspec.2.2 r hreach hr
    have := g1.live_of_reach hliveS hreach
    rw [hdead] at this
    simp at this
  obtain ⟨s', htot⟩ := SetCell_total g S text
  refine ⟨⟨?_, ?_⟩, ?_⟩
  · rintro ⟨s1, hth⟩
    exact (hthrow _ _ hth).2
  · intro hcond
    cases hset : SetCell S text sh with
    | ok u s1 => exact absurd hcond (hok s1 hset)
    | threw e s1 =>
      obtain ⟨he, -⟩ := hthrow e s1 hset
      exact ⟨s1, by rw [he]⟩
    | undefined => rw [hset] at htot; simp [Outcome.state?] at htot
    | timeout => rw [hset] at htot; simp [Outcome.state?] at htot
  · intro hcond
    cases hset : SetCell S text sh with
    | ok u s1 => exact ⟨s1, rfl⟩
    | threw e s1 => exact absurd (hthrow e s1 hset).2 hcond
    | undefined => rw [hset] at htot; simp [Outcome.state?] at htot
    | timeout => rw [hset] at htot; simp [Outcome.state?] at htot

theorem cycle_rejection_exact_witness :
    (∃ r ∈ demo.GetReferencedCells (.cell A1),
        r = A2 ∨ (((demoSheet [.set A1 "=A2"]).live r).isSome ∧
          DependsOn (demoSheet [.set A1 "=A2"]) r A2)) ∧
      ∃ s', SetCell A2 "=A1" (demoSheet [.set A1 "=A2"]) =
        .threw .CircularDependencyException s' :=
  have hcond : ∃ r ∈ demo.GetReferencedCells (.cell A1),
      r = A2 ∨ (((demoSheet [.set A1 "=A2"]).live r).isSome ∧
        DependsOn (demoSheet [.set A1 "=A2"]) r A2) :=
    ⟨A1, by decide, Or.inr ⟨rfl, Relation.TransGen.single
      (show A2 ∈ (demoSheet [.set A1 "=A2"]).refs A1 by decide)⟩⟩
  ⟨hcond,
    (cycle_rejection_exact (E := demo) [.set A1 "=A2"] (by decide) (demoSheet [.set A1 "=A2"])
      rfl A2 rfl "=A1" (.cell A1) (by decide) rfl (by decide)).1.2 hcond⟩

/-- C9. No stale value is ever read: on a sheet reached by `SetCell` and `GetValue` calls,
`GetValue` on a formula cell `D` returns, and the value it returns is the evaluation of the
formula of `D` over the current values of the cells it reads, computed without any cache; the
same value is returned whatever the caches of `D` and of the other cells hold. -/
theorem no_stale_value (ops : List Op) (hops : ∀ op ∈ ops, op.isSetOrValue = true)
    (sh : Sheet E) (hrun : run ops Sheet.empty = some sh) (D : Position) (h : E.Handle)
    (t : String) (cache : Option (FValue E.Num E.FErr))
    (hD : sh.impl D = some (.FormulaImpl h t cache)) :
    ∃ v, returnedValue (GetValue D sh) = some v ∧
      (readCells (currentValue sh.keys.length sh) sh (E.GetReferencedCells h)).map
        (fun tb => (E.Evaluate h (tableLookup tb)).toValue) = some v ∧
      ∀ sh2, SameUpToCache sh sh2 → returnedValue (GetValue D sh2) = some v := by
  have g := run_good hops (Good.init (E := E)) hrun
  have hl : (sh.live D).isSome := by rw [← Sheet.impl_isSome, hD]; rfl
  obtain ⟨r, s', hg, hcur⟩ := GetValue_good g hl
  refine ⟨r.1, by rw [hg]; rfl, ?_, ?_⟩
  · simpa [currentValue, hD] using hcur
  · intro sh2 h2
    have g2 := g.same h2
    have hl2 : (sh2.live D).isSome := by rw [h2.live_isSome]; exact hl
    obtain ⟨r2, s2, hg2, hcur2⟩ := GetValue_good g2 hl2
    rw [h2.1, currentValue_same h2, hcur] at hcur2
    rw [hg2]
    simp only [returnedValue]
    exact hcur2.symm

theorem no_stale_value_witness :
    returnedValue (GetValue A3 (demoSheet sumRun)) = some (.num (3 : Int)) ∧
      returnedValue (GetValue A3 (demoSheet editRun)) = some (.num (12 : Int)) ∧
      ∃ v, returnedValue (GetValue A3 (demoSheet editRun)) = some v ∧
        (readCells (currentValue (demoSheet editRun).keys.length (demoSheet editRun))
            (demoSheet editRun) (demo.GetReferencedCells (.add (.cell A1) (.cell A2)))).map
          (fun tb => (demo.Evaluate (.add (.cell A1) (.cell A2)) (tableLookup tb)).toValue) =
            some v ∧
        ∀ sh2, SameUpToCache (demoSheet editRun) sh2 →
          returnedValue (GetValue A3 sh2) = some v :=
  ⟨rfl, rfl,
    no_stale_value (E := demo) editRun (by decide) (demoSheet editRun) rfl A3
      (.add (.cell A1) (.cell A2)) _ _ rfl⟩

/-- C17. Invalid positions are rejected without mutation: for every sheet and every position
that is not valid, `SetCell`, `GetCell` and `ClearCell` throw `InvalidPositionException` and
leave the sheet as it was; for a valid position `GetCell` returns, in the same sheet, a
pointer that is `nullptr` exactly when the key is absent or its slot was reset, and
`ClearCell` returns. -/
theorem invalid_position_rejected (sh : Sheet E) (pos : Position) (text : String) :
    (E.IsValid pos = false →
      SetCell pos text sh = .threw .InvalidPositionException sh ∧
      GetCell sh pos = .threw .InvalidPositionException sh ∧
      ClearCell pos sh = .threw .InvalidPositionException sh) ∧
    (E.IsValid pos = true →
      (∃ ptr, GetCell sh pos = .ok ptr sh ∧
        (ptr = none ↔ (pos ∉ sh.keys ∨ sh.slot pos = none)) ∧ (ptr ≠ none → ptr = some pos)) ∧
      ∃ s', ClearCell pos sh = .ok () s') := by
  constructor
  · intro hv
    exact ⟨by simp [SetCell, SetCellAux, hv], by simp [GetCell, GetPtr, hv],
      by simp [ClearCell, hv]⟩
  · intro hv
    constructor
    · by_cases hk : pos ∈ sh.keys
      · cases hs : sh.slot pos with
        | none => exact ⟨none, by simp [GetCell, GetPtr, hv, hk, hs], by simp [hs], by simp⟩
        | some c =>
          exact ⟨some pos, by simp [GetCell, GetPtr, hv, hk, hs], by simp [hk, hs], by simp⟩
      · exact ⟨none, by simp [GetCell, GetPtr, hv, hk], by simp [hk], by simp⟩
    · by_cases hk : pos ∈ sh.keys
      · exact ⟨sh.put pos none, by simp [ClearCell, hv, hk]⟩
      · exact ⟨sh, by simp [ClearCell, hv, hk]⟩

theorem invalid_position_rejected_witness :
    SetCell ⟨-1, 0⟩ "x" (demoSheet clearedRun) =
        .threw .InvalidPositionException (demoSheet clearedRun) ∧
      GetCell (demoSheet clearedRun) A1 = .ok none (demoSheet clearedRun) ∧
      (∃ ptr, GetCell (demoSheet clearedRun) A1 = .ok ptr (demoSheet clearedRun) ∧
        (ptr = none ↔ (A1 ∉ (demoSheet clearedRun).keys ∨ (demoSheet clearedRun).slot A1 = none)) ∧
        (ptr ≠ none → ptr = some A1)) :=
  ⟨((invalid_position_rejected (demoSheet clearedRun) ⟨-1, 0⟩ "x").1 (by decide)).1, rfl,
    ((invalid_position_rejected (demoSheet clearedRun) A1 "x").2 rfl).1⟩

/-- C12. Writing empty text to a cleared slot is undefined: after `SetCell(A1, "x")` and
`ClearCell(A1)` the key `A1` is still counted by `cells_.count`, so `SetCell(A1, "")` makes no
cell and calls `Set` through the null `unique_ptr`; and after `SetCell(B1, "=A1")` and
`ClearCell(A1)` the call `SetCell(B1, "")` erases from the `dep_cells_` of the destroyed cell. -/
theorem set_empty_on_cleared_slot_undefined :
    run clearedRun (Sheet.empty : Sheet demo) = some (demoSheet clearedRun) ∧
      demo.IsValid A1 = true ∧
      A1 ∈ (demoSheet clearedRun).keys ∧
      (demoSheet clearedRun).slot A1 = none ∧
      SetCell A1 "" (demoSheet clearedRun) = .undefined ∧
      run clearedTargetRun (Sheet.empty : Sheet demo) = some (demoSheet clearedTargetRun) ∧
      SetCell B1 "" (demoSheet clearedTargetRun) = .undefined :=
  ⟨rfl, rfl, by decide, rfl, rfl, rfl, rfl⟩

/-- C13. The printable size counts cells with empty text: after `SetCell(B1, "")` on the empty
sheet no cell has text and `GetPrintableSize()` is `(1, 2)`; after `SetCell(A1, "=B1")` the
only cell with text is `A1`, the cell `B1` was made empty by `RefCellsProcessing`, and
`GetPrintableSize()` is `(1, 2)`. -/
theorem printable_size_counts_empty_cells :
    ((demoSheet [.set B1 ""]).impl B1).map Impl.GetText = some "" ∧
      (demoSheet [.set B1 ""]).keys = [B1] ∧
      GetPrintableSize (demoSheet [.set B1 ""]) = ⟨1, 2⟩ ∧
      (demoSheet [.set A1 "=B1"]).keys = [A1, B1] ∧
      ((demoSheet [.set A1 "=B1"]).impl B1).map Impl.GetText = some "" ∧
      GetPrintableSize (demoSheet [.set A1 "=B1"]) = ⟨1, 2⟩ :=
  ⟨rfl, rfl, rfl, rfl, rfl, rfl⟩

/-- C16. Content classification: for every string `raw`, after a `SetCell(pos, raw)` that
returns, the content of the cell is Empty iff `raw` is the empty string, Formula iff `raw` is
longer than one character and starts with `=`, and Text in every other case, so that `"="`
gives the text cell with text and value `"="`; for Formula content the formula object is the
parse of `raw` after its first character and `GetText()` is `=` followed by its
`GetExpression()`. On every sheet built by `SetCell` calls and every valid position the call
has a result: it returns when `raw` is not classified as a formula, and for a formula it
returns or throws, `FormulaException` when the parser rejects the text and
`CircularDependencyException` or `InvalidPositionException` from the cycle check otherwise,
leaving the content as it was. -/
theorem content_classification (pos : Position) (raw : String) :
    (∀ sh s' : Sheet E, SetCell pos raw sh = .ok () s' →
      ∃ i, s'.impl pos = some i ∧
        (i = .EmptyImpl ↔ raw = "") ∧
        ((∃ f t c, i = .FormulaImpl f t c) ↔
          (raw.data.length > 1 ∧ raw.data.head? = some FORMULA_SIGN)) ∧
        ((∃ t v, i = .TextImpl t v) ↔
          (raw ≠ "" ∧ ¬ (raw.data.length > 1 ∧ raw.data.head? = some FORMULA_SIGN))) ∧
        (∀ f t c, i = .FormulaImpl f t c →
          E.ParseFormula (String.mk (raw.data.drop 1)) = some f ∧
            i.GetText = String.mk (FORMULA_SIGN :: (E.GetExpression f).data)) ∧
        (raw = "=" → i = .TextImpl "=" "=")) ∧
    (E.IsValid pos = true → ∀ ops : List Op, (∀ op ∈ ops, op.isSet = true) →
      ∀ sh : Sheet E, run ops Sheet.empty = some sh →
        (¬ (raw.data.length > 1 ∧ raw.data.head? = some FORMULA_SIGN) →
          ∃ s', SetCell pos raw sh = .ok () s') ∧
        ((raw.data.length > 1 ∧ raw.data.head? = some FORMULA_SIGN) →
          (∃ s', SetCell pos raw sh = .ok () s') ∨
          (E.ParseFormula (String.mk (raw.data.drop 1)) = none ∧
            SetCell pos raw sh = .threw .FormulaException (sh.ensure pos)) ∨
          (∃ f e, E.ParseFormula (String.mk (raw.data.drop 1)) = some f ∧
            (e = .CircularDependencyException ∨ e = .InvalidPositionException) ∧
            SetCell pos raw sh = .threw e (sh.ensure pos)))) := by
  constructor
  · intro sh s' hset
    obtain ⟨impl, j, hb, hj, hsame⟩ := SetCell_impl hset
    refine ⟨j, hj, ?_⟩
    rcases buildImpl_cases (E := E) raw with ⟨h0, h1⟩ | ⟨h0, hf, h1⟩ | ⟨h0, hf, h1⟩
    · -- the empty text
      rw [h1] at hb
      cases hb
      have hjE : j = .EmptyImpl := by
        rcases Impl.eq_up_to_cache hsame with ⟨-, h2⟩ | ⟨t, v, h2, -⟩ | ⟨f, t, c, c', h2, -⟩
        · exact h2
        · cases h2
        · cases h2
      subst hjE
      have hlen : ¬ (raw.data.length > 1 ∧ raw.data.head? = some FORMULA_SIGN) := by
        rw [h0]; simp
      refine ⟨by simp [h0], ?_, ?_, ?_, ?_⟩
      · constructor
        · rintro ⟨f, t, c, h2⟩; cases h2
        · intro h2; exact absurd h2 hlen
      · constructor
        · rintro ⟨t, v, h2⟩; cases h2
        · intro h2; exact absurd h0 h2.1
      · intro f t c h2; cases h2
      · intro h2; rw [h0] at h2; exact absurd h2 (by decide)
    · -- a formula text
      rw [h1] at hb
      obtain ⟨f, hparse, hi⟩ := mkFormulaImpl_some hb
      have hjF : ∃ c', j = .FormulaImpl f
          (String.mk (FORMULA_SIGN :: (E.GetExpression f).data)) c' := by
        rcases Impl.eq_up_to_cache hsame with ⟨h2, -⟩ | ⟨t, v, h2, -⟩ | ⟨f', t, c, c', h2, h3⟩
        · rw [hi] at h2; cases h2
        · rw [hi] at h2; cases h2
        · rw [hi] at h2; cases h2; exact ⟨c', h3⟩
      obtain ⟨c', hjF⟩ := hjF
      subst hjF
      refine ⟨?_, ?_, ?_, ?_, ?_⟩
      · constructor
        · intro h2; cases h2
        · intro h2; exact absurd h2 h0
      · exact ⟨fun _ => hf, fun _ => ⟨_, _, _, rfl⟩⟩
      · constructor
        · rintro ⟨t, v, h2⟩; cases h2
        · intro h2; exact absurd hf h2.2
      · intro f' t c h2
        cases h2
        exact ⟨hparse, rfl⟩
      · intro h2
        rw [h2] at hf
        exact absurd hf.1 (by decide)
    · -- any other text
      rw [h1] at hb
      cases hb
      have hjT : j = mkTextImpl raw := by
        rcases Impl.eq_up_to_cache hsame with ⟨h2, -⟩ | ⟨t, v, h2, h3⟩ | ⟨f, t, c, c', h2, -⟩
        · cases h2
        · rw [h3, ← h2]
        · cases h2
      subst hjT
      refine ⟨?_, ?_, ?_, ?_, ?_⟩
      · constructor
        · intro h2; cases h2
        · intro h2; exact absurd h2 h0
      · constructor
        · rintro ⟨f, t, c, h2⟩; cases h2
        · intro h2; exact absurd h2 hf
      · exact ⟨fun _ => ⟨h0, hf⟩, fun _ => ⟨_, _, rfl⟩⟩
      · intro f t c h2; cases h2
      · intro h2
        subst h2
        rfl
  · intro hv ops hops sh hrun
    obtain ⟨sh', h, g⟩ := run_set_good hops (Good.init (E := E))
    rw [hrun] at h
    cases h
    constructor
    · intro hnf
      rcases buildImpl_cases (E := E) raw with ⟨-, h1⟩ | ⟨-, hf, -⟩ | ⟨-, -, h1⟩
      · exact SetCell_plain_total g hv h1 rfl
      · exact absurd hf hnf
      · exact SetCell_plain_total g hv h1 rfl
    · intro hf
      have hbuild : buildImpl (E := E) raw = mkFormulaImpl raw := by
        rcases buildImpl_cases (E := E) raw with ⟨h0, -⟩ | ⟨-, -, h1⟩ | ⟨-, hnf, -⟩
        · rw [h0] at hf; simp at hf
        · exact h1
        · exact absurd hf hnf
      obtain ⟨s1, htot⟩ := SetCell_total g pos raw
      cases hset : SetCell pos raw sh with
      | ok u s2 => exact Or.inl ⟨s2, rfl⟩
      | threw e s2 =>
        right
        rcases SetCell_threw hset with ⟨-, h1, -⟩ | ⟨-, hs, -, h1⟩
        · rw [hv] at h1
          exact Bool.noConfusion h1
        · subst hs
          rcases h1 with ⟨he, hb⟩ | ⟨impl, hb, hchk⟩
          · subst he
            rw [hbuild] at hb
            exact Or.inl ⟨mkFormulaImpl_none hb, rfl⟩
          · rw [hbuild] at hb
            obtain ⟨f, hparse, -⟩ := mkFormulaImpl_some hb
            have hspec := HasCircularDependency_spec (sh.ensure pos) pos impl
            rw [hchk] at hspec
            rcases hspec with ⟨he, -⟩ | ⟨he, -⟩
            · exact Or.inr ⟨f, e, hparse, Or.inl he, rfl⟩
            · exact Or.inr ⟨f, e, hparse, Or.inr he, rfl⟩
      | undefined => rw [hset] at htot; simp [Outcome.state?] at htot
      | timeout => rw [hset] at htot; simp [Outcome.state?] at htot

theorem content_classification_witness :
    SetCell A1 "=" (Sheet.empty : Sheet demo) = .ok () (demoSheet [.set A1 "="]) ∧
      (demoSheet [.set A1 "="]).impl A1 = some (.TextImpl "=" "=") ∧
      ((demoSheet [.set A1 "=A2"]).impl A1).map Impl.GetText = some "=R1C0" ∧
      SetCell A1 "=A2" (demoSheet [.set A2 "=A1"]) =
        .threw .CircularDependencyException (demoSheet [.set A2 "=A1"]) ∧
      (∃ i, (demoSheet [.set A1 "="]).impl A1 = some i ∧ (i = .EmptyImpl ↔ "=" = "") ∧
        ((∃ f t c, i = .FormulaImpl f t c) ↔
          (("=" : String).data.length > 1 ∧ ("=" : String).data.head? = some FORMULA_SIGN)) ∧
        ((∃ t v, i = .TextImpl t v) ↔
          ("=" ≠ "" ∧
            ¬ (("=" : String).data.length > 1 ∧
              ("=" : String).data.head? = some FORMULA_SIGN))) ∧
        (∀ f t c, i = .FormulaImpl f t c →
          demo.ParseFormula (String.mk (("=" : String).data.drop 1)) = some f ∧
            i.GetText = String.mk (FORMULA_SIGN :: (demo.GetExpression f).data)) ∧
        ("=" = "=" → i = .TextImpl "=" "=")) ∧
      ∃ s', SetCell A1 "=" (demoSheet [.set A2 "=A1"]) = .ok () s' :=
  ⟨rfl, rfl, rfl, rfl,
    (content_classification (E := demo) A1 "=").1 Sheet.empty (demoSheet [.set A1 "="]) rfl,
    ((content_classification (E := demo) A1 "=").2 rfl [.set A2 "=A1"] (by decide)
      (demoSheet [.set A2 "=A1"]) rfl).1 (by decide)⟩

/-- C15. Text content and the escape marker: for a non-empty string `raw` that is not
classified as a formula, after a `SetCell(pos, raw)` that returns, `GetText()` of the cell is
`raw` unmodified, `GetValue()` is the text `raw` without its first character when that is the
escape sign and `raw` itself otherwise, and `GetReferencedCells()` is empty; and on every sheet
built by `SetCell` calls such a `SetCell` on a valid position returns. -/
theorem text_content_and_escape (pos : Position) (raw : String) (hne : raw ≠ "")
    (hnf : ¬ (raw.data.length > 1 ∧ raw.data.head? = some FORMULA_SIGN)) :
    (∀ sh s' : Sheet E, SetCell pos raw sh = .ok () s' →
      (s'.impl pos).map Impl.GetText = some raw ∧
      GetValue pos s' =
        .ok (.str (if raw.data.head? = some ESCAPE_SIGN then String.mk (raw.data.drop 1)
          else raw), []) s' ∧
      (s'.impl pos).map Impl.GetReferencedCells = some []) ∧
    (E.IsValid pos = true → ∀ ops : List Op, (∀ op ∈ ops, op.isSet = true) →
      ∀ sh : Sheet E, run ops Sheet.empty = some sh → ∃ s', SetCell pos raw sh = .ok () s') := by
  have hbuild : buildImpl (E := E) raw = some (mkTextImpl raw) := by
    rcases buildImpl_cases (E := E) raw with ⟨h0, -⟩ | ⟨-, hf, -⟩ | ⟨-, -, h1⟩
    · exact absurd h0 hne
    · exact absurd hf hnf
    · exact h1
  constructor
  · intro sh s' hset
    obtain ⟨impl, j, hb, hj, hsame⟩ := SetCell_impl hset
    rw [hbuild] at hb
    cases hb
    have hjT : j = mkTextImpl raw := by
      rcases Impl.eq_up_to_cache hsame with ⟨h2, -⟩ | ⟨t, v, h2, h3⟩ | ⟨f, t, c, c', h2, -⟩
      · cases h2
      · rw [h3, ← h2]
      · cases h2
    subst hjT
    have hv := (SetCell_ok hset).1
    exact ⟨by rw [hj]; rfl, GetValue_text hv hj, by rw [hj]; rfl⟩
  · intro hv ops hops sh hrun
    obtain ⟨sh', h1, g⟩ := run_set_good hops (Good.init (E := E))
    rw [hrun] at h1
    cases h1
    exact SetCell_plain_total g hv hbuild rfl

theorem text_content_and_escape_witness :
    SetCell A1 "'=A1" (Sheet.empty : Sheet demo) = .ok () (demoSheet [.set A1 "'=A1"]) ∧
      ((demoSheet [.set A1 "'=A1"]).impl A1).map Impl.GetText = some "'=A1" ∧
      GetValue A1 (demoSheet [.set A1 "'=A1"]) =
        .ok (.str "=A1", []) (demoSheet [.set A1 "'=A1"]) ∧
      ((demoSheet [.set A1 "'=A1"]).impl A1).map Impl.GetReferencedCells = some [] ∧
      ∃ s', SetCell A2 "'=A1" (demoSheet cycleRun) = .ok () s' :=
  have h := text_content_and_escape (E := demo) A1 "'=A1" (by decide) (by decide)
  have h2 := text_content_and_escape (E := demo) A2 "'=A1" (by decide) (by decide)
  ⟨rfl, (h.1 Sheet.empty (demoSheet [.set A1 "'=A1"]) rfl).1,
    (h.1 Sheet.empty (demoSheet [.set A1 "'=A1"]) rfl).2.1,
    (h.1 Sheet.empty (demoSheet [.set A1 "'=A1"]) rfl).2.2,
    h2.2 rfl cycleRun (by decide) (demoSheet cycleRun) rfl⟩

/-- C14. Printable size round trip: the empty sheet has printable size `(0, 0)`; for a valid
position `(row, col)`, whose coordinates are not negative, and a non-empty text that is not
classified as a formula, `SetCell` on the empty sheet returns and the size is
`(row + 1, col + 1)`, and after the following `ClearCell` it is `(0, 0)` again. -/
theorem printable_size_round_trip (pos : Position) (hv : E.IsValid pos = true)
    (hrow : 0 ≤ pos.row) (hcol : 0 ≤ pos.col) (x : String) (hne : x ≠ "")
    (hnf : ¬ (x.data.length > 1 ∧ x.data.head? = some FORMULA_SIGN)) :
    GetPrintableSize (Sheet.empty : Sheet E) = ⟨0, 0⟩ ∧
      ∃ s1 s2 : Sheet E, SetCell pos x Sheet.empty = .ok () s1 ∧
        GetPrintableSize s1 = ⟨pos.row + 1, pos.col + 1⟩ ∧
        ClearCell pos s1 = .ok () s2 ∧ GetPrintableSize s2 = ⟨0, 0⟩ := by
  have hbuild : buildImpl (E := E) x = some (mkTextImpl x) := by
    rcases buildImpl_cases (E := E) x with ⟨h0, -⟩ | ⟨-, hf, -⟩ | ⟨-, -, h1⟩
    · exact absurd h0 hne
    · exact absurd hf hnf
    · exact h1
  have hset := SetCell_plain_new (Sheet.empty : Sheet E) pos hv (by simp [Sheet.empty]) x
    (mkTextImpl x) hbuild rfl rfl rfl
  have hkeys : ((Sheet.empty.create pos).put pos
      (some (⟨mkTextImpl x, [], []⟩ : Cell E))).keys = [pos] := by
    simp [Sheet.put, Sheet.create, Sheet.empty]
  refine ⟨rfl, _, ((Sheet.empty.create pos).put pos
    (some (⟨mkTextImpl x, [], []⟩ : Cell E))).put pos none, hset, ?_, ?_, ?_⟩
  · rw [GetPrintableSize_single _ pos hkeys]
    have hr : max 0 (pos.row + 1) = pos.row + 1 := max_eq_right (by omega)
    have hc : max 0 (pos.col + 1) = pos.col + 1 := max_eq_right (by omega)
    simp [Sheet.put, hr, hc]
  · simp [ClearCell, hv, hkeys]
  · rw [GetPrintableSize_single _ pos (by rw [Sheet.keys_put, hkeys])]
    simp [Sheet.put]

theorem printable_size_round_trip_witness :
    GetPrintableSize (Sheet.empty : Sheet demo) = ⟨0, 0⟩ ∧
      ∃ s1 s2 : Sheet demo, SetCell ⟨4, 2⟩ "x" Sheet.empty = .ok () s1 ∧
        GetPrintableSize s1 = ⟨4 + 1, 2 + 1⟩ ∧
        ClearCell ⟨4, 2⟩ s1 = .ok () s2 ∧ GetPrintableSize s2 = ⟨0, 0⟩ :=
  printable_size_round_trip (E := demo) ⟨4, 2⟩ rfl (by decide) (by decide) "x" (by decide)
    (by decide)

/-- C11. Commit postcondition of `SetCell`: on a sheet reached by `SetCell` calls, after a
`SetCell(S, text)` that returns, with `R` the referenced cells of the new content, (i) the
`ref_cells_` of `S` are exactly the cells at the positions of `R`, (ii) a cell exists at every
position of `R` and one that was absent before is Empty with empty text, (iii) `S` is in the
`dep_cells_` of every cell of `R` and of no other cell, (iv) the `dep_cells_` of `S`, the
`ref_cells_` of every other cell and the other members of every `dep_cells_` are unchanged. -/
theorem commit_postcondition (ops : List Op) (hops : ∀ op ∈ ops, op.isSet = true)
    (sh : Sheet E) (hrun : run ops Sheet.empty = some sh) (S : Position) (text : String)
    (impl : Impl E) (hb : buildImpl text = some impl) (s' : Sheet E)
    (hset : SetCell S text sh = .ok () s') :
    (∀ x, x ∈ s'.refs S ↔ x ∈ impl.GetReferencedCells) ∧
    (∀ r ∈ impl.GetReferencedCells, (s'.live r).isSome ∧
      (sh.live r = none → s'.impl r = some .EmptyImpl ∧
        (s'.impl r).map Impl.GetText = some "")) ∧
    (∀ q, S ∈ s'.deps q ↔ q ∈ impl.GetReferencedCells) ∧
    (∀ x, x ∈ s'.deps S ↔ x ∈ sh.deps S) ∧
    (∀ p q, p ≠ S → (q ∈ s'.refs p ↔ q ∈ sh.refs p)) ∧
    (∀ q x, x ≠ S → (x ∈ s'.deps q ↔ x ∈ sh.deps q)) := by
  have g : Good sh := by
    obtain ⟨sh', h1, g⟩ := run_set_good hops (Good.init (E := E))
    rw [hrun] at h1
    cases h1
    exact g
  obtain ⟨hv, c, impl', s4, hl, hb', hchk, hi, hinv⟩ := SetCell_ok hset
  rw [hb] at hb'
  cases hb'
  have g1 := g.prepared hv
  have hspec := HasCircularDependency_spec (sh.ensure S) S impl
  rw [hchk] at hspec
  have g4 : Good s4 := g1.commit hl hspec.2.2 hi
  obtain ⟨-, -, -, i4, i5, i6, i7⟩ := install_ok hl hi
  have hsame := InvalidateAllCache_ok hinv
  have hcref : c.ref_cells_ = (sh.ensure S).refs S := (Sheet.refs_of_live hl).symm
  have hSR : S ∉ impl.GetReferencedCells := by
    intro hS
    have := hspec.2.2 S Relation.ReflTransGen.refl hS
    rw [hl] at this
    cases this
  have hSS : S ∉ c.ref_cells_ := by
    intro hS
    rw [hcref] at hS
    exact g1.acyclic S (Relation.TransGen.single hS)
  refine ⟨?_, ?_, ?_, ?_, ?_, ?_⟩
  · intro x
    rw [hsame.2.1 S, i6 S x]
    simp
  · intro r hr
    have hr4 : (s4.live r).isSome := g4.noNull r ((i4 r).2 (Or.inr hr))
    refine ⟨by rw [hsame.live_isSome]; exact hr4, ?_⟩
    intro hdead
    have hrS : r ≠ S := fun h => hSR (h ▸ hr)
    have hrk : r ∉ sh.keys := by
      intro hk
      have := g.noNull r hk
      rw [hdead] at this
      simp at this
    have hrk1 : r ∉ (sh.ensure S).keys := by
      intro hk
      rcases (Sheet.ensure_keys sh S r).1 hk with h | h
      · exact hrk h
      · exact hrS h
    have h5 := i5 r
    simp only [hrS, if_false, hr, hrk1, not_false_eq_true, and_self, if_true] at h5
    have h6 := hsame.2.2.2 r
    rw [h5] at h6
    cases hj : s'.impl r with
    | none => rw [hj] at h6; simp at h6
    | some j =>
      rw [hj] at h6
      simp only [Option.map_some', Option.some.injEq] at h6
      rcases Impl.eq_up_to_cache h6 with ⟨-, h7⟩ | ⟨t, v, h7, -⟩ | ⟨f, t, c1, c2, h7, -⟩
      · rw [h7]; exact ⟨rfl, rfl⟩
      · cases h7
      · cases h7
  · intro q
    rw [hsame.2.2.1 q, i7 q S]
    constructor
    · rintro (⟨h1, h2⟩ | ⟨-, h1⟩)
      · exfalso
        apply h2
        refine ⟨rfl, ?_⟩
        rw [hcref]
        exact (g1.sym_all S q).2 h1
      · exact h1
    · intro h1
      exact Or.inr ⟨rfl, h1⟩
  · intro x
    rw [hsame.2.2.1 S, i7 S x, Sheet.ensure_deps]
    constructor
    · rintro (⟨h1, -⟩ | ⟨-, h1⟩)
      · exact h1
      · exact absurd h1 hSR
    · intro h1
      exact Or.inl ⟨h1, fun h => hSS h.2⟩
  · intro p q hp
    rw [hsame.2.1 p, i6 p q, Sheet.ensure_refs]
    simp [hp]
  · intro q x hx
    rw [hsame.2.2.1 q, i7 q x, Sheet.ensure_deps]
    simp [hx]

theorem commit_postcondition_witness :
    SetCell A3 "=A1+A2" (demoSheet [.set A1 "=A2"]) =
        .ok () (demoSheet [.set A1 "=A2", .set A3 "=A1+A2"]) ∧
      (demoSheet [.set A1 "=A2", .set A3 "=A1+A2"]).refs A3 = [A2, A1] ∧
      (demoSheet [.set A1 "=A2", .set A3 "=A1+A2"]).deps A2 = [A3, A1] ∧
      (∀ q, A3 ∈ (demoSheet [.set A1 "=A2", .set A3 "=A1+A2"]).deps q ↔
        q ∈ (Impl.FormulaImpl (E := demo) (.add (.cell A1) (.cell A2)) "=R0C0+R1C0"
          none).GetReferencedCells) :=
  ⟨rfl, rfl, rfl,
    (commit_postcondition (E := demo) [.set A1 "=A2"] (by decide) (demoSheet [.set A1 "=A2"])
      rfl A3 "=A1+A2" (.FormulaImpl (.add (.cell A1) (.cell A2)) "=R0C0+R1C0" none) rfl
      (demoSheet [.set A1 "=A2", .set A3 "=A1+A2"]) rfl).2.2.1⟩

/-- C20. Invalidation terminates and does no duplicate work: on a sheet reached by `SetCell`
and `GetValue` calls, `InvalidateAllCache` started on any cell returns; it calls
`InvalidateCache` on each formula cell at most once, also when the cell is reached along
several paths; and on a formula cell whose cache is empty it changes nothing and visits no
cell. -/
theorem invalidation_no_duplicate_work (ops : List Op)
    (hops : ∀ op ∈ ops, op.isSetOrValue = true) (sh : Sheet E)
    (hrun : run ops Sheet.empty = some sh) (this : Position) (hlive : (sh.live this).isSome) :
    ∃ log s', InvalidateAllCacheLog (sh.keys.length + 1) this sh = .ok log s' ∧
      InvalidateAllCache (sh.keys.length + 1) this sh = .ok () s' ∧
      (∀ p, sh.isFormula p → log.count p ≤ 1) ∧
      (sh.emptyCache this → log = [] ∧ s' = sh) := by
  have g := run_good hops (Good.init (E := E)) hrun
  obtain ⟨s', h5, -⟩ := InvalidateAllCache_total g (sh.keys.length + 1) [] this sh
    (SameUpToCache.refl sh) List.nodup_nil (by simp) (by simp) hlive (by simp)
  have hf := InvalidateAllCacheLog_forget (sh.keys.length + 1) this sh
  rw [h5] at hf
  obtain ⟨log, hlog⟩ := Outcome.forget_ok hf
  refine ⟨log, s', hlog, h5, (InvalidateAllCacheLog_invalidated _ _ _ _ _ hlog).once, ?_⟩
  rintro ⟨f, t, hi⟩
  obtain ⟨c, hc, hci⟩ := Sheet.live_of_impl hi
  have : InvalidateAllCacheLog (sh.keys.length + 1) this sh = .ok [] sh := by
    simp [InvalidateAllCacheLog, hc, hci, Impl.HasCache]
  rw [this] at hlog
  simp only [Outcome.ok.injEq] at hlog
  exact ⟨hlog.1.symm, hlog.2.symm⟩

theorem invalidation_no_duplicate_work_witness :
    (demoSheet diamondRun).deps B1 = [A2, A1] ∧
      (demoSheet diamondRun).deps A1 = [A3] ∧ (demoSheet diamondRun).deps A2 = [A3] ∧
      ((demoSheet diamondRun).impl A3).map Impl.HasCache = some true ∧
      reportOf (InvalidateAllCacheLog ((demoSheet diamondRun).keys.length + 1) B1
        (demoSheet diamondRun)) = [B1, A2, A3, A1] ∧
      ∃ log s', InvalidateAllCacheLog ((demoSheet diamondRun).keys.length + 1) B1
          (demoSheet diamondRun) = .ok log s' ∧
        InvalidateAllCache ((demoSheet diamondRun).keys.length + 1) B1 (demoSheet diamondRun) =
          .ok () s' ∧
        (∀ p, (demoSheet diamondRun).isFormula p → log.count p ≤ 1) ∧
        ((demoSheet diamondRun).emptyCache B1 → log = [] ∧ s' = demoSheet diamondRun) :=
  ⟨rfl, rfl, rfl, rfl, rfl,
    invalidation_no_duplicate_work (E := demo) diamondRun (by decide) (demoSheet diamondRun) rfl
      B1 rfl⟩

/-- C19, as the code has it. The cycle check terminates and is order-independent: on every
finite graph of cells, also one whose `dep_cells_` edges contain a cycle, the worklist loop of
`HasCircularDependency` ends by returning `false` or by throwing; it pops only cells reached
from the source through `dep_cells_` edges, and it has popped every such cell when it returns
`false`; the result of `HasCircularDependency` is the same for every order in which the
dependents are stored; when the loop throws, the cell popped last is in the reference set and
no cell popped before it is, and when it returns `false` no popped cell is in that set. -/
theorem cycle_check_terminates_order_free (sh : Sheet E) (this : Position)
    (hthis : (sh.live this).isSome) (hcl : ∀ p x, x ∈ sh.deps p → (sh.live x).isSome)
    (rc : List (Option Position)) :
    (searchPopped sh rc (searchFuel sh) [] [this]).2 = searchLoop sh rc (searchFuel sh) [] [this] ∧
    (searchLoop sh rc (searchFuel sh) [] [this] = .ok false () ∨
      searchLoop sh rc (searchFuel sh) [] [this] = .threw .CircularDependencyException ()) ∧
    (∀ x ∈ (searchPopped sh rc (searchFuel sh) [] [this]).1, Reach sh this x) ∧
    (searchLoop sh rc (searchFuel sh) [] [this] = .ok false () →
      ∀ x, Reach sh this x → x ∈ (searchPopped sh rc (searchFuel sh) [] [this]).1) ∧
    (∀ sh' : Sheet E, SameGraph sh sh' → ∀ impl : Impl E,
      HasCircularDependency sh' this impl = HasCircularDependency sh this impl) ∧
    (searchLoop sh rc (searchFuel sh) [] [this] = .threw .CircularDependencyException () →
      ∃ c rest, (searchPopped sh rc (searchFuel sh) [] [this]).1 = c :: rest ∧ some c ∈ rc ∧
        ∀ x ∈ rest, some x ∉ rc) ∧
    (searchLoop sh rc (searchFuel sh) [] [this] = .ok false () →
      ∀ x ∈ (searchPopped sh rc (searchFuel sh) [] [this]).1, some x ∉ rc) := by
  have inv : LoopInv sh this rc [] [this] :=
    ⟨fun x hx => by simp at hx; exact hx ▸ Relation.ReflTransGen.refl, by simp, by simp,
      by simp, Or.inr (List.mem_singleton_self _)⟩
  have hout := searchPopped_outcome sh rc (searchFuel sh) [] [this]
  have hspec := searchPopped_spec sh this rc (searchFuel sh) [] [this] inv (by simp)
  have hhit := searchPopped_hit sh rc (searchFuel sh) [] [this] (by simp)
  refine ⟨hout, ?_, hspec.1, ?_, ?_, ?_, ?_⟩
  · rcases searchLoop_verdict sh this rc hthis hcl with ⟨h1, -⟩ | ⟨h1, -⟩
    · exact Or.inl h1
    · exact Or.inr h1
  · intro h
    exact hspec.2 (by rw [hout]; exact h)
  · intro sh' h impl
    exact HasCircularDependency_congr h this hthis hcl impl
  · intro h
    exact hhit.1 (by rw [hout]; exact h)
  · intro h
    exact hhit.2 (by rw [hout]; exact h)

theorem cycle_check_terminates_order_free_witness :
    (demoSheet diamondRun).deps B1 = [A2, A1] ∧
      searchPopped (demoSheet diamondRun) [some A3] (searchFuel (demoSheet diamondRun)) []
        [B1] = ([A3, A1, B1], .threw .CircularDependencyException ()) ∧
      searchPopped (demoSheet diamondRun) [none] (searchFuel (demoSheet diamondRun)) []
        [B1] = ([A2, A3, A1, B1], .ok false ()) ∧
      (∀ x ∈ (searchPopped (demoSheet diamondRun) [some A3] (searchFuel (demoSheet diamondRun))
        [] [B1]).1, Reach (demoSheet diamondRun) B1 x) ∧
      ∃ c rest, (searchPopped (demoSheet diamondRun) [some A3]
          (searchFuel (demoSheet diamondRun)) [] [B1]).1 = c :: rest ∧
        some c ∈ [some A3] ∧ ∀ x ∈ rest, some x ∉ [some A3] :=
  have h := cycle_check_terminates_order_free (E := demo) (demoSheet diamondRun) B1 rfl
    (@run_good demo diamondRun (by decide) Sheet.empty (demoSheet diamondRun) Good.init rfl
      |> fun g p x hx => g.noNull x (g.linked.closed p x (Or.inr hx)))
    [some A3]
  ⟨rfl, rfl, rfl, h.2.2.1, h.2.2.2.2.2.1 rfl⟩

/-- C19, as it is written, fails: on the sheet where `A2` holds `=A1`, the search started by
`SetCell(A1, "=A1")` pops the source `A1`, finds it in the reference set and throws; the cell
`A2`, reached from `A1` through `dep_cells_`, is never popped. -/
theorem cycle_check_stops_at_first_hit :
    (demoSheet dependentRun).deps A1 = [A2] ∧
      Reach (demoSheet dependentRun) A1 A2 ∧
      searchPopped (demoSheet dependentRun) [some A1] (searchFuel (demoSheet dependentRun)) []
        [A1] = ([A1], .threw .CircularDependencyException ()) ∧
      A2 ∉ (searchPopped (demoSheet dependentRun) [some A1]
        (searchFuel (demoSheet dependentRun)) [] [A1]).1 ∧
      HasCircularDependency (demoSheet dependentRun) A1
        (.FormulaImpl (DemoExpr.cell A1) "=R0C0" none) =
          .threw .CircularDependencyException () :=
  ⟨rfl, Relation.ReflTransGen.single (show A2 ∈ (demoSheet dependentRun).deps A1 by decide),
    rfl, by decide, rfl⟩

/-- C18. Print layout: on every sheet reached by `SetCell`, `ClearCell` and `GetValue` calls,
with `(rows, cols)` the result of `GetPrintableSize()`, `PrintTexts` writes `rows` lines, each
ended by a newline and made of `cols` fields with a tab between neighbours, where the field of
a slot is `GetText()` of its cell and the empty string for an absent, cleared or empty-text
slot; `PrintValues` returns and writes the same layout with the current value of every cell
with non-empty text in place of its text. -/
theorem print_layout (showNum : E.Num → String) (showErr : E.FErr → String) (ops : List Op)
    (sh : Sheet E) (hrun : run ops Sheet.empty = some sh) :
    (0 ≤ (GetPrintableSize sh).rows ∧ 0 ≤ (GetPrintableSize sh).cols) ∧
    PrintTexts sh = renderLines (fieldTable (textField sh)
      (GetPrintableSize sh).rows.toNat (GetPrintableSize sh).cols.toNat) ∧
    (∃ s', PrintValues showNum showErr sh =
        .ok (renderLines (fieldTable (valueField showNum showErr sh)
          (GetPrintableSize sh).rows.toNat (GetPrintableSize sh).cols.toNat)) s' ∧
      SameUpToCache sh s') ∧
    (∀ field : Nat → Nat → String,
      (fieldTable field (GetPrintableSize sh).rows.toNat
        (GetPrintableSize sh).cols.toNat).length = (GetPrintableSize sh).rows.toNat ∧
      (∀ line ∈ fieldTable field (GetPrintableSize sh).rows.toNat
        (GetPrintableSize sh).cols.toNat, line.length = (GetPrintableSize sh).cols.toNat) ∧
      ∀ r c, r < (GetPrintableSize sh).rows.toNat → c < (GetPrintableSize sh).cols.toNat →
        ((fieldTable field (GetPrintableSize sh).rows.toNat
          (GetPrintableSize sh).cols.toNat).get? r).bind (fun line => line.get? c) =
            some (field r c)) ∧
    (∀ r c, (∀ cell, sh.live (cellAt r c) = some cell → textField sh r c = cell.impl_.GetText) ∧
      (sh.live (cellAt r c) = none → textField sh r c = "")) := by
  have g : Sound sh := run_sound Sound.start hrun
  refine ⟨GetPrintableSize_nonneg sh, ?_, ?_, ?_, ?_⟩
  · unfold PrintTexts fieldTable
    rw [printTextsRows_eq, printRows_eq]
    simp
  · obtain ⟨s', h, hs⟩ := printValuesRows_eq showNum showErr g
      (GetPrintableSize sh).cols.toNat (List.range (GetPrintableSize sh).rows.toNat) sh ""
      (SameUpToCache.refl sh)
    refine ⟨s', ?_, hs⟩
    unfold PrintValues fieldTable
    rw [h, printRows_eq]
    simp
  · intro field
    refine ⟨by simp [fieldTable], ?_, ?_⟩
    · intro line hline
      simp only [fieldTable, List.mem_map, List.mem_range] at hline
      obtain ⟨r, -, hr⟩ := hline
      rw [← hr]
      simp
    · intro r c hr hc
      simp [fieldTable, List.get?_eq_getElem?, List.getElem?_map, List.getElem?_range, hr, hc]
  · intro r c
    constructor
    · intro cell hcell
      simp [textField, hcell]
    · intro hnone
      simp [textField, hnone]

theorem print_layout_witness :
    GetPrintableSize (demoSheet printRun) = ⟨3, 2⟩ ∧
      (demoSheet printRun).live A1 = none ∧
      PrintTexts (demoSheet printRun) = "\t=R0C0\n\t\n'x\t\n" ∧
      written (PrintValues demoShowNum demoShowErr (demoSheet printRun)) =
        some "\t0\n\t\nx\t\n" ∧
      PrintTexts (demoSheet printRun) = renderLines (fieldTable (textField (demoSheet printRun))
        (GetPrintableSize (demoSheet printRun)).rows.toNat
        (GetPrintableSize (demoSheet printRun)).cols.toNat) :=
  ⟨rfl, rfl, by decide, by decide,
    (print_layout (E := demo) demoShowNum demoShowErr printRun (demoSheet printRun) rfl).2.1⟩

end Spreadsheet
